import Mathlib

/-!
Verification of the tabu-search repository (TSP path solutions with swap /
segment-shift / segment-reverse neighborhoods, class-level tabu lists, and the
drone-and-truck (D2D) routing simulator).

City indices of an `n`-city TSP instance are modelled as `ZMod n` (the source
uses integers `0 .. n-1` with wrap-around successor/predecessor structure).
Floating-point quantities are modelled as exact rationals (TSP distances) or
reals (D2D, whose distance function takes a square root).
-/

set_option autoImplicit false

namespace TabuSearch

/-! ## TSP data model: `src/tsp/solutions.py` (`PathSolution`) -/

/-- The TSP solution representation: two redundant adjacency arrays
`after` and `before` (source: `PathSolution.__slots__`, lines 21-45). -/
structure PathSolution (n : ℕ) where
  after : ZMod n → ZMod n
  before : ZMod n → ZMod n

variable {n : ℕ}

/-- The Hamiltonian-cycle invariant of a TSP solution: `after`/`before` are
mutual inverses, and following `after` from the depot `0` returns to `0`
after exactly `n` steps, touching each city exactly once. -/
def PathSolution.Valid [NeZero n] (s : PathSolution n) : Prop :=
  (∀ c, s.before (s.after c) = c) ∧ (∀ c, s.after (s.before c) = c) ∧
    s.after^[n] (0 : ZMod n) = 0 ∧
    (∀ k l : Fin n, s.after^[k.val] (0 : ZMod n) = s.after^[l.val] 0 → k = l) ∧
    (∀ c : ZMod n, ∃ k : Fin n, s.after^[k.val] (0 : ZMod n) = c)

instance [NeZero n] (s : PathSolution n) : Decidable s.Valid := by
  unfold PathSolution.Valid; infer_instance

/-- The solution determined by a path permutation `p` of the cities:
`p k` is the city visited at step `k` of the cycle. -/
def ofPerm [NeZero n] (p : Equiv.Perm (ZMod n)) : PathSolution n :=
  ⟨fun c => p (p.symm c + 1), fun c => p (p.symm c - 1)⟩

theorem ofPerm_after_iterate [NeZero n] (p : Equiv.Perm (ZMod n)) (c : ZMod n) :
    ∀ k : ℕ, (ofPerm p).after^[k] c = p (p.symm c + k) := by
  intro k
  induction k with
  | zero => simp
  | succ k ih =>
    rw [Function.iterate_succ_apply', ih]
    show p (p.symm (p (p.symm c + k)) + 1) = _
    rw [Equiv.symm_apply_apply]
    push_cast
    ring_nf

theorem ofPerm_valid [NeZero n] (p : Equiv.Perm (ZMod n)) : (ofPerm p).Valid := by
  refine ⟨?_, ?_, ?_, ?_, ?_⟩
  · intro c
    show p (p.symm (p (p.symm c + 1)) - 1) = c
    rw [Equiv.symm_apply_apply]; simp
  · intro c
    show p (p.symm (p (p.symm c - 1)) + 1) = c
    rw [Equiv.symm_apply_apply]; simp
  · rw [ofPerm_after_iterate]
    simp [ZMod.natCast_self]
  · intro k l h
    rw [ofPerm_after_iterate, ofPerm_after_iterate] at h
    have h2 : (k.val : ZMod n) = (l.val : ZMod n) := by
      have := p.injective h
      exact add_left_cancel this
    have : k.val = l.val := by
      have := congrArg ZMod.val h2
      rwa [ZMod.val_cast_of_lt k.isLt, ZMod.val_cast_of_lt l.isLt] at this
    exact Fin.ext this
  · intro c
    refine ⟨⟨(p.symm c - p.symm 0).val, ZMod.val_lt _⟩, ?_⟩
    rw [ofPerm_after_iterate]
    simp [ZMod.natCast_val, ZMod.cast_id]

theorem valid_exists_perm [NeZero n] (s : PathSolution n) (hs : s.Valid) :
    ∃ p : Equiv.Perm (ZMod n), s = ofPerm p := by
  obtain ⟨hba, hab, hper, hinj, hsurj⟩ := hs
  -- the orbit map, as a function on `ZMod n`
  set orb : ZMod n → ZMod n := fun k => s.after^[k.val] 0 with horb
  have horb_inj : Function.Injective orb := by
    intro k l h
    have := hinj ⟨k.val, ZMod.val_lt k⟩ ⟨l.val, ZMod.val_lt l⟩ h
    have hv : k.val = l.val := congrArg Fin.val this
    exact ZMod.val_injective n hv
  have horb_bij : Function.Bijective orb :=
    (Finite.injective_iff_bijective).mp horb_inj
  set p : Equiv.Perm (ZMod n) := Equiv.ofBijective orb horb_bij with hp
  have hp_apply : ∀ k, p k = s.after^[k.val] 0 := fun _ => rfl
  -- `after` advances the orbit by one step
  have hstep : ∀ k : ZMod n, s.after (p k) = p (k + 1) := by
    intro k
    rw [hp_apply, hp_apply]
    rcases Nat.lt_or_ge (k.val + 1) n with hlt | hge
    · have : (k + 1).val = k.val + 1 := by
        rw [ZMod.val_add, ZMod.val_one_eq_one_mod]
        rcases Nat.lt_or_ge 1 n with h1 | h1
        · rw [Nat.mod_eq_of_lt h1, Nat.mod_eq_of_lt hlt]
        · interval_cases n
          · exact absurd rfl (NeZero.ne 0)
          · omega
      rw [this, ← Function.iterate_succ_apply' s.after k.val 0]
    · have hkv : k.val = n - 1 := by have := ZMod.val_lt k; omega
      have hn1 : k.val + 1 = n := by have := NeZero.pos n; omega
      have hk1 : (k + 1).val = 0 := by
        have : k + 1 = 0 := by
          have : (k.val : ZMod n) + 1 = 0 := by
            have : ((k.val + 1 : ℕ) : ZMod n) = 0 := by rw [hn1]; exact ZMod.natCast_self n
            push_cast at this; linear_combination this
          rwa [ZMod.natCast_val, ZMod.cast_id] at this
        rw [this, ZMod.val_zero]
      rw [hk1]
      show s.after (s.after^[k.val] 0) = s.after^[0] 0
      rw [← Function.iterate_succ_apply' s.after k.val 0]
      have h' : k.val.succ = n := hn1
      rw [h', hper]
      rfl
  refine ⟨p, ?_⟩
  have hafter : s.after = (ofPerm p).after := by
    funext c
    obtain ⟨k, hk⟩ := horb_bij.2 c
    show s.after c = p (p.symm c + 1)
    rw [← hk]
    show s.after (p k) = p (p.symm (p k) + 1)
    rw [Equiv.symm_apply_apply, hstep]
  have hbefore : s.before = (ofPerm p).before := by
    funext c
    obtain ⟨b, hb⟩ : ∃ b, s.after b = c := by
      obtain ⟨k, hk⟩ := horb_bij.2 c
      rcases k.val.eq_zero_or_pos with h0 | hpos
      · refine ⟨s.after^[n - 1] 0, ?_⟩
        rw [← Function.iterate_succ_apply' s.after (n - 1) 0]
        have h' : (n - 1).succ = n := by have := NeZero.pos n; omega
        rw [h', hper, ← hk]
        show (0 : ZMod n) = s.after^[k.val] 0
        rw [h0]
        rfl
      · refine ⟨s.after^[k.val - 1] 0, ?_⟩
        rw [← Function.iterate_succ_apply' s.after (k.val - 1) 0]
        have h' : (k.val - 1).succ = k.val := by omega
        rw [h', ← hk]
    rw [← hb, hba b]
    obtain ⟨k, hk⟩ := horb_bij.2 b
    rw [← hk]
    show p k = p ((Equiv.symm p) (s.after (p k)) - 1)
    rw [hstep, Equiv.symm_apply_apply]
    congr 1
    ring
  cases s
  simp only [ofPerm] at hafter hbefore ⊢
  rw [PathSolution.mk.injEq]
  exact ⟨hafter, hbefore⟩

/-! ## TSP cost model (`PathSolution.cost`, source lines 47-59) -/

/-- The fuelled walk of `PathSolution.cost`: starting from
`last, current = 0, after[0]`, add `distances[last][current]` and advance until
`current` returns to the depot, then add the closing edge.  `none` models
non-termination of the `while` loop (impossible on a valid cycle). -/
def walkAux (d : ZMod n → ZMod n → ℚ) (after : ZMod n → ZMod n) :
    ℕ → ZMod n → ZMod n → ℚ → Option ℚ
  | 0, _, _, _ => none
  | fuel + 1, last, current, acc =>
    if current = 0 then some (acc + d last current)
    else walkAux d after fuel current (after current) (acc + d last current)

/-- Recomputing a solution's cost from scratch by walking the cycle
(source `PathSolution.cost`, lines 47-59), with fuel `n`. -/
def PathSolution.scratchCost (s : PathSolution n) (d : ZMod n → ZMod n → ℚ) : Option ℚ :=
  walkAux d s.after n 0 (s.after 0) 0

/-- The round-trip edge-length sum of a solution, as a closed sum. -/
def PathSolution.fullCost [NeZero n] (s : PathSolution n) (d : ZMod n → ZMod n → ℚ) : ℚ :=
  ∑ c : ZMod n, d c (s.after c)

theorem zmod_eq_zero_of_one_eq_zero (h : (1 : ZMod n) = 0) (c : ZMod n) : c = 0 := by
  have := mul_one c
  rw [h, mul_zero] at this
  exact this.symm

theorem zmod_natCast_ne_zero [NeZero n] (k : ℕ) (h0 : 0 < k) (hn : k < n) :
    (k : ZMod n) ≠ 0 := by
  intro h
  have := congrArg ZMod.val h
  rw [ZMod.val_cast_of_lt hn, ZMod.val_zero] at this
  omega

theorem walkAux_ofPerm [NeZero n] (d : ZMod n → ZMod n → ℚ) (p : Equiv.Perm (ZMod n)) :
    ∀ f : ℕ, 1 ≤ f → f ≤ n → ∀ acc : ℚ,
      walkAux d (ofPerm p).after f (p (p.symm 0 + (n - f : ℕ))) (p (p.symm 0 + (n - f : ℕ) + 1)) acc =
        some (acc + ∑ j ∈ Finset.range f,
          d (p (p.symm 0 + (n - f + j : ℕ))) (p (p.symm 0 + (n - f + j : ℕ) + 1))) := by
  have hn := NeZero.pos n
  intro f
  induction f with
  | zero => omega
  | succ f ih =>
    intro _ hfn acc
    rcases Nat.eq_zero_or_pos f with hf0 | hfpos
    · subst hf0
      have hcast : ((n - 1 : ℕ) : ZMod n) + 1 = 0 := by
        have : (((n - 1) + 1 : ℕ) : ZMod n) = 0 := by
          have h1 : (n - 1) + 1 = n := by omega
          rw [h1]; exact ZMod.natCast_self n
        push_cast at this
        linear_combination this
      have hcur : p (p.symm 0 + (n - 1 : ℕ) + 1) = 0 := by
        rw [add_assoc, hcast, add_zero, Equiv.apply_symm_apply]
      rw [walkAux, if_pos hcur, Finset.sum_range_one]
      simp only [Nat.add_zero, hcur]
    · have hne : p (p.symm 0 + (n - (f + 1) : ℕ) + 1) ≠ 0 := by
        intro h
        have h1 : p.symm 0 + ((n - (f + 1) : ℕ) : ZMod n) + 1 = p.symm 0 := by
          have h0 := congrArg p.symm h
          rwa [Equiv.symm_apply_apply] at h0
        have h3 : (((n - (f + 1)) + 1 : ℕ) : ZMod n) = 0 := by
          push_cast
          linear_combination h1
        exact zmod_natCast_ne_zero _ (by omega) (by omega) h3
      rw [walkAux, if_neg hne]
      have hstep : (ofPerm p).after (p (p.symm 0 + (n - (f + 1) : ℕ) + 1)) =
          p (p.symm 0 + (n - f : ℕ) + 1) := by
        show p (p.symm (p (p.symm 0 + (n - (f + 1) : ℕ) + 1)) + 1) = _
        rw [Equiv.symm_apply_apply]
        congr 1
        have : ((n - f : ℕ) : ZMod n) = ((n - (f + 1) : ℕ) : ZMod n) + 1 := by
          have h1 : (n - f : ℕ) = (n - (f + 1)) + 1 := by omega
          rw [h1]; push_cast; ring
        rw [this]; ring
      rw [hstep]
      have hlast : p (p.symm 0 + ((n - (f + 1) : ℕ) : ZMod n) + 1) =
          p (p.symm 0 + ((n - f : ℕ) : ZMod n)) := by
        congr 1
        have : ((n - f : ℕ) : ZMod n) = ((n - (f + 1) : ℕ) : ZMod n) + 1 := by
          have h1 : (n - f : ℕ) = (n - (f + 1)) + 1 := by omega
          rw [h1]; push_cast; ring
        rw [this]; ring
      nth_rewrite 1 [hlast]
      have ihx := ih hfpos (by omega) (acc + d (p (p.symm 0 + (n - (f + 1) : ℕ)))
        (p (p.symm 0 + (n - (f + 1) : ℕ) + 1)))
      rw [ihx]
      congr 1
      rw [Finset.sum_range_succ']
      have hidx : ∀ j : ℕ, (n - (f + 1)) + (j + 1) = (n - f) + j := by omega
      have hidx0 : (n - (f + 1)) + 0 = n - (f + 1) := by omega
      simp only [hidx, hidx0]
      ring

theorem zmod_natCast_val_self [NeZero n] (w : ZMod n) : ((w.val : ℕ) : ZMod n) = w := by
  apply ZMod.val_injective
  rw [ZMod.val_cast_of_lt (ZMod.val_lt w)]

theorem sum_range_zmod [NeZero n] (G : ZMod n → ℚ) :
    ∑ j ∈ Finset.range n, G ((j : ℕ) : ZMod n) = ∑ w : ZMod n, G w := by
  refine Finset.sum_nbij' (fun j => ((j : ℕ) : ZMod n)) (fun w => w.val) ?_ ?_ ?_ ?_ ?_
  · intro a _; exact Finset.mem_univ _
  · intro w _
    exact Finset.mem_range.mpr (ZMod.val_lt w)
  · intro a ha
    exact ZMod.val_cast_of_lt (Finset.mem_range.mp ha)
  · intro w _
    exact zmod_natCast_val_self w
  · intro a _; rfl

/-- On a valid solution, recomputing the cost from scratch terminates and gives
the full round-trip edge sum. -/
theorem scratchCost_of_valid [NeZero n] (d : ZMod n → ZMod n → ℚ) (s : PathSolution n)
    (hs : s.Valid) : s.scratchCost d = some (s.fullCost d) := by
  obtain ⟨p, rfl⟩ := valid_exists_perm s hs
  have hn := NeZero.pos n
  have h := walkAux_ofPerm d p n hn le_rfl 0
  rw [Nat.sub_self] at h
  have hz : p (p.symm 0 + ((0 : ℕ) : ZMod n)) = 0 := by
    simp
  have hafter0 : (ofPerm p).after 0 = p (p.symm 0 + ((0 : ℕ) : ZMod n) + 1) := by
    show p (p.symm 0 + 1) = _
    simp
  rw [hz, ← hafter0] at h
  show walkAux d (ofPerm p).after n 0 ((ofPerm p).after 0) 0 = _
  rw [h]
  congr 1
  rw [zero_add]
  have hterm : ∀ j : ℕ, d (p (p.symm 0 + ((0 + j : ℕ) : ZMod n)))
      (p (p.symm 0 + ((0 + j : ℕ) : ZMod n) + 1))
      = d (p (p.symm 0 + ((j : ℕ) : ZMod n)))
        ((ofPerm p).after (p (p.symm 0 + ((j : ℕ) : ZMod n)))) := by
    intro j
    have hz0 : (0 + j : ℕ) = j := by omega
    rw [hz0]
    congr 1
    show _ = p (p.symm (p (p.symm 0 + (j : ZMod n))) + 1)
    rw [Equiv.symm_apply_apply]
  calc ∑ j ∈ Finset.range n, d (p (p.symm 0 + ((0 + j : ℕ) : ZMod n)))
        (p (p.symm 0 + ((0 + j : ℕ) : ZMod n) + 1))
      = ∑ j ∈ Finset.range n, d (p (p.symm 0 + ((j : ℕ) : ZMod n)))
          ((ofPerm p).after (p (p.symm 0 + ((j : ℕ) : ZMod n)))) := by
        exact Finset.sum_congr rfl (fun j _ => hterm j)
    _ = ∑ w : ZMod n, d (p (p.symm 0 + w)) ((ofPerm p).after (p (p.symm 0 + w))) :=
        sum_range_zmod (fun w => d (p (p.symm 0 + w)) ((ofPerm p).after (p (p.symm 0 + w))))
    _ = (ofPerm p).fullCost d := by
        unfold PathSolution.fullCost
        exact Equiv.sum_comp ((Equiv.addLeft (p.symm 0)).trans p)
          (fun c => d c ((ofPerm p).after c))

/-- If two solutions' `after` arrays agree outside a finite set `S`, the full
costs differ by the sum of per-vertex edge differences over `S`. -/
theorem fullCost_sub [NeZero n] (d : ZMod n → ZMod n → ℚ) (s t : PathSolution n)
    (S : Finset (ZMod n)) (h : ∀ c, c ∉ S → t.after c = s.after c) :
    t.fullCost d = s.fullCost d + ∑ c ∈ S, (d c (t.after c) - d c (s.after c)) := by
  have hS : ∑ c ∈ S, (d c (t.after c) - d c (s.after c))
      = ∑ c : ZMod n, (d c (t.after c) - d c (s.after c)) :=
    Finset.sum_subset (Finset.subset_univ S) (by intro c _ hc; rw [h c hc]; ring)
  rw [hS]
  unfold PathSolution.fullCost
  rw [Finset.sum_sub_distrib]
  ring

/-! ## `SwapNeighborhood.swap` (source lines 202-227) -/

/-- `SwapNeighborhood.swap`: exchange cities `x` and `y` in the cycle.  The
update order follows the source exactly: `before[x], before[y] = before_y,
before_x`; `after[x], after[y] = after_y, after_x`; `after[before_x] =
before[after_x] = y`; `after[before_y] = before[after_y] = x`; the attached
cost is the O(1) delta update of lines 213-219 applied to `oldCost`
(the starting solution's `cost()`). -/
def swapMove (d : ZMod n → ZMod n → ℚ) (s : PathSolution n) (oldCost : ℚ)
    (x y : ZMod n) : PathSolution n × ℚ :=
  (⟨Function.update (Function.update
        (Function.update (Function.update s.after x (s.after y)) y (s.after x))
        (s.before x) y) (s.before y) x,
    Function.update (Function.update
        (Function.update (Function.update s.before x (s.before y)) y (s.before x))
        (s.after x) y) (s.after y) x⟩,
   oldCost
     + d (s.before x) y + d y (s.after x)
     + d (s.before y) x + d x (s.after y)
     - d (s.before x) x - d x (s.after x)
     - d (s.before y) y - d y (s.after y))

theorem swapMove_after_apply (d : ZMod n → ZMod n → ℚ) (s : PathSolution n)
    (oldCost : ℚ) (x y c : ZMod n) :
    ((swapMove d s oldCost x y).1).after c =
      if c = s.before y then x
      else if c = s.before x then y
      else if c = y then s.after x
      else if c = x then s.after y
      else s.after c := by
  simp only [swapMove, Function.update_apply]

theorem swapMove_before_apply (d : ZMod n → ZMod n → ℚ) (s : PathSolution n)
    (oldCost : ℚ) (x y c : ZMod n) :
    ((swapMove d s oldCost x y).1).before c =
      if c = s.after y then x
      else if c = s.after x then y
      else if c = y then s.before x
      else if c = x then s.before y
      else s.before c := by
  simp only [swapMove, Function.update_apply]

theorem swapMove_sol_eq [NeZero n] (d : ZMod n → ZMod n → ℚ) (oldCost : ℚ)
    (p : Equiv.Perm (ZMod n)) (x y : ZMod n)
    (hxy : x ≠ y)
    (haxy : (ofPerm p).after x ≠ y) (hayx : (ofPerm p).after y ≠ x) :
    (swapMove d (ofPerm p) oldCost x y).1 =
      ofPerm ((Equiv.swap (p.symm x) (p.symm y)).trans p) := by
  set i := p.symm x with hi
  set j := p.symm y with hj
  have hx : p i = x := p.apply_symm_apply x
  have hy : p j = y := p.apply_symm_apply y
  have h10 : (1 : ZMod n) ≠ 0 := by
    intro h
    exact hxy ((zmod_eq_zero_of_one_eq_zero h x).trans (zmod_eq_zero_of_one_eq_zero h y).symm)
  have hij : i ≠ j := fun h => hxy (by rw [← hx, ← hy, h])
  have hij1 : i + 1 ≠ j := by
    intro h
    apply haxy
    show p (p.symm x + 1) = y
    rw [← hi, h, hy]
  have hji1 : j + 1 ≠ i := by
    intro h
    apply hayx
    show p (p.symm y + 1) = x
    rw [← hj, h, hx]
  have hd1 : j - 1 ≠ i := by intro h; exact hij1 (by linear_combination -h)
  have hd2 : j - 1 ≠ j := by intro h; exact h10 (by linear_combination -h)
  have hd3 : i - 1 ≠ i := by intro h; exact h10 (by linear_combination -h)
  have hd4 : i - 1 ≠ j := by intro h; exact hji1 (by linear_combination -h)
  have hd5 : i + 1 ≠ i := by intro h; exact h10 (by linear_combination h)
  have hd6 : j + 1 ≠ j := by intro h; exact h10 (by linear_combination h)
  have hofb : ∀ c, (ofPerm p).before c = p (p.symm c - 1) := fun _ => rfl
  have hofa : ∀ c, (ofPerm p).after c = p (p.symm c + 1) := fun _ => rfl
  set q : Equiv.Perm (ZMod n) := (Equiv.swap i j).trans p with hq
  have hq_apply : ∀ w, q w = p (Equiv.swap i j w) := fun _ => rfl
  have hq_symm : ∀ c, (Equiv.symm q) c = Equiv.swap i j (p.symm c) := by
    intro c
    rw [hq]
    simp [Equiv.symm_swap]
  have hpby : (ofPerm p).before y = p (j - 1) := by rw [hofb, hj]
  have hpbx : (ofPerm p).before x = p (i - 1) := by rw [hofb, hi]
  have hpay : (ofPerm p).after y = p (j + 1) := by rw [hofa, hj]
  have hpax : (ofPerm p).after x = p (i + 1) := by rw [hofa, hi]
  have key_after : ∀ w : ZMod n,
      ((swapMove d (ofPerm p) oldCost x y).1).after (p w) = (ofPerm q).after (p w) := by
    intro w
    rw [swapMove_after_apply]
    have hrhs : (ofPerm q).after (p w) = q (Equiv.swap i j w + 1) := by
      show q (q.symm (p w) + 1) = _
      rw [hq_symm, Equiv.symm_apply_apply]
    rw [hrhs, hpby, hpbx, hpay, hpax, ← hx, ← hy]
    simp only [Equiv.apply_eq_iff_eq]
    rcases eq_or_ne w (j - 1) with h1 | h1
    · rw [if_pos h1, h1, Equiv.swap_apply_of_ne_of_ne hd1 hd2, sub_add_cancel,
        hq_apply, Equiv.swap_apply_right, hx]
    · rw [if_neg h1]
      rcases eq_or_ne w (i - 1) with h2 | h2
      · rw [if_pos h2, h2, Equiv.swap_apply_of_ne_of_ne hd3 hd4, sub_add_cancel,
          hq_apply, Equiv.swap_apply_left, hy]
      · rw [if_neg h2]
        rcases eq_or_ne w j with h3 | h3
        · rw [if_pos h3, h3, Equiv.swap_apply_right, hq_apply,
            Equiv.swap_apply_of_ne_of_ne hd5 hij1]
        · rw [if_neg h3]
          rcases eq_or_ne w i with h4 | h4
          · rw [if_pos h4, h4, Equiv.swap_apply_left, hq_apply,
              Equiv.swap_apply_of_ne_of_ne hji1 hd6]
          · rw [if_neg h4, Equiv.swap_apply_of_ne_of_ne h4 h3, hq_apply,
              Equiv.swap_apply_of_ne_of_ne
                (fun h => h2 (by linear_combination h))
                (fun h => h1 (by linear_combination h)),
              hofa (p w), Equiv.symm_apply_apply]
  have key_before : ∀ w : ZMod n,
      ((swapMove d (ofPerm p) oldCost x y).1).before (p w) = (ofPerm q).before (p w) := by
    intro w
    rw [swapMove_before_apply]
    have hrhs : (ofPerm q).before (p w) = q (Equiv.swap i j w - 1) := by
      show q (q.symm (p w) - 1) = _
      rw [hq_symm, Equiv.symm_apply_apply]
    rw [hrhs, hpby, hpbx, hpay, hpax, ← hx, ← hy]
    simp only [Equiv.apply_eq_iff_eq]
    rcases eq_or_ne w (j + 1) with h1 | h1
    · rw [if_pos h1, h1, Equiv.swap_apply_of_ne_of_ne hji1 hd6, add_sub_cancel_right,
        hq_apply, Equiv.swap_apply_right, hx]
    · rw [if_neg h1]
      rcases eq_or_ne w (i + 1) with h2 | h2
      · rw [if_pos h2, h2, Equiv.swap_apply_of_ne_of_ne hd5 hij1, add_sub_cancel_right,
          hq_apply, Equiv.swap_apply_left, hy]
      · rw [if_neg h2]
        rcases eq_or_ne w j with h3 | h3
        · rw [if_pos h3, h3, Equiv.swap_apply_right, hq_apply,
            Equiv.swap_apply_of_ne_of_ne hd3 hd4]
        · rw [if_neg h3]
          rcases eq_or_ne w i with h4 | h4
          · rw [if_pos h4, h4, Equiv.swap_apply_left, hq_apply,
              Equiv.swap_apply_of_ne_of_ne hd1 hd2]
          · rw [if_neg h4, Equiv.swap_apply_of_ne_of_ne h4 h3, hq_apply,
              Equiv.swap_apply_of_ne_of_ne
                (fun h => h2 (by linear_combination h))
                (fun h => h1 (by linear_combination h)),
              hofb (p w), Equiv.symm_apply_apply]
  have hafter : ((swapMove d (ofPerm p) oldCost x y).1).after = (ofPerm q).after := by
    funext c
    have h := key_after (p.symm c)
    rwa [p.apply_symm_apply] at h
  have hbefore : ((swapMove d (ofPerm p) oldCost x y).1).before = (ofPerm q).before := by
    funext c
    have h := key_before (p.symm c)
    rwa [p.apply_symm_apply] at h
  cases hsw : (swapMove d (ofPerm p) oldCost x y).1 with
  | mk a b =>
    rw [hsw] at hafter hbefore
    rw [show (ofPerm q) = ⟨(ofPerm q).after, (ofPerm q).before⟩ from rfl]
    exact congrArg₂ PathSolution.mk hafter hbefore

/-- After a non-skipped swap, the solution is again a valid Hamiltonian cycle. -/
theorem swapMove_valid [NeZero n] (d : ZMod n → ZMod n → ℚ) (c0 : ℚ) (s : PathSolution n)
    (hs : s.Valid) (x y : ZMod n)
    (hxy : x ≠ y) (haxy : s.after x ≠ y) (hayx : s.after y ≠ x) :
    ((swapMove d s c0 x y).1).Valid := by
  obtain ⟨p, rfl⟩ := valid_exists_perm s hs
  rw [swapMove_sol_eq d c0 p x y hxy haxy hayx]
  exact ofPerm_valid _

theorem swap_distinct [NeZero n] (p : Equiv.Perm (ZMod n)) (x y : ZMod n)
    (hxy : x ≠ y) (haxy : (ofPerm p).after x ≠ y) (hayx : (ofPerm p).after y ≠ x) :
    (ofPerm p).before y ≠ (ofPerm p).before x ∧ (ofPerm p).before y ≠ y ∧
      (ofPerm p).before y ≠ x ∧ (ofPerm p).before x ≠ y ∧ (ofPerm p).before x ≠ x := by
  set i := p.symm x with hi
  set j := p.symm y with hj
  have hx : p i = x := p.apply_symm_apply x
  have hy : p j = y := p.apply_symm_apply y
  have h10 : (1 : ZMod n) ≠ 0 := by
    intro h
    exact hxy ((zmod_eq_zero_of_one_eq_zero h x).trans (zmod_eq_zero_of_one_eq_zero h y).symm)
  have hij : i ≠ j := fun h => hxy (by rw [← hx, ← hy, h])
  have hij1 : i + 1 ≠ j := by
    intro h
    apply haxy
    show p (p.symm x + 1) = y
    rw [← hi, h, hy]
  have hji1 : j + 1 ≠ i := by
    intro h
    apply hayx
    show p (p.symm y + 1) = x
    rw [← hj, h, hx]
  have hpby : (ofPerm p).before y = p (j - 1) := by
    show p (p.symm y - 1) = _
    rw [← hj]
  have hpbx : (ofPerm p).before x = p (i - 1) := by
    show p (p.symm x - 1) = _
    rw [← hi]
  rw [hpby, hpbx, ← hx, ← hy]
  simp only [ne_eq, Equiv.apply_eq_iff_eq]
  refine ⟨?_, ?_, ?_, ?_, ?_⟩
  · intro h; exact hij (by linear_combination -h)
  · intro h; exact h10 (by linear_combination -h)
  · intro h; exact hij1 (by linear_combination -h)
  · intro h; exact hji1 (by linear_combination -h)
  · intro h; exact h10 (by linear_combination -h)

theorem swapMove_fullCost [NeZero n] (d : ZMod n → ZMod n → ℚ) (c0 : ℚ)
    (s : PathSolution n) (x y : ZMod n)
    (h1 : s.before y ≠ s.before x) (h2 : s.before y ≠ y) (h3 : s.before y ≠ x)
    (h4 : s.before x ≠ y) (h5 : s.before x ≠ x) (h6 : y ≠ x)
    (hinvy : s.after (s.before y) = y) (hinvx : s.after (s.before x) = x) :
    ((swapMove d s c0 x y).1).fullCost d = s.fullCost d
      + (d (s.before x) y + d y (s.after x) + d (s.before y) x + d x (s.after y)
        - d (s.before x) x - d x (s.after x) - d (s.before y) y - d y (s.after y)) := by
  have e1 : ((swapMove d s c0 x y).1).after (s.before y) = x := by
    rw [swapMove_after_apply, if_pos rfl]
  have e2 : ((swapMove d s c0 x y).1).after (s.before x) = y := by
    rw [swapMove_after_apply, if_neg (Ne.symm h1), if_pos rfl]
  have e3 : ((swapMove d s c0 x y).1).after y = s.after x := by
    rw [swapMove_after_apply, if_neg (Ne.symm h2), if_neg (Ne.symm h4), if_pos rfl]
  have e4 : ((swapMove d s c0 x y).1).after x = s.after y := by
    rw [swapMove_after_apply, if_neg (Ne.symm h3), if_neg (Ne.symm h5),
      if_neg (Ne.symm h6), if_pos rfl]
  rw [fullCost_sub d s _ ({s.before y, s.before x, y, x} : Finset (ZMod n)) ?_]
  · rw [Finset.sum_insert (by simp [h1, h2, h3]),
      Finset.sum_insert (by simp [h4, h5]),
      Finset.sum_insert (by simp [h6]), Finset.sum_singleton]
    rw [e1, e2, e3, e4, hinvy, hinvx]
    ring
  · intro c hc
    simp only [Finset.mem_insert, Finset.mem_singleton, not_or] at hc
    obtain ⟨hc1, hc2, hc3, hc4⟩ := hc
    rw [swapMove_after_apply, if_neg hc1, if_neg hc2, if_neg hc3, if_neg hc4]

/-- Claim C1, swap part: after a non-skipped swap on a valid solution, the
attached delta-updated cost equals the from-scratch recomputed cost. -/
theorem swapMove_scratchCost [NeZero n] (d : ZMod n → ZMod n → ℚ) (s : PathSolution n)
    (hs : s.Valid) (c0 : ℚ) (hc0 : s.scratchCost d = some c0) (x y : ZMod n)
    (hxy : x ≠ y) (haxy : s.after x ≠ y) (hayx : s.after y ≠ x) :
    ((swapMove d s c0 x y).1).scratchCost d = some ((swapMove d s c0 x y).2) := by
  have hvalid := swapMove_valid d c0 s hs x y hxy haxy hayx
  rw [scratchCost_of_valid d _ hvalid]
  have hc0' : c0 = s.fullCost d := by
    rw [scratchCost_of_valid d s hs] at hc0
    exact (Option.some_injective _ hc0).symm
  congr 1
  obtain ⟨p, rfl⟩ := valid_exists_perm s hs
  obtain ⟨g1, g2, g3, g4, g5⟩ := swap_distinct p x y hxy haxy hayx
  rw [swapMove_fullCost d c0 _ x y g1 g2 g3 g4 g5 (Ne.symm hxy)
    ((ofPerm_valid p).2.1 y) ((ofPerm_valid p).2.1 x)]
  show _ = (swapMove d (ofPerm p) c0 x y).2
  simp only [swapMove]
  rw [hc0']
  ring

/-! ## `SegmentShift.insert_after` (source lines 267-289) -/

/-- `SegmentShift.insert_after`: relocate the contiguous segment `seg` to sit
immediately after city `x`.  Update order follows source lines 285-287; the
attached cost is the O(1) delta of lines 277-283. -/
def insertAfterMove (d : ZMod n → ZMod n → ℚ) (s : PathSolution n) (oldCost : ℚ)
    (seg : List (ZMod n)) (x : ZMod n) : PathSolution n × ℚ :=
  (⟨Function.update (Function.update
        (Function.update s.after (s.before (seg.getD 0 0)) (s.after (seg.getD (seg.length - 1) 0)))
        x (seg.getD 0 0)) (seg.getD (seg.length - 1) 0) (s.after x),
    Function.update (Function.update
        (Function.update s.before (s.after (seg.getD (seg.length - 1) 0)) (s.before (seg.getD 0 0)))
        (seg.getD 0 0) x) (s.after x) (seg.getD (seg.length - 1) 0)⟩,
   oldCost
     + d (s.before (seg.getD 0 0)) (s.after (seg.getD (seg.length - 1) 0))
     + d x (seg.getD 0 0) + d (seg.getD (seg.length - 1) 0) (s.after x)
     - d (s.before (seg.getD 0 0)) (seg.getD 0 0)
     - d (seg.getD (seg.length - 1) 0) (s.after (seg.getD (seg.length - 1) 0))
     - d x (s.after x))

theorem insertAfterMove_after_apply (d : ZMod n → ZMod n → ℚ) (s : PathSolution n)
    (oldCost : ℚ) (seg : List (ZMod n)) (x c : ZMod n) :
    ((insertAfterMove d s oldCost seg x).1).after c =
      if c = seg.getD (seg.length - 1) 0 then s.after x
      else if c = x then seg.getD 0 0
      else if c = s.before (seg.getD 0 0) then s.after (seg.getD (seg.length - 1) 0)
      else s.after c := by
  simp only [insertAfterMove, Function.update_apply]

theorem insertAfterMove_before_apply (d : ZMod n → ZMod n → ℚ) (s : PathSolution n)
    (oldCost : ℚ) (seg : List (ZMod n)) (x c : ZMod n) :
    ((insertAfterMove d s oldCost seg x).1).before c =
      if c = s.after x then seg.getD (seg.length - 1) 0
      else if c = seg.getD 0 0 then x
      else if c = s.after (seg.getD (seg.length - 1) 0) then s.before (seg.getD 0 0)
      else s.before c := by
  simp only [insertAfterMove, Function.update_apply]

/-- Cyclic rotation by `L` of the value window `[0, t]`, identity elsewhere:
the position rearrangement a segment shift induces on the cycle. -/
def rotWin (t L : ℕ) (v : ZMod n) : ZMod n :=
  if v.val ≤ t then (((v.val + L) % (t + 1) : ℕ) : ZMod n) else v

theorem rotWin_val [NeZero n] (t L : ℕ) (ht : t < n) (v : ZMod n) :
    (rotWin t L v).val = if v.val ≤ t then (v.val + L) % (t + 1) else v.val := by
  unfold rotWin
  split
  · next h =>
    rw [ZMod.val_cast_of_lt]
    have := Nat.mod_lt (v.val + L) (y := t + 1) (by omega)
    omega
  · rfl

theorem rotWin_rotWin [NeZero n] (t L M : ℕ) (ht : t < n) (hLM : L + M = t + 1)
    (v : ZMod n) : rotWin t M (rotWin t L v) = v := by
  rcases le_or_lt v.val t with h | h
  · have hw : (rotWin t L v).val = (v.val + L) % (t + 1) := by
      rw [rotWin_val t L ht, if_pos h]
    apply ZMod.val_injective n
    rw [rotWin_val t M ht, hw,
      if_pos (by have := Nat.mod_lt (v.val + L) (y := t + 1) (by omega); omega),
      Nat.mod_add_mod]
    have h1 : v.val + L + M = v.val + (t + 1) := by omega
    rw [h1, Nat.add_mod_right, Nat.mod_eq_of_lt (by omega)]
  · have hw : rotWin t L v = v := by unfold rotWin; rw [if_neg (by omega)]
    rw [hw]
    unfold rotWin
    rw [if_neg (by omega)]

/-- `rotWin` as a permutation (for `L ≤ t + 1 ≤ n`). -/
def rotWinEquiv [NeZero n] (t L : ℕ) (ht : t < n) (hL : L ≤ t + 1) : Equiv.Perm (ZMod n) where
  toFun := rotWin t L
  invFun := rotWin t (t + 1 - L)
  left_inv := fun v => rotWin_rotWin t L (t + 1 - L) ht (by omega) v
  right_inv := fun v => rotWin_rotWin t (t + 1 - L) L ht (by omega) v

theorem cast_eq_cast_iff_of_lt [NeZero n] {r1 r2 : ℕ} (h1 : r1 < n) (h2 : r2 < n) :
    ((r1 : ℕ) : ZMod n) = ((r2 : ℕ) : ZMod n) ↔ r1 = r2 := by
  constructor
  · intro h
    have := congrArg ZMod.val h
    rwa [ZMod.val_cast_of_lt h1, ZMod.val_cast_of_lt h2] at this
  · intro h; rw [h]

/-- Main structural lemma for `insert_after`: for a contiguous segment and a
target passing all three guards, the result is again a cycle solution (given
by an explicit path permutation), and the three rewired cities are distinct. -/
theorem insertAfter_main [NeZero n] (d : ZMod n → ZMod n → ℚ) (oldCost : ℚ)
    (p : Equiv.Perm (ZMod n)) (seg : List (ZMod n)) (x : ZMod n)
    (hne : seg ≠ [])
    (hchain : ∀ jj : ℕ, jj + 1 < seg.length →
      (ofPerm p).after (seg.getD jj 0) = seg.getD (jj + 1) 0)
    (hgx1 : x ≠ (ofPerm p).before (seg.getD 0 0))
    (hgx2 : x ≠ (ofPerm p).after (seg.getD (seg.length - 1) 0))
    (hgx3 : x ∉ seg) :
    (∃ q : Equiv.Perm (ZMod n), (insertAfterMove d (ofPerm p) oldCost seg x).1 = ofPerm q)
      ∧ seg.getD (seg.length - 1) 0 ≠ x
      ∧ seg.getD (seg.length - 1) 0 ≠ (ofPerm p).before (seg.getD 0 0) := by
  have hn := NeZero.pos n
  set L := seg.length with hLdef
  have hL : 1 ≤ L := by
    rw [hLdef]
    cases seg with
    | nil => exact absurd rfl hne
    | cons h t => simp
  set a := p.symm (seg.getD 0 0) with hadef
  have hseg : ∀ jj, jj < L → seg.getD jj 0 = p (a + (jj : ℕ)) := by
    intro jj
    induction jj with
    | zero =>
      intro _
      show _ = p (a + ((0 : ℕ) : ZMod n))
      rw [Nat.cast_zero, add_zero, hadef, Equiv.apply_symm_apply]
    | succ jj ih =>
      intro hjj
      have h1 := hchain jj (by omega)
      rw [ih (by omega)] at h1
      rw [← h1]
      show p (p.symm (p (a + (jj : ℕ))) + 1) = _
      rw [Equiv.symm_apply_apply]
      congr 1
      push_cast
      ring
  set t := (p.symm x - a).val with htdef
  have htn : t < n := ZMod.val_lt _
  have hxp : x = p (a + (t : ℕ)) := by
    rw [htdef, zmod_natCast_val_self]
    rw [show a + (p.symm x - a) = p.symm x by ring, Equiv.apply_symm_apply]
  have hNcast : ((n - 1 : ℕ) : ZMod n) = -1 := by
    have h1 : (((n - 1) + 1 : ℕ) : ZMod n) = 0 := by
      rw [show (n - 1) + 1 = n by omega]; exact ZMod.natCast_self n
    push_cast at h1
    linear_combination h1
  have hbs : (ofPerm p).before (seg.getD 0 0) = p (a + ((n - 1 : ℕ) : ZMod n)) := by
    show p (p.symm (seg.getD 0 0) - 1) = _
    rw [← hadef, hNcast]
    ring_nf
  have hsl : seg.getD (L - 1) 0 = p (a + ((L - 1 : ℕ) : ZMod n)) := hseg (L - 1) (by omega)
  have hasg : (ofPerm p).after (seg.getD (L - 1) 0) = p (a + ((L : ℕ) : ZMod n)) := by
    rw [hsl]
    show p (p.symm (p (a + ((L - 1 : ℕ) : ZMod n))) + 1) = _
    rw [Equiv.symm_apply_apply]
    congr 1
    rw [show (L : ℕ) = (L - 1) + 1 by omega]
    push_cast
    ring
  have hP_inj : ∀ r1 r2 : ℕ, r1 < n → r2 < n →
      p (a + ((r1 : ℕ) : ZMod n)) = p (a + ((r2 : ℕ) : ZMod n)) → r1 = r2 := by
    intro r1 r2 h1 h2 h
    have := add_left_cancel (p.injective h)
    exact (cast_eq_cast_iff_of_lt h1 h2).mp this
  have hLn : t ≠ 0 ∧ L + 1 ≤ t := by
    have hge : ∀ jj, jj < L → t ≠ jj := by
      intro jj hjj h
      apply hgx3
      rw [hxp, h, ← hseg jj hjj]
      rw [List.getD_eq_getElem seg 0 hjj]
      exact List.getElem_mem hjj
    have htL : t ≠ L := by
      intro h
      apply hgx2
      rw [hasg, hxp, h]
    have htL' : ¬ t < L := fun h => hge t h rfl
    constructor
    · exact hge 0 (by omega)
    · omega
  obtain ⟨ht0, htA⟩ := hLn
  have htB : t ≤ n - 2 := by
    have : t ≠ n - 1 := by
      intro h
      apply hgx1
      rw [hbs, hxp, h]
    omega
  have hLB : L + 3 ≤ n := by omega
  have hPne : ∀ r1 r2 : ℕ, r1 < n → r2 < n → r1 ≠ r2 →
      p (a + ((r1 : ℕ) : ZMod n)) ≠ p (a + ((r2 : ℕ) : ZMod n)) :=
    fun r1 r2 h1 h2 hnr h => hnr (hP_inj r1 r2 h1 h2 h)
  -- the new path permutation
  set σ : Equiv.Perm (ZMod n) := rotWinEquiv t L htn (by omega) with hσdef
  set q : Equiv.Perm (ZMod n) :=
    ((Equiv.subRight a).trans σ).trans ((Equiv.addLeft a).trans p) with hqdef
  have hq_raw : ∀ w, q w = p (a + rotWin t L (w - a)) := fun w => rfl
  have hrot : ∀ m : ℕ, m < n → rotWin t L ((m : ℕ) : ZMod n)
      = (((if m ≤ t then (m + L) % (t + 1) else m) : ℕ) : ZMod n) := by
    intro m hm
    unfold rotWin
    rw [ZMod.val_cast_of_lt hm]
    split
    · rfl
    · rfl
  have hq_eval : ∀ m : ℕ, m < n → q (a + ((m : ℕ) : ZMod n))
      = p (a + (((if m ≤ t then (m + L) % (t + 1) else m) : ℕ) : ZMod n)) := by
    intro m hm
    rw [hq_raw, add_sub_cancel_left, hrot m hm]
  have hafter_eval : ∀ r : ℕ, (ofPerm p).after (p (a + ((r : ℕ) : ZMod n)))
      = p (a + ((r + 1 : ℕ) : ZMod n)) := by
    intro r
    show p (p.symm (p (a + ((r : ℕ) : ZMod n))) + 1) = _
    rw [Equiv.symm_apply_apply]
    congr 1
    push_cast
    ring
  have hbefore_eval : ∀ r : ℕ, 1 ≤ r → (ofPerm p).before (p (a + ((r : ℕ) : ZMod n)))
      = p (a + ((r - 1 : ℕ) : ZMod n)) := by
    intro r hr
    show p (p.symm (p (a + ((r : ℕ) : ZMod n))) - 1) = _
    rw [Equiv.symm_apply_apply]
    congr 1
    rw [show (r : ℕ) = (r - 1) + 1 by omega]
    push_cast
    ring
  have key_after : ∀ m : ℕ, m < n →
      ((insertAfterMove d (ofPerm p) oldCost seg x).1).after (q (a + ((m : ℕ) : ZMod n)))
        = q (a + ((m : ℕ) : ZMod n) + 1) := by
    intro m hm
    rcases Nat.lt_or_ge m (n - 1) with hmlt | hmge
    -- non-wrapping case: m + 1 < n
    · have hsucc : (a + ((m : ℕ) : ZMod n) + 1) = a + (((m + 1 : ℕ)) : ZMod n) := by
        push_cast; ring
      rw [hsucc, hq_eval m hm, hq_eval (m + 1) (by omega)]
      rw [insertAfterMove_after_apply, ← hLdef, hsl, hxp, hbs]
      rcases le_or_lt m t with hmt | hmt
      · rw [if_pos hmt]
        rcases Nat.lt_or_ge (m + L) t with hA | hA
        · -- (A1): inside the moved window body, before reaching the target
          rw [if_pos (show m + 1 ≤ t by omega)]
          rw [Nat.mod_eq_of_lt (show m + L < t + 1 by omega),
            Nat.mod_eq_of_lt (show m + 1 + L < t + 1 by omega)]
          rw [if_neg (hPne (m + L) (L - 1) (by omega) (by omega) (by omega)),
            if_neg (hPne (m + L) t (by omega) (by omega) (by omega)),
            if_neg (hPne (m + L) (n - 1) (by omega) (by omega) (by omega))]
          rw [hafter_eval (m + L)]
          rw [show m + 1 + L = m + L + 1 by omega]
        · rcases Nat.eq_or_lt_of_le hA with hA2 | hA2
          · -- (A2): the target `x` itself; its new successor is the segment head
            rw [if_pos (show m + 1 ≤ t by omega)]
            rw [show (m + L) % (t + 1) = t by rw [← hA2]; exact Nat.mod_eq_of_lt (by omega)]
            rw [show (m + 1 + L) % (t + 1) = 0 by rw [show m + 1 + L = t + 1 by omega]; exact Nat.mod_self _]
            rw [if_neg (hPne t (L - 1) (by omega) (by omega) (by omega)),
              if_pos rfl]
            exact hseg 0 (by omega)
          · -- (B): inside the segment
            have hR : (m + L) % (t + 1) = m + L - (t + 1) := by
              rw [Nat.mod_eq_sub_mod (by omega)]
              exact Nat.mod_eq_of_lt (by omega)
            rcases Nat.lt_or_ge m t with hB1 | hB1
            · -- (B1): segment interior
              rw [if_pos (show m + 1 ≤ t by omega)]
              have hR' : (m + 1 + L) % (t + 1) = m + L - (t + 1) + 1 := by
                rw [Nat.mod_eq_sub_mod (by omega), Nat.mod_eq_of_lt (by omega)]
                omega
              rw [hR, hR']
              rw [if_neg (hPne (m + L - (t + 1)) (L - 1) (by omega) (by omega) (by omega)),
                if_neg (hPne (m + L - (t + 1)) t (by omega) (by omega) (by omega)),
                if_neg (hPne (m + L - (t + 1)) (n - 1) (by omega) (by omega) (by omega))]
              exact hafter_eval (m + L - (t + 1))
            · -- (B2): the segment's last city, reattached to `after x`
              have hmeq : m = t := by omega
              rw [if_neg (show ¬ m + 1 ≤ t by omega)]
              rw [show (m + L) % (t + 1) = L - 1 by
                rw [Nat.mod_eq_sub_mod (by omega), Nat.mod_eq_of_lt (by omega)]
                omega]
              rw [if_pos rfl]
              rw [hmeq, hafter_eval t]
      -- (C): an untouched city strictly after the target
      · rw [if_neg (show ¬ m ≤ t by omega), if_neg (show ¬ m + 1 ≤ t by omega)]
        rw [if_neg (hPne m (L - 1) (by omega) (by omega) (by omega)),
          if_neg (hPne m t (by omega) (by omega) (by omega)),
          if_neg (hPne m (n - 1) (by omega) (by omega) (by omega))]
        exact hafter_eval m
    -- wrapping case: m = n - 1, that is, the segment's old predecessor
    · have hmeq : m = n - 1 := by omega
      have hwrap : a + ((m : ℕ) : ZMod n) + 1 = a + ((0 : ℕ) : ZMod n) := by
        rw [hmeq, hNcast]
        push_cast
        ring
      rw [hwrap, hq_eval m hm, hq_eval 0 (by omega)]
      rw [insertAfterMove_after_apply, ← hLdef, hsl, hxp, hbs]
      rw [if_neg (show ¬ m ≤ t by omega), if_pos (show 0 ≤ t by omega)]
      rw [show (0 + L) % (t + 1) = L by
        rw [Nat.mod_eq_of_lt (show 0 + L < t + 1 by omega)]
        omega]
      rw [hmeq]
      rw [if_neg (hPne (n - 1) (L - 1) (by omega) (by omega) (by omega)),
        if_neg (hPne (n - 1) t (by omega) (by omega) (by omega)),
        if_pos rfl]
      rw [hafter_eval (L - 1), show L - 1 + 1 = L by omega]
  have key_before : ∀ m : ℕ, m < n →
      ((insertAfterMove d (ofPerm p) oldCost seg x).1).before (q (a + ((m : ℕ) : ZMod n)))
        = q (a + ((m : ℕ) : ZMod n) - 1) := by
    intro m hm
    rcases Nat.eq_zero_or_pos m with hm0 | hmpos
    -- wrapping case: m = 0 maps back to relative position n - 1
    · have hpred : a + ((m : ℕ) : ZMod n) - 1 = a + ((n - 1 : ℕ) : ZMod n) := by
        rw [hm0, hNcast]
        push_cast
        ring
      rw [hpred, hq_eval m hm, hq_eval (n - 1) (by omega), hm0]
      rw [if_pos (show 0 ≤ t by omega), if_neg (show ¬ n - 1 ≤ t by omega)]
      rw [show (0 + L) % (t + 1) = L by
        rw [Nat.mod_eq_of_lt (show 0 + L < t + 1 by omega)]
        omega]
      rw [insertAfterMove_before_apply, ← hLdef, hasg, hxp, hafter_eval t, hsl, hbs,
        hseg 0 (by omega)]
      rw [if_neg (hPne L (t + 1) (by omega) (by omega) (by omega)),
        if_neg (hPne L 0 (by omega) (by omega) (by omega)),
        if_pos rfl]
    -- non-wrapping cases
    · have hpred : a + ((m : ℕ) : ZMod n) - 1 = a + ((m - 1 : ℕ) : ZMod n) := by
        rw [show (m : ℕ) = (m - 1) + 1 by omega]
        push_cast
        ring
      rw [hpred, hq_eval m hm, hq_eval (m - 1) (by omega)]
      rw [insertAfterMove_before_apply, ← hLdef, hasg, hxp, hafter_eval t, hsl, hbs,
        hseg 0 (by omega)]
      rcases le_or_lt m t with hmt | hmt
      · rw [if_pos hmt, if_pos (show m - 1 ≤ t by omega)]
        rcases Nat.lt_or_ge (m + L) (t + 1) with hA | hA
        · -- window body: the new predecessor is the previous window member
          rw [Nat.mod_eq_of_lt (show m + L < t + 1 by omega),
            Nat.mod_eq_of_lt (show m - 1 + L < t + 1 by omega)]
          rw [if_neg (hPne (m + L) (t + 1) (by omega) (by omega) (by omega)),
            if_neg (hPne (m + L) 0 (by omega) (by omega) (by omega)),
            if_neg (hPne (m + L) L (by omega) (by omega) (by omega))]
          rw [hbefore_eval (m + L) (by omega)]
          rw [show m + L - 1 = m - 1 + L by omega]
        · rcases Nat.eq_or_lt_of_le hA with hE | hE
          · -- the segment head: its new predecessor is the target `x`
            rw [show (m + L) % (t + 1) = 0 by rw [← hE]; exact Nat.mod_self _]
            rw [show (m - 1 + L) % (t + 1) = t by
              rw [Nat.mod_eq_of_lt (show m - 1 + L < t + 1 by omega)]
              omega]
            rw [if_neg (hPne 0 (t + 1) (by omega) (by omega) (by omega)),
              if_pos rfl]
          · -- segment interior
            have hR : (m + L) % (t + 1) = m + L - (t + 1) := by
              rw [Nat.mod_eq_sub_mod (by omega)]
              exact Nat.mod_eq_of_lt (by omega)
            have hR2 : (m - 1 + L) % (t + 1) = m + L - (t + 1) - 1 := by
              rw [Nat.mod_eq_sub_mod (by omega), Nat.mod_eq_of_lt (by omega)]
              omega
            rw [hR, hR2]
            rw [if_neg (hPne (m + L - (t + 1)) (t + 1) (by omega) (by omega) (by omega)),
              if_neg (hPne (m + L - (t + 1)) 0 (by omega) (by omega) (by omega)),
              if_neg (hPne (m + L - (t + 1)) L (by omega) (by omega) (by omega))]
            rw [hbefore_eval (m + L - (t + 1)) (by omega)]
      · rw [if_neg (show ¬ m ≤ t by omega)]
        rcases Nat.eq_or_lt_of_le (show t + 1 ≤ m by omega) with hE | hE
        · -- the old successor of the target: its new predecessor is the segment tail
          rw [if_pos (show m - 1 ≤ t by omega)]
          rw [show (m - 1 + L) % (t + 1) = L - 1 by
            rw [Nat.mod_eq_sub_mod (by omega), Nat.mod_eq_of_lt (by omega)]
            omega]
          rw [← hE]
          rw [if_pos rfl]
        · -- untouched region
          rw [if_neg (show ¬ m - 1 ≤ t by omega)]
          rw [if_neg (hPne m (t + 1) (by omega) (by omega) (by omega)),
            if_neg (hPne m 0 (by omega) (by omega) (by omega)),
            if_neg (hPne m L (by omega) (by omega) (by omega))]
          exact hbefore_eval m (by omega)
  refine ⟨⟨q, ?_⟩, ?_, ?_⟩
  · have hofaq : ∀ v, (ofPerm q).after (q v) = q (v + 1) := by
      intro v
      show q (q.symm (q v) + 1) = _
      rw [Equiv.symm_apply_apply]
    have hofbq : ∀ v, (ofPerm q).before (q v) = q (v - 1) := by
      intro v
      show q (q.symm (q v) - 1) = _
      rw [Equiv.symm_apply_apply]
    have hafter : ((insertAfterMove d (ofPerm p) oldCost seg x).1).after = (ofPerm q).after := by
      funext c
      have hcw : c = q (a + (((q.symm c - a).val : ℕ) : ZMod n)) := by
        rw [zmod_natCast_val_self, show a + (q.symm c - a) = q.symm c by ring,
          Equiv.apply_symm_apply]
      rw [hcw, key_after _ (ZMod.val_lt _), hofaq]
    have hbefore : ((insertAfterMove d (ofPerm p) oldCost seg x).1).before = (ofPerm q).before := by
      funext c
      have hcw : c = q (a + (((q.symm c - a).val : ℕ) : ZMod n)) := by
        rw [zmod_natCast_val_self, show a + (q.symm c - a) = q.symm c by ring,
          Equiv.apply_symm_apply]
      rw [hcw, key_before _ (ZMod.val_lt _), hofbq]
    cases hsw : (insertAfterMove d (ofPerm p) oldCost seg x).1 with
    | mk aa bb =>
      rw [hsw] at hafter hbefore
      rw [show (ofPerm q) = ⟨(ofPerm q).after, (ofPerm q).before⟩ from rfl]
      exact congrArg₂ PathSolution.mk hafter hbefore
  · rw [hsl, hxp]
    exact hPne (L - 1) t (by omega) (by omega) (by omega)
  · rw [hsl, hbs]
    exact hPne (L - 1) (n - 1) (by omega) (by omega) (by omega)

/-- After a guard-passing segment shift, the solution is again a valid cycle. -/
theorem insertAfterMove_valid [NeZero n] (d : ZMod n → ZMod n → ℚ) (c0 : ℚ)
    (s : PathSolution n) (hs : s.Valid) (seg : List (ZMod n)) (x : ZMod n)
    (hne : seg ≠ [])
    (hchain : ∀ jj : ℕ, jj + 1 < seg.length →
      s.after (seg.getD jj 0) = seg.getD (jj + 1) 0)
    (hgx1 : x ≠ s.before (seg.getD 0 0))
    (hgx2 : x ≠ s.after (seg.getD (seg.length - 1) 0))
    (hgx3 : x ∉ seg) :
    ((insertAfterMove d s c0 seg x).1).Valid := by
  obtain ⟨p, rfl⟩ := valid_exists_perm s hs
  obtain ⟨⟨q, hq⟩, -, -⟩ := insertAfter_main d c0 p seg x hne hchain hgx1 hgx2 hgx3
  rw [hq]
  exact ofPerm_valid q

theorem insertAfterMove_fullCost [NeZero n] (d : ZMod n → ZMod n → ℚ) (c0 : ℚ)
    (s : PathSolution n) (seg : List (ZMod n)) (x : ZMod n)
    (h1 : seg.getD (seg.length - 1) 0 ≠ x)
    (h2 : seg.getD (seg.length - 1) 0 ≠ s.before (seg.getD 0 0))
    (h3 : x ≠ s.before (seg.getD 0 0))
    (hinv : s.after (s.before (seg.getD 0 0)) = seg.getD 0 0) :
    ((insertAfterMove d s c0 seg x).1).fullCost d = s.fullCost d
      + (d (s.before (seg.getD 0 0)) (s.after (seg.getD (seg.length - 1) 0))
        + d x (seg.getD 0 0) + d (seg.getD (seg.length - 1) 0) (s.after x)
        - d (s.before (seg.getD 0 0)) (seg.getD 0 0)
        - d (seg.getD (seg.length - 1) 0) (s.after (seg.getD (seg.length - 1) 0))
        - d x (s.after x)) := by
  have e1 : ((insertAfterMove d s c0 seg x).1).after (seg.getD (seg.length - 1) 0)
      = s.after x := by
    rw [insertAfterMove_after_apply, if_pos rfl]
  have e2 : ((insertAfterMove d s c0 seg x).1).after x = seg.getD 0 0 := by
    rw [insertAfterMove_after_apply, if_neg (Ne.symm h1), if_pos rfl]
  have e3 : ((insertAfterMove d s c0 seg x).1).after (s.before (seg.getD 0 0))
      = s.after (seg.getD (seg.length - 1) 0) := by
    rw [insertAfterMove_after_apply, if_neg (Ne.symm h2), if_neg (Ne.symm h3), if_pos rfl]
  rw [fullCost_sub d s _
    ({seg.getD (seg.length - 1) 0, x, s.before (seg.getD 0 0)} : Finset (ZMod n)) ?_]
  · rw [Finset.sum_insert (by
        simp only [Finset.mem_insert, Finset.mem_singleton]
        push_neg
        exact ⟨h1, h2⟩),
      Finset.sum_insert (by simp only [Finset.mem_singleton]; exact h3),
      Finset.sum_singleton]
    rw [e1, e2, e3, hinv]
    ring
  · intro c hc
    simp only [Finset.mem_insert, Finset.mem_singleton, not_or] at hc
    obtain ⟨hc1, hc2, hc3⟩ := hc
    rw [insertAfterMove_after_apply, if_neg hc1, if_neg hc2, if_neg hc3]

/-- Claim C1, segment-shift part: after a guard-passing `insert_after` on a
valid solution, the attached delta-updated cost equals the recomputed cost. -/
theorem insertAfterMove_scratchCost [NeZero n] (d : ZMod n → ZMod n → ℚ)
    (s : PathSolution n) (hs : s.Valid) (c0 : ℚ) (hc0 : s.scratchCost d = some c0)
    (seg : List (ZMod n)) (x : ZMod n)
    (hne : seg ≠ [])
    (hchain : ∀ jj : ℕ, jj + 1 < seg.length →
      s.after (seg.getD jj 0) = seg.getD (jj + 1) 0)
    (hgx1 : x ≠ s.before (seg.getD 0 0))
    (hgx2 : x ≠ s.after (seg.getD (seg.length - 1) 0))
    (hgx3 : x ∉ seg) :
    ((insertAfterMove d s c0 seg x).1).scratchCost d
      = some ((insertAfterMove d s c0 seg x).2) := by
  have hvalid := insertAfterMove_valid d c0 s hs seg x hne hchain hgx1 hgx2 hgx3
  rw [scratchCost_of_valid d _ hvalid]
  have hc0' : c0 = s.fullCost d := by
    rw [scratchCost_of_valid d s hs] at hc0
    exact (Option.some_injective _ hc0).symm
  congr 1
  obtain ⟨p, rfl⟩ := valid_exists_perm s hs
  obtain ⟨-, g1, g2⟩ := insertAfter_main d c0 p seg x hne hchain hgx1 hgx2 hgx3
  rw [insertAfterMove_fullCost d c0 _ seg x g1 g2 hgx1
    ((ofPerm_valid p).2.1 (seg.getD 0 0))]
  show _ = (insertAfterMove d (ofPerm p) c0 seg x).2
  simp only [insertAfterMove]
  rw [hc0']
  ring

/-! ## `SegmentReverse.reverse` (source `src/ts/tsp/neighborhoods/reverse.py`,
lines 34-55) -/

/-- The in-place role-swap loop of `SegmentReverse.reverse` (lines 49-50):
`for index in segment: before[index], after[index] = after[index], before[index]`.
The state is the `(before, after)` pair of arrays. -/
def revSwapLoop : List (ZMod n) → (ZMod n → ZMod n) × (ZMod n → ZMod n) →
    (ZMod n → ZMod n) × (ZMod n → ZMod n)
  | [], ba => ba
  | i :: rest, ba =>
    revSwapLoop rest (Function.update ba.1 i (ba.2 i), Function.update ba.2 i (ba.1 i))

theorem revSwapLoop_apply (seg : List (ZMod n)) (hnd : seg.Nodup) :
    ∀ (b a : ZMod n → ZMod n) (c : ZMod n),
      (revSwapLoop seg (b, a)).1 c = (if c ∈ seg then a c else b c) ∧
      (revSwapLoop seg (b, a)).2 c = (if c ∈ seg then b c else a c) := by
  induction seg with
  | nil =>
    intro b a c
    simp [revSwapLoop]
  | cons i rest ih =>
    intro b a c
    have hnd' : rest.Nodup := (List.nodup_cons.mp hnd).2
    have hni : i ∉ rest := (List.nodup_cons.mp hnd).1
    have h := ih hnd' (Function.update b i (a i)) (Function.update a i (b i)) c
    rw [show revSwapLoop (i :: rest) (b, a)
      = revSwapLoop rest (Function.update b i (a i), Function.update a i (b i)) from rfl]
    rcases eq_or_ne c i with hc | hc
    · subst hc
      have hcr : c ∉ rest := hni
      rw [h.1, h.2, if_neg hcr, if_neg hcr,
        if_pos (List.mem_cons_self c rest), if_pos (List.mem_cons_self c rest)]
      rw [Function.update_same, Function.update_same]
      exact ⟨rfl, rfl⟩
    · rcases em (c ∈ rest) with hcr | hcr
      · rw [h.1, h.2, if_pos hcr, if_pos hcr,
          if_pos (List.mem_cons_of_mem i hcr), if_pos (List.mem_cons_of_mem i hcr)]
        rw [Function.update_noteq hc, Function.update_noteq hc]
        exact ⟨rfl, rfl⟩
      · have hcl : c ∉ i :: rest := by
          intro hmem
          rcases List.mem_cons.mp hmem with h1 | h1
          · exact hc h1
          · exact hcr h1
        rw [h.1, h.2, if_neg hcr, if_neg hcr, if_neg hcl, if_neg hcl]
        rw [Function.update_noteq hc, Function.update_noteq hc]
        exact ⟨rfl, rfl⟩

/-- `SegmentReverse.reverse`: reverse the traversal direction of the
contiguous segment `seg` in place.  The swap loop (lines 49-50) is followed by
the reattachment writes of lines 52-53; the attached cost is the O(1) delta of
lines 43-47 applied to `oldCost`. -/
def reverseMove (d : ZMod n → ZMod n → ℚ) (s : PathSolution n) (oldCost : ℚ)
    (seg : List (ZMod n)) : PathSolution n × ℚ :=
  (⟨Function.update (Function.update (revSwapLoop seg (s.before, s.after)).2
        (s.before (seg.getD 0 0)) (seg.getD (seg.length - 1) 0))
        (seg.getD 0 0) (s.after (seg.getD (seg.length - 1) 0)),
    Function.update (Function.update (revSwapLoop seg (s.before, s.after)).1
        (seg.getD (seg.length - 1) 0) (s.before (seg.getD 0 0)))
        (s.after (seg.getD (seg.length - 1) 0)) (seg.getD 0 0)⟩,
   oldCost
     + d (s.before (seg.getD 0 0)) (seg.getD (seg.length - 1) 0)
     + d (seg.getD 0 0) (s.after (seg.getD (seg.length - 1) 0))
     - d (s.before (seg.getD 0 0)) (seg.getD 0 0)
     - d (seg.getD (seg.length - 1) 0) (s.after (seg.getD (seg.length - 1) 0)))

theorem reverseMove_after_apply (d : ZMod n → ZMod n → ℚ) (s : PathSolution n)
    (oldCost : ℚ) (seg : List (ZMod n)) (hnd : seg.Nodup) (c : ZMod n) :
    ((reverseMove d s oldCost seg).1).after c =
      if c = seg.getD 0 0 then s.after (seg.getD (seg.length - 1) 0)
      else if c = s.before (seg.getD 0 0) then seg.getD (seg.length - 1) 0
      else if c ∈ seg then s.before c
      else s.after c := by
  show (Function.update (Function.update (revSwapLoop seg (s.before, s.after)).2
        (s.before (seg.getD 0 0)) (seg.getD (seg.length - 1) 0))
        (seg.getD 0 0) (s.after (seg.getD (seg.length - 1) 0))) c = _
  rw [Function.update_apply, Function.update_apply,
    (revSwapLoop_apply seg hnd s.before s.after c).2]

theorem reverseMove_before_apply (d : ZMod n → ZMod n → ℚ) (s : PathSolution n)
    (oldCost : ℚ) (seg : List (ZMod n)) (hnd : seg.Nodup) (c : ZMod n) :
    ((reverseMove d s oldCost seg).1).before c =
      if c = s.after (seg.getD (seg.length - 1) 0) then seg.getD 0 0
      else if c = seg.getD (seg.length - 1) 0 then s.before (seg.getD 0 0)
      else if c ∈ seg then s.after c
      else s.before c := by
  show (Function.update (Function.update (revSwapLoop seg (s.before, s.after)).1
        (seg.getD (seg.length - 1) 0) (s.before (seg.getD 0 0)))
        (s.after (seg.getD (seg.length - 1) 0)) (seg.getD 0 0)) c = _
  rw [Function.update_apply, Function.update_apply,
    (revSwapLoop_apply seg hnd s.before s.after c).1]

/-- Reversal of the value window `[0, L-1]`, identity elsewhere: the position
rearrangement a segment reversal induces on the cycle. -/
def revWin (L : ℕ) (v : ZMod n) : ZMod n :=
  if v.val ≤ L - 1 then ((L - 1 - v.val : ℕ) : ZMod n) else v

theorem revWin_invol [NeZero n] (L : ℕ) (hL : L - 1 < n) :
    Function.Involutive (revWin (n := n) L) := by
  intro v
  rcases le_or_lt v.val (L - 1) with h | h
  · have hw : (revWin L v).val = L - 1 - v.val := by
      unfold revWin
      rw [if_pos h, ZMod.val_cast_of_lt (by omega)]
    apply ZMod.val_injective n
    rw [show revWin L (revWin L v) = if (revWin L v).val ≤ L - 1 then
        (((L - 1 - (revWin L v).val : ℕ)) : ZMod n) else revWin L v from rfl]
    rw [hw, if_pos (by omega), ZMod.val_cast_of_lt (by omega)]
    omega
  · have hw : revWin L v = v := by unfold revWin; rw [if_neg (by omega)]
    rw [hw, hw]

/-- `revWin` as a permutation. -/
def revWinEquiv [NeZero n] (L : ℕ) (hL : L - 1 < n) : Equiv.Perm (ZMod n) :=
  Function.Involutive.toPerm _ (revWin_invol L hL)

/-- Main structural lemma for `reverse`: for a contiguous segment of length
`3 ≤ L < n`, the result is again a cycle solution, and (for a symmetric
distance matrix) the delta-updated cost is exact. -/
theorem reverseMove_main [NeZero n] (d : ZMod n → ZMod n → ℚ) (c0 : ℚ)
    (p : Equiv.Perm (ZMod n)) (seg : List (ZMod n))
    (hchain : ∀ jj : ℕ, jj + 1 < seg.length →
      (ofPerm p).after (seg.getD jj 0) = seg.getD (jj + 1) 0)
    (hL3 : 3 ≤ seg.length) (hLn : seg.length < n) :
    (∃ q : Equiv.Perm (ZMod n), (reverseMove d (ofPerm p) c0 seg).1 = ofPerm q) ∧
    ((∀ i j : ZMod n, d i j = d j i) →
      ((reverseMove d (ofPerm p) c0 seg).1).fullCost d
        = (ofPerm p).fullCost d + ((reverseMove d (ofPerm p) c0 seg).2 - c0)) := by
  have hn := NeZero.pos n
  set L := seg.length with hLdef
  have hL : 1 ≤ L := by omega
  set a := p.symm (seg.getD 0 0) with hadef
  have hseg : ∀ jj, jj < L → seg.getD jj 0 = p (a + (jj : ℕ)) := by
    intro jj
    induction jj with
    | zero =>
      intro _
      show _ = p (a + ((0 : ℕ) : ZMod n))
      rw [Nat.cast_zero, add_zero, hadef, Equiv.apply_symm_apply]
    | succ jj ih =>
      intro hjj
      have h1 := hchain jj (by omega)
      rw [ih (by omega)] at h1
      rw [← h1]
      show p (p.symm (p (a + (jj : ℕ))) + 1) = _
      rw [Equiv.symm_apply_apply]
      congr 1
      push_cast
      ring
  have hNcast : ((n - 1 : ℕ) : ZMod n) = -1 := by
    have h1 : (((n - 1) + 1 : ℕ) : ZMod n) = 0 := by
      rw [show (n - 1) + 1 = n by omega]; exact ZMod.natCast_self n
    push_cast at h1
    linear_combination h1
  have hbs : (ofPerm p).before (seg.getD 0 0) = p (a + ((n - 1 : ℕ) : ZMod n)) := by
    show p (p.symm (seg.getD 0 0) - 1) = _
    rw [← hadef, hNcast]
    ring_nf
  have hsl : seg.getD (L - 1) 0 = p (a + ((L - 1 : ℕ) : ZMod n)) := hseg (L - 1) (by omega)
  have hasg : (ofPerm p).after (seg.getD (L - 1) 0) = p (a + ((L : ℕ) : ZMod n)) := by
    rw [hsl]
    show p (p.symm (p (a + ((L - 1 : ℕ) : ZMod n))) + 1) = _
    rw [Equiv.symm_apply_apply]
    congr 1
    rw [show (L : ℕ) = (L - 1) + 1 by omega]
    push_cast
    ring
  have hP_inj : ∀ r1 r2 : ℕ, r1 < n → r2 < n →
      p (a + ((r1 : ℕ) : ZMod n)) = p (a + ((r2 : ℕ) : ZMod n)) → r1 = r2 := by
    intro r1 r2 h1 h2 h
    have := add_left_cancel (p.injective h)
    exact (cast_eq_cast_iff_of_lt h1 h2).mp this
  have hPne : ∀ r1 r2 : ℕ, r1 < n → r2 < n → r1 ≠ r2 →
      p (a + ((r1 : ℕ) : ZMod n)) ≠ p (a + ((r2 : ℕ) : ZMod n)) :=
    fun r1 r2 h1 h2 hnr h => hnr (hP_inj r1 r2 h1 h2 h)
  have hafter_eval : ∀ r : ℕ, (ofPerm p).after (p (a + ((r : ℕ) : ZMod n)))
      = p (a + ((r + 1 : ℕ) : ZMod n)) := by
    intro r
    show p (p.symm (p (a + ((r : ℕ) : ZMod n))) + 1) = _
    rw [Equiv.symm_apply_apply]
    congr 1
    push_cast
    ring
  have hbefore_eval : ∀ r : ℕ, 1 ≤ r → (ofPerm p).before (p (a + ((r : ℕ) : ZMod n)))
      = p (a + ((r - 1 : ℕ) : ZMod n)) := by
    intro r hr
    show p (p.symm (p (a + ((r : ℕ) : ZMod n))) - 1) = _
    rw [Equiv.symm_apply_apply]
    congr 1
    rw [show (r : ℕ) = (r - 1) + 1 by omega]
    push_cast
    ring
  have hafter_wrap : (ofPerm p).after (p (a + ((n - 1 : ℕ) : ZMod n)))
      = p (a + ((0 : ℕ) : ZMod n)) := by
    show p (p.symm (p (a + ((n - 1 : ℕ) : ZMod n))) + 1) = _
    rw [Equiv.symm_apply_apply, hNcast]
    congr 1
    push_cast
    ring
  have hnd : seg.Nodup := by
    rw [List.nodup_iff_injective_get]
    intro j1 j2 h
    have hh : seg.getD j1.val 0 = seg.getD j2.val 0 := by
      rw [List.getD_eq_getElem seg 0 j1.isLt, List.getD_eq_getElem seg 0 j2.isLt]
      rw [List.get_eq_getElem, List.get_eq_getElem] at h
      exact h
    rw [hseg j1.val j1.isLt, hseg j2.val j2.isLt] at hh
    exact Fin.ext (hP_inj j1.val j2.val (by omega) (by omega) hh)
  have hmem_iff : ∀ r : ℕ, r < n → (p (a + ((r : ℕ) : ZMod n)) ∈ seg ↔ r < L) := by
    intro r hr
    constructor
    · intro hmem
      obtain ⟨j, hj, hget⟩ := List.getElem_of_mem hmem
      have hh : seg.getD j 0 = p (a + ((r : ℕ) : ZMod n)) := by
        rw [List.getD_eq_getElem seg 0 hj, hget]
      rw [hseg j hj] at hh
      have := hP_inj j r (by omega) hr hh
      omega
    · intro hrL
      rw [show p (a + ((r : ℕ) : ZMod n)) = seg.getD r 0 from (hseg r hrL).symm]
      rw [List.getD_eq_getElem seg 0 hrL]
      exact List.getElem_mem _
  set σ : Equiv.Perm (ZMod n) := revWinEquiv L (by omega) with hσdef
  set q : Equiv.Perm (ZMod n) :=
    ((Equiv.subRight a).trans σ).trans ((Equiv.addLeft a).trans p) with hqdef
  have hq_raw : ∀ w, q w = p (a + revWin L (w - a)) := fun w => rfl
  have hrev : ∀ m : ℕ, m < n → revWin L ((m : ℕ) : ZMod n)
      = (((if m ≤ L - 1 then L - 1 - m else m) : ℕ) : ZMod n) := by
    intro m hm
    unfold revWin
    rw [ZMod.val_cast_of_lt hm]
    split
    · rfl
    · rfl
  have hq_eval : ∀ m : ℕ, m < n → q (a + ((m : ℕ) : ZMod n))
      = p (a + (((if m ≤ L - 1 then L - 1 - m else m) : ℕ) : ZMod n)) := by
    intro m hm
    rw [hq_raw, add_sub_cancel_left, hrev m hm]
  have key_after : ∀ m : ℕ, m < n →
      ((reverseMove d (ofPerm p) c0 seg).1).after (q (a + ((m : ℕ) : ZMod n)))
        = q (a + ((m : ℕ) : ZMod n) + 1) := by
    intro m hm
    rcases Nat.lt_or_ge m (n - 1) with hmlt | hmge
    · have hsucc : (a + ((m : ℕ) : ZMod n) + 1) = a + (((m + 1 : ℕ)) : ZMod n) := by
        push_cast; ring
      rw [hsucc, hq_eval m hm, hq_eval (m + 1) (by omega)]
      rw [reverseMove_after_apply d _ c0 seg hnd, ← hLdef, hasg, hbs, hsl,
        hseg 0 (by omega)]
      rcases le_or_lt m (L - 1) with hmL | hmL
      · rcases Nat.lt_or_ge m (L - 1) with hmL2 | hmL2
        · -- segment interior: new successor is the old predecessor
          rw [if_pos hmL, if_pos (show m + 1 ≤ L - 1 by omega)]
          rw [if_neg (hPne (L - 1 - m) 0 (by omega) (by omega) (by omega)),
            if_neg (hPne (L - 1 - m) (n - 1) (by omega) (by omega) (by omega)),
            if_pos ((hmem_iff (L - 1 - m) (by omega)).mpr (by omega))]
          rw [hbefore_eval (L - 1 - m) (by omega)]
          rw [show L - 1 - m - 1 = L - 1 - (m + 1) by omega]
        · -- the head of the reversed segment: reattached to `after_segment`
          have hmeq : m = L - 1 := by omega
          rw [if_pos hmL, if_neg (show ¬ m + 1 ≤ L - 1 by omega)]
          rw [hmeq, show L - 1 - (L - 1) = 0 by omega]
          rw [if_pos rfl]
          rw [show L - 1 + 1 = L by omega]
      · -- untouched region
        rw [if_neg (show ¬ m ≤ L - 1 by omega), if_neg (show ¬ m + 1 ≤ L - 1 by omega)]
        rw [if_neg (hPne m 0 (by omega) (by omega) (by omega)),
          if_neg (hPne m (n - 1) (by omega) (by omega) (by omega)),
          if_neg (fun hmem => absurd ((hmem_iff m (by omega)).mp hmem) (by omega))]
        exact hafter_eval m
    · -- m = n - 1: the old predecessor of the segment, reattached to its tail
      have hmeq : m = n - 1 := by omega
      have hwrap : a + ((m : ℕ) : ZMod n) + 1 = a + ((0 : ℕ) : ZMod n) := by
        rw [hmeq, hNcast]
        push_cast
        ring
      rw [hwrap, hq_eval m hm, hq_eval 0 (by omega)]
      rw [reverseMove_after_apply d _ c0 seg hnd, ← hLdef, hasg, hbs, hsl,
        hseg 0 (by omega)]
      rw [if_neg (show ¬ m ≤ L - 1 by omega), if_pos (show 0 ≤ L - 1 by omega)]
      rw [hmeq]
      rw [if_neg (hPne (n - 1) 0 (by omega) (by omega) (by omega)),
        if_pos rfl]
      rw [show L - 1 - 0 = L - 1 by omega]
  have key_before : ∀ m : ℕ, m < n →
      ((reverseMove d (ofPerm p) c0 seg).1).before (q (a + ((m : ℕ) : ZMod n)))
        = q (a + ((m : ℕ) : ZMod n) - 1) := by
    intro m hm
    rcases Nat.eq_zero_or_pos m with hm0 | hmpos
    · -- m = 0: the tail of the reversed segment, reattached to `before_segment`
      have hpred : a + ((m : ℕ) : ZMod n) - 1 = a + ((n - 1 : ℕ) : ZMod n) := by
        rw [hm0, hNcast]
        push_cast
        ring
      rw [hpred, hq_eval m hm, hq_eval (n - 1) (by omega), hm0]
      rw [if_pos (show 0 ≤ L - 1 by omega), if_neg (show ¬ n - 1 ≤ L - 1 by omega)]
      rw [show L - 1 - 0 = L - 1 by omega]
      rw [reverseMove_before_apply d _ c0 seg hnd, ← hLdef, hasg, hbs, hsl,
        hseg 0 (by omega)]
      rw [if_neg (hPne (L - 1) L (by omega) (by omega) (by omega)),
        if_pos rfl]
    · have hpred : a + ((m : ℕ) : ZMod n) - 1 = a + ((m - 1 : ℕ) : ZMod n) := by
        rw [show (m : ℕ) = (m - 1) + 1 by omega]
        push_cast
        ring
      rw [hpred, hq_eval m hm, hq_eval (m - 1) (by omega)]
      rw [reverseMove_before_apply d _ c0 seg hnd, ← hLdef, hasg, hbs, hsl,
        hseg 0 (by omega)]
      rcases le_or_lt m (L - 1) with hmL | hmL
      · -- inside the window, m ≥ 1
        rw [if_pos hmL, if_pos (show m - 1 ≤ L - 1 by omega)]
        rw [if_neg (hPne (L - 1 - m) L (by omega) (by omega) (by omega)),
          if_neg (hPne (L - 1 - m) (L - 1) (by omega) (by omega) (by omega)),
          if_pos ((hmem_iff (L - 1 - m) (by omega)).mpr (by omega))]
        rw [hafter_eval (L - 1 - m)]
        rw [show L - 1 - m + 1 = L - 1 - (m - 1) by omega]
      · rcases Nat.eq_or_lt_of_le (show L ≤ m by omega) with hE | hE
        · -- m = L: the old successor of the segment, reattached to its head
          rw [if_neg (show ¬ m ≤ L - 1 by omega), if_pos (show m - 1 ≤ L - 1 by omega)]
          rw [← hE]
          rw [if_pos rfl]
          rw [show L - 1 - (L - 1) = 0 by omega]
        · -- untouched region
          rw [if_neg (show ¬ m ≤ L - 1 by omega), if_neg (show ¬ m - 1 ≤ L - 1 by omega)]
          rw [if_neg (hPne m L (by omega) (by omega) (by omega)),
            if_neg (hPne m (L - 1) (by omega) (by omega) (by omega)),
            if_neg (fun hmem => absurd ((hmem_iff m (by omega)).mp hmem) (by omega))]
          exact hbefore_eval m (by omega)
  constructor
  · refine ⟨q, ?_⟩
    have hofaq : ∀ v, (ofPerm q).after (q v) = q (v + 1) := by
      intro v
      show q (q.symm (q v) + 1) = _
      rw [Equiv.symm_apply_apply]
    have hofbq : ∀ v, (ofPerm q).before (q v) = q (v - 1) := by
      intro v
      show q (q.symm (q v) - 1) = _
      rw [Equiv.symm_apply_apply]
    have hafter : ((reverseMove d (ofPerm p) c0 seg).1).after = (ofPerm q).after := by
      funext c
      have hcw : c = q (a + (((q.symm c - a).val : ℕ) : ZMod n)) := by
        rw [zmod_natCast_val_self, show a + (q.symm c - a) = q.symm c by ring,
          Equiv.apply_symm_apply]
      rw [hcw, key_after _ (ZMod.val_lt _), hofaq]
    have hbefore : ((reverseMove d (ofPerm p) c0 seg).1).before = (ofPerm q).before := by
      funext c
      have hcw : c = q (a + (((q.symm c - a).val : ℕ) : ZMod n)) := by
        rw [zmod_natCast_val_self, show a + (q.symm c - a) = q.symm c by ring,
          Equiv.apply_symm_apply]
      rw [hcw, key_before _ (ZMod.val_lt _), hofbq]
    cases hsw : (reverseMove d (ofPerm p) c0 seg).1 with
    | mk aa bb =>
      rw [hsw] at hafter hbefore
      rw [show (ofPerm q) = ⟨(ofPerm q).after, (ofPerm q).before⟩ from rfl]
      exact congrArg₂ PathSolution.mk hafter hbefore
  · intro hsym
    rw [fullCost_sub d (ofPerm p) _
      ((Finset.range L).image (fun j : ℕ => p (a + ((j : ℕ) : ZMod n)))
        ∪ {p (a + ((n - 1 : ℕ) : ZMod n))}) ?_]
    · have hdisj : Disjoint
          ((Finset.range L).image (fun j : ℕ => p (a + ((j : ℕ) : ZMod n))))
          ({p (a + ((n - 1 : ℕ) : ZMod n))} : Finset (ZMod n)) := by
        rw [Finset.disjoint_singleton_right]
        intro hmem
        obtain ⟨j, hj, hje⟩ := Finset.mem_image.mp hmem
        rw [Finset.mem_range] at hj
        have := hP_inj j (n - 1) (by omega) (by omega) hje
        omega
      rw [Finset.sum_union hdisj, Finset.sum_singleton,
        Finset.sum_image (fun j1 h1 j2 h2 h => hP_inj j1 j2
          (by have := Finset.mem_range.mp h1; omega)
          (by have := Finset.mem_range.mp h2; omega) h)]
      -- evaluate each window term
      have heval0 : ((reverseMove d (ofPerm p) c0 seg).1).after
          (p (a + ((0 : ℕ) : ZMod n))) = p (a + ((L : ℕ) : ZMod n)) := by
        rw [reverseMove_after_apply d _ c0 seg hnd, ← hLdef, hseg 0 (by omega)]
        rw [if_pos rfl, hasg]
      have hevalmid : ∀ j : ℕ, 1 ≤ j → j ≤ L - 1 →
          ((reverseMove d (ofPerm p) c0 seg).1).after (p (a + ((j : ℕ) : ZMod n)))
            = p (a + ((j - 1 : ℕ) : ZMod n)) := by
        intro j h1 h2
        rw [reverseMove_after_apply d _ c0 seg hnd, ← hLdef, hbs, hseg 0 (by omega)]
        rw [if_neg (hPne j 0 (by omega) (by omega) (by omega)),
          if_neg (hPne j (n - 1) (by omega) (by omega) (by omega)),
          if_pos ((hmem_iff j (by omega)).mpr (by omega))]
        exact hbefore_eval j h1
      have hevalbs : ((reverseMove d (ofPerm p) c0 seg).1).after
          (p (a + ((n - 1 : ℕ) : ZMod n))) = p (a + ((L - 1 : ℕ) : ZMod n)) := by
        rw [reverseMove_after_apply d _ c0 seg hnd, ← hLdef, hbs, hsl, hseg 0 (by omega)]
        rw [if_neg (hPne (n - 1) 0 (by omega) (by omega) (by omega)),
          if_pos rfl]
      -- the window sum telescopes under symmetry of `d`
      have hsum : ∑ j ∈ Finset.range L,
          (d (p (a + ((j : ℕ) : ZMod n)))
              (((reverseMove d (ofPerm p) c0 seg).1).after (p (a + ((j : ℕ) : ZMod n))))
            - d (p (a + ((j : ℕ) : ZMod n)))
              ((ofPerm p).after (p (a + ((j : ℕ) : ZMod n)))))
          = d (p (a + ((0 : ℕ) : ZMod n))) (p (a + ((L : ℕ) : ZMod n)))
            - d (p (a + ((L - 1 : ℕ) : ZMod n))) (p (a + ((L : ℕ) : ZMod n))) := by
        rw [show L = (L - 1) + 1 by omega, Finset.sum_range_succ']
        have hterm : ∀ j : ℕ, j < L - 1 →
            (d (p (a + ((j + 1 : ℕ) : ZMod n)))
                (((reverseMove d (ofPerm p) c0 seg).1).after (p (a + ((j + 1 : ℕ) : ZMod n))))
              - d (p (a + ((j + 1 : ℕ) : ZMod n)))
                ((ofPerm p).after (p (a + ((j + 1 : ℕ) : ZMod n)))))
            = (fun i : ℕ => d (p (a + ((i : ℕ) : ZMod n))) (p (a + ((i + 1 : ℕ) : ZMod n)))) j
              - (fun i : ℕ => d (p (a + ((i : ℕ) : ZMod n))) (p (a + ((i + 1 : ℕ) : ZMod n)))) (j + 1) := by
          intro j hj
          show _ = d (p (a + ((j : ℕ) : ZMod n))) (p (a + ((j + 1 : ℕ) : ZMod n)))
            - d (p (a + ((j + 1 : ℕ) : ZMod n))) (p (a + ((j + 1 + 1 : ℕ) : ZMod n)))
          rw [hevalmid (j + 1) (by omega) (by omega), hafter_eval (j + 1),
            show j + 1 - 1 = j by omega]
          rw [hsym (p (a + ((j + 1 : ℕ) : ZMod n))) (p (a + ((j : ℕ) : ZMod n)))]
        rw [Finset.sum_congr rfl (fun j hj => hterm j (Finset.mem_range.mp hj))]
        rw [Finset.sum_range_sub' (fun i : ℕ =>
          d (p (a + ((i : ℕ) : ZMod n))) (p (a + ((i + 1 : ℕ) : ZMod n)))) (L - 1)]
        rw [heval0, hafter_eval 0, show (0 : ℕ) + 1 = 1 by omega,
          show L - 1 + 1 = L by omega]
        ring
      rw [hsum, hevalbs, hafter_wrap]
      congr 1
      rw [show (reverseMove d (ofPerm p) c0 seg).2 = c0
          + d ((ofPerm p).before (seg.getD 0 0)) (seg.getD (seg.length - 1) 0)
          + d (seg.getD 0 0) ((ofPerm p).after (seg.getD (seg.length - 1) 0))
          - d ((ofPerm p).before (seg.getD 0 0)) (seg.getD 0 0)
          - d (seg.getD (seg.length - 1) 0)
              ((ofPerm p).after (seg.getD (seg.length - 1) 0)) from rfl]
      rw [← hLdef, hasg, hbs, hsl, hseg 0 (by omega)]
      ring
    · intro c hc
      rw [Finset.mem_union, Finset.mem_singleton] at hc
      push_neg at hc
      obtain ⟨hc1, hc2⟩ := hc
      have hcw : c = p (a + (((p.symm c - a).val : ℕ) : ZMod n)) := by
        rw [zmod_natCast_val_self, show a + (p.symm c - a) = p.symm c by ring,
          Equiv.apply_symm_apply]
      have hr2 : (p.symm c - a).val ≠ n - 1 := by
        intro h
        apply hc2
        rw [hcw, h]
      have hr1 : ¬ (p.symm c - a).val < L := by
        intro h
        apply hc1
        rw [hcw]
        exact Finset.mem_image.mpr ⟨(p.symm c - a).val, Finset.mem_range.mpr h, rfl⟩
      rw [hcw]
      rw [reverseMove_after_apply d _ c0 seg hnd, ← hLdef, hbs, hseg 0 (by omega)]
      rw [if_neg (hPne _ 0 (ZMod.val_lt _) (by omega) (by omega)),
        if_neg (hPne _ (n - 1) (ZMod.val_lt _) (by omega) hr2),
        if_neg (fun hmem => absurd ((hmem_iff _ (ZMod.val_lt _)).mp hmem) hr1)]

/-- After a reversal of a contiguous segment with `3 ≤ L < n`, the solution is
again a valid cycle. -/
theorem reverseMove_valid [NeZero n] (d : ZMod n → ZMod n → ℚ) (c0 : ℚ)
    (s : PathSolution n) (hs : s.Valid) (seg : List (ZMod n))
    (hchain : ∀ jj : ℕ, jj + 1 < seg.length →
      s.after (seg.getD jj 0) = seg.getD (jj + 1) 0)
    (hL3 : 3 ≤ seg.length) (hLn : seg.length < n) :
    ((reverseMove d s c0 seg).1).Valid := by
  obtain ⟨p, rfl⟩ := valid_exists_perm s hs
  obtain ⟨⟨q, hq⟩, -⟩ := reverseMove_main d c0 p seg hchain hL3 hLn
  rw [hq]
  exact ofPerm_valid q

/-- Claim C1, reverse part: for a symmetric distance matrix, the attached
delta-updated cost of a segment reversal equals the recomputed cost. -/
theorem reverseMove_scratchCost [NeZero n] (d : ZMod n → ZMod n → ℚ)
    (s : PathSolution n) (hs : s.Valid) (c0 : ℚ) (hc0 : s.scratchCost d = some c0)
    (seg : List (ZMod n))
    (hchain : ∀ jj : ℕ, jj + 1 < seg.length →
      s.after (seg.getD jj 0) = seg.getD (jj + 1) 0)
    (hL3 : 3 ≤ seg.length) (hLn : seg.length < n)
    (hsym : ∀ i j : ZMod n, d i j = d j i) :
    ((reverseMove d s c0 seg).1).scratchCost d = some ((reverseMove d s c0 seg).2) := by
  have hvalid := reverseMove_valid d c0 s hs seg hchain hL3 hLn
  rw [scratchCost_of_valid d _ hvalid]
  congr 1
  obtain ⟨p, rfl⟩ := valid_exists_perm s hs
  obtain ⟨-, hcost⟩ := reverseMove_main d c0 p seg hchain hL3 hLn
  have hc0' : c0 = (ofPerm p).fullCost d := by
    rw [scratchCost_of_valid d _ (ofPerm_valid p)] at hc0
    exact (Option.some_injective _ hc0).symm
  rw [hcost hsym, ← hc0']
  ring

/-! ## Claims C1 and C2 -/

/-- **C2**: for every TSP solution whose `after`/`before` arrays are mutual
inverse permutations forming one Hamiltonian cycle, applying any move the
operators generate — `SwapNeighborhood.swap` on a pair the candidate loop does
not skip, `SegmentShift.insert_after` on a segment/target combination passing
the guards, `SegmentReverse.reverse` on a generated contiguous segment of
length at least 3 (and, for the full cycle to remain a cycle, less than `n`) —
yields a solution whose `after`/`before` arrays are again exact mutual
inverses, and following `after` from depot `0` returns to `0` after exactly
`n` steps touching each city exactly once. -/
theorem claim_C2_moves_preserve_invariant (n : ℕ) [NeZero n]
    (d : ZMod n → ZMod n → ℚ) (c0 : ℚ) (s : PathSolution n) (hs : s.Valid) :
    (∀ x y : ZMod n, x ≠ y → s.after x ≠ y → s.after y ≠ x →
      s.after (s.after x) ≠ y → s.after (s.after y) ≠ x →
      ((swapMove d s c0 x y).1).Valid) ∧
    (∀ (seg : List (ZMod n)) (x : ZMod n), seg ≠ [] →
      (∀ jj : ℕ, jj + 1 < seg.length → s.after (seg.getD jj 0) = seg.getD (jj + 1) 0) →
      x ≠ s.before (seg.getD 0 0) → x ≠ s.after (seg.getD (seg.length - 1) 0) →
      x ∉ seg →
      ((insertAfterMove d s c0 seg x).1).Valid) ∧
    (∀ seg : List (ZMod n),
      (∀ jj : ℕ, jj + 1 < seg.length → s.after (seg.getD jj 0) = seg.getD (jj + 1) 0) →
      3 ≤ seg.length → seg.length < n →
      ((reverseMove d s c0 seg).1).Valid) := by
  refine ⟨?_, ?_, ?_⟩
  · intro x y h1 h2 h3 _ _
    exact swapMove_valid d c0 s hs x y h1 h2 h3
  · intro seg x h1 h2 h3 h4 h5
    exact insertAfterMove_valid d c0 s hs seg x h1 h2 h3 h4 h5
  · intro seg h1 h2 h3
    exact reverseMove_valid d c0 s hs seg h1 h2 h3

/-- **C1**: for every TSP solution satisfying the Hamiltonian-cycle invariant
with at least 5 cities, and every candidate move its neighborhoods generate
(`swap` on a non-skipped pair, `insert_after` on a guard-passing
segment/target, `reverse` on a generated contiguous segment of length
`3 ≤ L < n`, with the symmetric distance matrix the importer builds), the
cost attached to the returned solution via the O(1) delta update equals the
cost obtained by recomputing the new solution's round-trip edge-length sum
from scratch by walking the cycle. -/
theorem claim_C1_delta_cost_correct (n : ℕ) [NeZero n] (_hn5 : 5 ≤ n)
    (d : ZMod n → ZMod n → ℚ) (s : PathSolution n) (hs : s.Valid)
    (c0 : ℚ) (hc0 : s.scratchCost d = some c0) :
    (∀ x y : ZMod n, x ≠ y → s.after x ≠ y → s.after y ≠ x →
      s.after (s.after x) ≠ y → s.after (s.after y) ≠ x →
      ((swapMove d s c0 x y).1).scratchCost d = some ((swapMove d s c0 x y).2)) ∧
    (∀ (seg : List (ZMod n)) (x : ZMod n), seg ≠ [] →
      (∀ jj : ℕ, jj + 1 < seg.length → s.after (seg.getD jj 0) = seg.getD (jj + 1) 0) →
      x ≠ s.before (seg.getD 0 0) → x ≠ s.after (seg.getD (seg.length - 1) 0) →
      x ∉ seg →
      ((insertAfterMove d s c0 seg x).1).scratchCost d
        = some ((insertAfterMove d s c0 seg x).2)) ∧
    ((∀ i j : ZMod n, d i j = d j i) → ∀ seg : List (ZMod n),
      (∀ jj : ℕ, jj + 1 < seg.length → s.after (seg.getD jj 0) = seg.getD (jj + 1) 0) →
      3 ≤ seg.length → seg.length < n →
      ((reverseMove d s c0 seg).1).scratchCost d = some ((reverseMove d s c0 seg).2)) := by
  refine ⟨?_, ?_, ?_⟩
  · intro x y h1 h2 h3 _ _
    exact swapMove_scratchCost d s hs c0 hc0 x y h1 h2 h3
  · intro seg x h1 h2 h3 h4 h5
    exact insertAfterMove_scratchCost d s hs c0 hc0 seg x h1 h2 h3 h4 h5
  · intro hsym seg h1 h2 h3
    exact reverseMove_scratchCost d s hs c0 hc0 seg h1 h2 h3 hsym

/-- A concrete 6-city cycle `0 → 1 → 2 → 3 → 4 → 5 → 0`. -/
def cycle6 : PathSolution 6 :=
  ⟨fun c => c + 1, fun c => c - 1⟩

/-- A concrete (constant, symmetric) distance matrix on 6 cities. -/
def dconst6 : ZMod 6 → ZMod 6 → ℚ := fun _ _ => 1

/-- Witness for C2 at a concrete 6-city instance: a non-skipped swap `(0, 3)`,
a guard-passing shift of segment `[1]` after city `4`, and a reversal of the
segment `[1, 2, 3]`. -/
theorem claim_C2_witness :
    ((swapMove dconst6 cycle6 6 0 3).1).Valid ∧
    ((insertAfterMove dconst6 cycle6 6 [1] 4).1).Valid ∧
    ((reverseMove dconst6 cycle6 6 [1, 2, 3]).1).Valid := by
  have h := claim_C2_moves_preserve_invariant 6 dconst6 6 cycle6 (by decide)
  refine ⟨h.1 0 3 (by decide) (by decide) (by decide) (by decide) (by decide),
    h.2.1 [1] 4 (by decide) ?_ (by decide) (by decide) (by decide),
    h.2.2 [1, 2, 3] ?_ (by decide) (by decide)⟩
  · intro jj hjj
    simp only [List.length_singleton] at hjj
    omega
  · intro jj hjj
    have h2 : jj < 2 := by
      simp only [List.length_cons, List.length_nil] at hjj
      omega
    interval_cases jj
    · decide
    · decide

/-- Witness for C1 at the same concrete instance. -/
theorem claim_C1_witness :
    ((swapMove dconst6 cycle6 6 0 3).1).scratchCost dconst6
        = some ((swapMove dconst6 cycle6 6 0 3).2) ∧
    ((insertAfterMove dconst6 cycle6 6 [1] 4).1).scratchCost dconst6
        = some ((insertAfterMove dconst6 cycle6 6 [1] 4).2) ∧
    ((reverseMove dconst6 cycle6 6 [1, 2, 3]).1).scratchCost dconst6
        = some ((reverseMove dconst6 cycle6 6 [1, 2, 3]).2) := by
  have hcost : cycle6.scratchCost dconst6 = some 6 := by
    show walkAux dconst6 cycle6.after 6 0 (cycle6.after 0) 0 = some 6
    simp +decide [walkAux, cycle6, dconst6]
    try norm_num
  have h := claim_C1_delta_cost_correct 6 (by omega) dconst6 cycle6 (by decide) 6 hcost
  refine ⟨h.1 0 3 (by decide) (by decide) (by decide) (by decide) (by decide),
    h.2.1 [1] 4 (by decide) ?_ (by decide) (by decide) (by decide),
    h.2.2 (by intro i j; rfl) [1, 2, 3] ?_ (by decide) (by decide)⟩
  · intro jj hjj
    simp only [List.length_singleton] at hjj
    omega
  · intro jj hjj
    have h2 : jj < 2 := by
      simp only [List.length_cons, List.length_nil] at hjj
      omega
    interval_cases jj
    · decide
    · decide

/-! ## Tabu list management (`_BasePathNeighborhood`, `src/tsp/solutions.py` lines 175-192) -/

/-- The class-level tabu state: the FIFO deque `_tabu_list`, the mirror set
`_tabu_set`, and the capacity `_maxlen`. -/
structure TabuState (α : Type) [DecidableEq α] where
  fifo : List α
  tabuSet : Finset α
  maxlen : ℕ

/-- The eviction loop of `remove_from_tabu` (lines 182-187): while the set
size exceeds `_maxlen`, pop the FIFO head and discard it from the set; a
`KeyError` on an entry already absent from the set is swallowed (`pass`),
which `Finset.erase` models exactly.  A `popleft` on an empty deque cannot
occur from a reachable state; the embedding leaves such a state unchanged. -/
def removeLoop {α : Type} [DecidableEq α] (maxlen : ℕ) :
    List α → Finset α → List α × Finset α
  | [], s => ([], s)
  | hd :: tl, s =>
    if s.card ≤ maxlen then (hd :: tl, s)
    else removeLoop maxlen tl (s.erase hd)

/-- `remove_from_tabu` (lines 181-187). -/
def removeFromTabu {α : Type} [DecidableEq α] (st : TabuState α) : TabuState α :=
  ⟨(removeLoop st.maxlen st.fifo st.tabuSet).1,
    (removeLoop st.maxlen st.fifo st.tabuSet).2, st.maxlen⟩

/-- `add_to_tabu` (lines 175-179): add the signature to the set, append it to
the FIFO, then evict. -/
def addToTabu {α : Type} [DecidableEq α] (st : TabuState α) (target : α) :
    TabuState α :=
  removeFromTabu ⟨st.fifo ++ [target], insert target st.tabuSet, st.maxlen⟩

/-- `reset_tabu` (lines 189-192): install the new capacity, then evict. -/
def resetTabu {α : Type} [DecidableEq α] (st : TabuState α) (m : ℕ) :
    TabuState α :=
  removeFromTabu ⟨st.fifo, st.tabuSet, m⟩

/-- One call of the public tabu interface. -/
inductive TabuOp (α : Type) where
  | add (target : α) : TabuOp α
  | reset (maxlen : ℕ) : TabuOp α

/-- Dispatch one call. -/
def tabuStep {α : Type} [DecidableEq α] (st : TabuState α) : TabuOp α → TabuState α
  | .add target => addToTabu st target
  | .reset m => resetTabu st m

/-- Run a call sequence from the class initialisers
(`_tabu_list = deque()`, `_tabu_set = set()`, `_maxlen = 100`). -/
def runTabu {α : Type} [DecidableEq α] (ops : List (TabuOp α)) : TabuState α :=
  ops.foldl tabuStep ⟨[], ∅, 100⟩

/-- The eviction loop bounds the set by the capacity and keeps every set
member inside the FIFO, provided every set member was in the FIFO before. -/
theorem removeLoop_spec {α : Type} [DecidableEq α] (maxlen : ℕ) (fifo : List α) :
    ∀ s : Finset α, (∀ x ∈ s, x ∈ fifo) →
      (removeLoop maxlen fifo s).2.card ≤ maxlen ∧
        ∀ x ∈ (removeLoop maxlen fifo s).2, x ∈ (removeLoop maxlen fifo s).1 := by
  induction fifo with
  | nil =>
    intro s h
    have hs : s = ∅ := Finset.eq_empty_of_forall_not_mem fun x hx => by
      simpa using h x hx
    subst hs
    simp [removeLoop]
  | cons hd tl ih =>
    intro s h
    by_cases hle : s.card ≤ maxlen
    · simp only [removeLoop, if_pos hle]
      exact ⟨hle, h⟩
    · simp only [removeLoop, if_neg hle]
      refine ih (s.erase hd) ?_
      intro x hx
      rcases Finset.mem_erase.mp hx with ⟨hne, hxs⟩
      rcases List.mem_cons.mp (h x hxs) with h1 | h1
      · exact absurd h1 hne
      · exact h1

/-- The invariant the spec asserts (corrected): the set never exceeds the
capacity, and every set member is still present in the FIFO. -/
def TabuInv {α : Type} [DecidableEq α] (st : TabuState α) : Prop :=
  st.tabuSet.card ≤ st.maxlen ∧ ∀ x ∈ st.tabuSet, x ∈ st.fifo

/-- `remove_from_tabu` establishes the invariant from mere set-in-FIFO
containment. -/
theorem removeFromTabu_inv {α : Type} [DecidableEq α] (st : TabuState α)
    (h : ∀ x ∈ st.tabuSet, x ∈ st.fifo) : TabuInv (removeFromTabu st) := by
  have hs := removeLoop_spec st.maxlen st.fifo st.tabuSet h
  exact ⟨hs.1, hs.2⟩

/-- Each interface call preserves the invariant. -/
theorem tabuStep_inv {α : Type} [DecidableEq α] (st : TabuState α) (op : TabuOp α)
    (h : ∀ x ∈ st.tabuSet, x ∈ st.fifo) : TabuInv (tabuStep st op) := by
  cases op with
  | add target =>
    refine removeFromTabu_inv _ ?_
    intro x hx
    rcases Finset.mem_insert.mp hx with h1 | h1
    · subst h1
      exact List.mem_append_right _ (List.mem_singleton.mpr rfl)
    · exact List.mem_append_left _ (h x h1)
  | reset m => exact removeFromTabu_inv _ h

/-- The concrete call sequence refuting the FIFO-iff-set part of the claim:
shrink the capacity to 2, then add 1, 1 (a duplicate), 2, 3. -/
def tabuOpsCex : List (TabuOp ℕ) :=
  [TabuOp.reset 2, TabuOp.add 1, TabuOp.add 1, TabuOp.add 2, TabuOp.add 3]

/-- C5 counterexample: after `reset_tabu(maxlen=2)` followed by
`add_to_tabu(1)` twice (a duplicated signature) and then `add_to_tabu(2)`,
`add_to_tabu(3)`, the final eviction pops only the first copy of 1 from the
FIFO while `set.remove(1)` deletes 1 from the set outright; the signature 1
then remains a member of the FIFO deque but is no longer in the set, so FIFO
membership and set membership disagree between calls. -/
theorem claim_C5_counterexample :
    1 ∈ (runTabu tabuOpsCex).fifo ∧ 1 ∉ (runTabu tabuOpsCex).tabuSet := by
  decide

/-- C5 (amended): after any sequence of `add_to_tabu` and `reset_tabu`
calls starting from the initial class state, the tabu set's size never
exceeds the configured capacity `_maxlen`, and every signature in the set is
also present in the FIFO deque (this one-directional containment is what
actually holds; the converse fails, see the counterexample). -/
theorem claim_C5_tabu_amended {α : Type} [DecidableEq α] (ops : List (TabuOp α)) :
    (runTabu ops).tabuSet.card ≤ (runTabu ops).maxlen ∧
      ∀ x ∈ (runTabu ops).tabuSet, x ∈ (runTabu ops).fifo := by
  have main : ∀ (l : List (TabuOp α)) (st : TabuState α),
      TabuInv st → TabuInv (l.foldl tabuStep st) := by
    intro l
    induction l with
    | nil => intro st h; exact h
    | cons op rest ih =>
      intro st h
      exact ih (tabuStep st op) (tabuStep_inv st op h.2)
  have h0 : TabuInv (⟨[], ∅, 100⟩ : TabuState α) := by
    refine ⟨by simp, ?_⟩
    intro x hx
    simp at hx
  exact main ops _ h0

/-! ## `import_problem` distance computation (`src/tsp/solutions.py` lines 146-150) -/

/-- The distance stored by `import_problem` for an `EUC_2D` instance, read
off line 148: `distances[i][j] = distances[j][i] = abs(x[i] - x[j]) +
abs(y[i] - y[j])`. -/
def importDistance (x y : ℕ → ℚ) (i j : ℕ) : ℚ :=
  |x i - x j| + |y i - y j|

/-- The x coordinates of the two-city instance exhibiting the divergence. -/
def cexX : ℕ → ℚ := fun n => if n = 0 then 3 else 0

/-- The y coordinates of the two-city instance exhibiting the divergence. -/
def cexY : ℕ → ℚ := fun n => if n = 0 then 4 else 0

/-- C3: the distance matrix built by `import_problem` for an `EUC_2D`
instance is NOT the Euclidean metric.  Line 148 stores the Manhattan
distance `abs(x[i]-x[j]) + abs(y[i]-y[j])`: for cities at coordinates
`(3, 4)` and `(0, 0)` the stored distance is `7`, while the Euclidean
distance `sqrt((x_i-x_j)^2 + (y_i-y_j)^2)` is `5`. -/
theorem claim_C3_distance_not_euclidean :
    ((importDistance cexX cexY 0 1 : ℚ) : ℝ) ≠
      Real.sqrt (((cexX 0 : ℝ) - (cexX 1 : ℝ)) ^ 2 +
        ((cexY 0 : ℝ) - (cexY 1 : ℝ)) ^ 2) := by
  have hL : importDistance cexX cexY 0 1 = 7 := by
    norm_num [importDistance, cexX, cexY]
  have hR : Real.sqrt (((cexX 0 : ℝ) - (cexX 1 : ℝ)) ^ 2 +
      ((cexY 0 : ℝ) - (cexY 1 : ℝ)) ^ 2) = 5 := by
    have harg : ((cexX 0 : ℝ) - (cexX 1 : ℝ)) ^ 2 +
        ((cexY 0 : ℝ) - (cexY 1 : ℝ)) ^ 2 = 5 ^ 2 := by
      norm_num [cexX, cexY]
    rw [harg]
    exact Real.sqrt_sq (by norm_num)
  rw [hL, hR]
  norm_num

/-! ## `SwapNeighborhood.find_best_candidate` (`src/tsp/solutions.py` lines 229-249) -/

/-- The enumeration `itertools.combinations(range(n), 2)` of unordered city
pairs, in the loop's lexicographic order, as elements of `ZMod n`. -/
def candidatePairs (n : ℕ) : List (ZMod n × ZMod n) :=
  (List.range n).flatMap fun i =>
    ((List.range n).filter fun j => decide (i < j)).map
      fun j => ((i : ZMod n), (j : ZMod n))

/-- The skip test on line 236: `after(first) == second or after(second) ==
first or after(after(first)) == second or after(after(second)) == first`.
The first two disjuncts detect adjacent pairs; the last two additionally
skip pairs at directed distance two along the cycle. -/
def skipPair (s : PathSolution n) (pr : ZMod n × ZMod n) : Prop :=
  s.after pr.1 = pr.2 ∨ s.after pr.2 = pr.1 ∨
    s.after (s.after pr.1) = pr.2 ∨ s.after (s.after pr.2) = pr.1

instance (s : PathSolution n) (pr : ZMod n × ZMod n) : Decidable (skipPair s pr) := by
  unfold skipPair
  infer_instance

/-- One iteration of the candidate loop (lines 232-244), folded over the
optional accumulator `(result, min_pair)`.  `BaseSolution.__lt__`, which the
source invokes as `swapped < result` on line 242, is not under `src/`;
that comparison is modelled from the spec: the loop keeps the "single
globally best (lowest-cost) candidate", i.e. the costs attached to the two
candidates are compared strictly. -/
def considerPair (d : ZMod n → ZMod n → ℚ) (s : PathSolution n) (c0 : ℚ)
    (tabu : Finset (ZMod n × ZMod n))
    (acc : Option ((PathSolution n × ℚ) × (ZMod n × ZMod n)))
    (pr : ZMod n × ZMod n) : Option ((PathSolution n × ℚ) × (ZMod n × ZMod n)) :=
  if skipPair s pr then acc
  else if pr ∈ tabu then acc
  else
    match acc with
    | none => some (swapMove d s c0 pr.1 pr.2, pr)
    | some best =>
      if (swapMove d s c0 pr.1 pr.2).2 < best.1.2 then
        some (swapMove d s c0 pr.1 pr.2, pr)
      else some best

/-- `find_best_candidate` (lines 229-249): run the candidate loop over all
unordered pairs, then push the selected pair's signature into the tabu
structures via `add_to_tabu` (line 247). -/
def find_best_candidate (d : ZMod n → ZMod n → ℚ) (s : PathSolution n) (c0 : ℚ)
    (st : TabuState (ZMod n × ZMod n)) :
    Option (PathSolution n × ℚ) × TabuState (ZMod n × ZMod n) :=
  match (candidatePairs n).foldl (considerPair d s c0 st.tabuSet) none with
  | none => (none, st)
  | some b => (some b.1, addToTabu st b.2)

/-- A pair the loop actually evaluates: not skipped by line 236 and not in
the tabu set. -/
def Qualifies (s : PathSolution n) (tabu : Finset (ZMod n × ZMod n))
    (pr : ZMod n × ZMod n) : Prop :=
  ¬ skipPair s pr ∧ pr ∉ tabu

/-- Behaviour of the candidate loop on an arbitrary pair list and
accumulator: the fold returns `none` iff it started from `none` and no pair
qualifies; a returned candidate is the starting accumulator or a qualified
pair's swap, its cost is minimal among all qualified pairs of the list, and
it never exceeds the starting accumulator's cost. -/
theorem foldl_considerPair_spec (d : ZMod n → ZMod n → ℚ) (s : PathSolution n)
    (c0 : ℚ) (tabu : Finset (ZMod n × ZMod n)) :
    ∀ (l : List (ZMod n × ZMod n))
      (acc : Option ((PathSolution n × ℚ) × (ZMod n × ZMod n))),
      (l.foldl (considerPair d s c0 tabu) acc = none ↔
        (acc = none ∧ ∀ pr ∈ l, ¬ Qualifies s tabu pr)) ∧
      (∀ b, l.foldl (considerPair d s c0 tabu) acc = some b →
        (acc = some b ∨ (b.2 ∈ l ∧ Qualifies s tabu b.2 ∧
          b.1 = swapMove d s c0 b.2.1 b.2.2)) ∧
        (∀ pr ∈ l, Qualifies s tabu pr → b.1.2 ≤ (swapMove d s c0 pr.1 pr.2).2) ∧
        (∀ a, acc = some a → b.1.2 ≤ a.1.2)) := by
  intro l
  induction l with
  | nil =>
    intro acc
    constructor
    · simp [List.foldl]
    · intro b hb
      simp only [List.foldl] at hb
      refine ⟨Or.inl hb, ?_, ?_⟩
      · intro pr hpr
        simp at hpr
      · intro a ha
        rw [hb] at ha
        injection ha with h1
        subst h1
        exact le_refl _
  | cons pr0 rest ih =>
    intro acc
    rw [List.foldl_cons]
    by_cases hq : Qualifies s tabu pr0
    · cases acc with
      | none =>
        have hstep : considerPair d s c0 tabu none pr0
            = some (swapMove d s c0 pr0.1 pr0.2, pr0) := by
          simp only [considerPair, if_neg hq.1, if_neg hq.2]
        rw [hstep]
        obtain ⟨ih1, ih2⟩ := ih (some (swapMove d s c0 pr0.1 pr0.2, pr0))
        constructor
        · rw [ih1]
          constructor
          · rintro ⟨h1, -⟩
            exact Option.noConfusion h1
          · rintro ⟨-, h2⟩
            exact absurd hq (h2 pr0 (List.mem_cons_self pr0 rest))
        · intro b hb
          obtain ⟨hA, hB, hC⟩ := ih2 b hb
          have hval : b.1.2 ≤ (swapMove d s c0 pr0.1 pr0.2).2 := hC _ rfl
          refine ⟨?_, ?_, ?_⟩
          · rcases hA with h | h
            · injection h with h'
              subst h'
              exact Or.inr ⟨List.mem_cons_self _ _, hq, rfl⟩
            · exact Or.inr ⟨List.mem_cons_of_mem _ h.1, h.2.1, h.2.2⟩
          · intro pr hpr hQpr
            rcases List.mem_cons.mp hpr with h | h
            · subst h
              exact hval
            · exact hB pr h hQpr
          · intro a ha
            exact Option.noConfusion ha
      | some a =>
        have hstep : considerPair d s c0 tabu (some a) pr0
            = if (swapMove d s c0 pr0.1 pr0.2).2 < a.1.2 then
                some (swapMove d s c0 pr0.1 pr0.2, pr0)
              else some a := by
          simp only [considerPair, if_neg hq.1, if_neg hq.2]
        by_cases hlt : (swapMove d s c0 pr0.1 pr0.2).2 < a.1.2
        · rw [hstep, if_pos hlt]
          obtain ⟨ih1, ih2⟩ := ih (some (swapMove d s c0 pr0.1 pr0.2, pr0))
          constructor
          · rw [ih1]
            constructor
            · rintro ⟨h1, -⟩
              exact Option.noConfusion h1
            · rintro ⟨h1, -⟩
              exact Option.noConfusion h1
          · intro b hb
            obtain ⟨hA, hB, hC⟩ := ih2 b hb
            have hval : b.1.2 ≤ (swapMove d s c0 pr0.1 pr0.2).2 := hC _ rfl
            refine ⟨?_, ?_, ?_⟩
            · rcases hA with h | h
              · injection h with h'
                subst h'
                exact Or.inr ⟨List.mem_cons_self _ _, hq, rfl⟩
              · exact Or.inr ⟨List.mem_cons_of_mem _ h.1, h.2.1, h.2.2⟩
            · intro pr hpr hQpr
              rcases List.mem_cons.mp hpr with h | h
              · subst h
                exact hval
              · exact hB pr h hQpr
            · intro a0 ha0
              injection ha0 with h'
              subst h'
              exact le_trans hval (le_of_lt hlt)
        · rw [hstep, if_neg hlt]
          obtain ⟨ih1, ih2⟩ := ih (some a)
          constructor
          · rw [ih1]
            constructor
            · rintro ⟨h1, -⟩
              exact Option.noConfusion h1
            · rintro ⟨h1, -⟩
              exact Option.noConfusion h1
          · intro b hb
            obtain ⟨hA, hB, hC⟩ := ih2 b hb
            have hval : b.1.2 ≤ a.1.2 := hC _ rfl
            refine ⟨?_, ?_, ?_⟩
            · rcases hA with h | h
              · exact Or.inl h
              · exact Or.inr ⟨List.mem_cons_of_mem _ h.1, h.2.1, h.2.2⟩
            · intro pr hpr hQpr
              rcases List.mem_cons.mp hpr with h | h
              · subst h
                exact le_trans hval (le_of_not_lt hlt)
              · exact hB pr h hQpr
            · intro a0 ha0
              injection ha0 with h'
              subst h'
              exact hval
    · have hstep : considerPair d s c0 tabu acc pr0 = acc := by
        unfold Qualifies at hq
        push_neg at hq
        by_cases hs1 : skipPair s pr0
        · simp only [considerPair, if_pos hs1]
        · simp only [considerPair, if_neg hs1, if_pos (hq hs1)]
      rw [hstep]
      obtain ⟨ih1, ih2⟩ := ih acc
      constructor
      · rw [ih1]
        constructor
        · rintro ⟨h1, h2⟩
          refine ⟨h1, ?_⟩
          intro pr hpr
          rcases List.mem_cons.mp hpr with h | h
          · subst h
            exact hq
          · exact h2 pr h
        · rintro ⟨h1, h2⟩
          exact ⟨h1, fun pr hpr => h2 pr (List.mem_cons_of_mem _ hpr)⟩
      · intro b hb
        obtain ⟨hA, hB, hC⟩ := ih2 b hb
        refine ⟨?_, ?_, hC⟩
        · rcases hA with h | h
          · exact Or.inl h
          · exact Or.inr ⟨List.mem_cons_of_mem _ h.1, h.2.1, h.2.2⟩
        · intro pr hpr hQpr
          rcases List.mem_cons.mp hpr with h | h
          · subst h
            exact absurd hQpr hq
          · exact hB pr h hQpr

/-- C4 counterexample: the claim says the loop "skips exactly those
unordered city pairs that are adjacent in the cycle or whose pair signature
is in the tabu set" and "evaluates the swap for every remaining pair".  In
the six-city cycle `0-1-2-3-4-5-0` the pair `(0, 2)` is not adjacent
(`after(0) = 1 ≠ 2` and `after(2) = 3 ≠ 0`) and the tabu set is empty, yet
line 236 skips it because `after(after(0)) = 2`: the loop leaves its
accumulator untouched on this pair instead of evaluating its swap. -/
theorem claim_C4_counterexample :
    skipPair cycle6 ((0 : ZMod 6), (2 : ZMod 6)) ∧
      cycle6.after 0 ≠ 2 ∧ cycle6.after 2 ≠ 0 ∧
      ∀ acc, considerPair dconst6 cycle6 6 ∅ acc ((0 : ZMod 6), (2 : ZMod 6)) = acc := by
  refine ⟨by decide, by decide, by decide, ?_⟩
  intro acc
  have hsk : skipPair cycle6 ((0 : ZMod 6), (2 : ZMod 6)) := by decide
  simp only [considerPair, if_pos hsk]

/-- C4 (amended): `find_best_candidate` skips exactly the pairs that are
adjacent in the cycle, at directed distance two along the cycle
(line 236 also tests `after(after(first)) == second or after(after(second))
== first`, which the claim's "adjacent" does not cover), or currently in
the tabu set; it evaluates the swap for every remaining pair and returns a
candidate of minimal attached cost among them, returning `None` exactly
when no pair qualifies; when a candidate is returned, its pair signature is
pushed via `add_to_tabu`, and the tabu state is untouched otherwise. -/
theorem claim_C4_find_best_amended (d : ZMod n → ZMod n → ℚ) (s : PathSolution n)
    (c0 : ℚ) (st : TabuState (ZMod n × ZMod n)) :
    ((find_best_candidate d s c0 st).1 = none ↔
      ∀ pr ∈ candidatePairs n, ¬ Qualifies s st.tabuSet pr) ∧
    ((find_best_candidate d s c0 st).1 = none →
      (find_best_candidate d s c0 st).2 = st) ∧
    (∀ sw, (find_best_candidate d s c0 st).1 = some sw →
      ∃ pr ∈ candidatePairs n, Qualifies s st.tabuSet pr ∧
        sw = swapMove d s c0 pr.1 pr.2 ∧
        (∀ pr' ∈ candidatePairs n, Qualifies s st.tabuSet pr' →
          sw.2 ≤ (swapMove d s c0 pr'.1 pr'.2).2) ∧
        (find_best_candidate d s c0 st).2 = addToTabu st pr) := by
  obtain ⟨hiff, hsome⟩ :=
    foldl_considerPair_spec d s c0 st.tabuSet (candidatePairs n) none
  cases hres : (candidatePairs n).foldl (considerPair d s c0 st.tabuSet) none with
  | none =>
    have hr : find_best_candidate d s c0 st = (none, st) := by
      unfold find_best_candidate
      rw [hres]
    rw [hr]
    refine ⟨⟨fun _ => (hiff.mp hres).2, fun _ => rfl⟩, fun _ => rfl, ?_⟩
    intro sw hsw
    exact Option.noConfusion hsw
  | some b =>
    have hr : find_best_candidate d s c0 st = (some b.1, addToTabu st b.2) := by
      unfold find_best_candidate
      rw [hres]
    obtain ⟨hA, hB, -⟩ := hsome b hres
    have hA' : b.2 ∈ candidatePairs n ∧ Qualifies s st.tabuSet b.2 ∧
        b.1 = swapMove d s c0 b.2.1 b.2.2 := by
      rcases hA with h | h
      · exact Option.noConfusion h
      · exact h
    rw [hr]
    refine ⟨?_, ?_, ?_⟩
    · constructor
      · intro h
        exact Option.noConfusion h
      · intro hall
        exact absurd hA'.2.1 (hall b.2 hA'.1)
    · intro h
      exact Option.noConfusion h
    · intro sw hsw
      injection hsw with h'
      subst h'
      exact ⟨b.2, hA'.1, hA'.2.1, hA'.2.2,
        fun pr' h1 h2 => hB pr' h1 h2, rfl⟩

/-- Witness for C4 on a one-city instance: no pair qualifies, so the loop
returns `None` and the tabu state is untouched. -/
theorem claim_C4_witness :
    (find_best_candidate (fun _ _ => (0 : ℚ)) (⟨id, id⟩ : PathSolution 1) 0
        ⟨[], ∅, 100⟩).2 = (⟨[], ∅, 100⟩ : TabuState (ZMod 1 × ZMod 1)) :=
  (claim_C4_find_best_amended (fun _ _ => (0 : ℚ)) (⟨id, id⟩ : PathSolution 1) 0
    ⟨[], ∅, 100⟩).2.1 rfl

/-! ## D2D data model: `src/ts/d2d/solutions.py` (`D2DPathSolution`)

Python floats are modelled as real numbers.  The problem-specific class
attributes imported by `import_problem` (lines 413-456) are gathered into a
`D2DProblem` record. -/

/-- The problem-specific class data of `D2DPathSolution` (lines 44-55). -/
structure D2DProblem where
  x : ℕ → ℝ
  y : ℕ → ℝ
  demands : ℕ → ℝ
  dronable : ℕ → Bool
  drone_service_time : ℕ → ℝ
  technician_service_time : ℕ → ℝ
  customers_count : ℕ
  drones_count : ℕ
  technicians_count : ℕ
  drones_flight_duration : ℝ

/-- Modelled from the spec: the per-drone configuration record.  The classes
`DroneLinearConfig`/`DroneNonlinearConfig` live in `.config`, which is not
under `src/`; the spec describes a configured altitude, takeoff/landing/
cruise speeds, a capacity and battery limit, and weight-dependent power
draws for the three flight phases, which is exactly the set of fields the
solution code reads (`config.altitude`, `config.takeoff_speed`,
`config.landing_speed`, `config.cruise_speed`, `config.capacity`,
`config.battery`, `config.takeoff_power`, `config.cruise_power`,
`config.landing_power`). -/
structure DroneConfig where
  altitude : ℝ
  takeoff_speed : ℝ
  landing_speed : ℝ
  cruise_speed : ℝ
  capacity : ℝ
  battery : ℝ
  takeoff_power : ℝ → ℝ
  cruise_power : ℝ → ℝ
  landing_power : ℝ → ℝ

/-- `D2DPathSolution.distance` (lines 216-218): the Euclidean distance
between two location indices. -/
noncomputable def D2DProblem.distance (pb : D2DProblem) (first second : ℕ) : ℝ :=
  Real.sqrt ((pb.x first - pb.x second) ^ 2 + (pb.y first - pb.y second) ^ 2)

/-- The loop of `calculate_drone_arrival_timestamps` (lines 227-229):
each appended timestamp is the previous one plus the service time of the
location just departed, plus the precomputed vertical time `vt`, plus the
cruise time for the edge. -/
noncomputable def droneArrivalsAux (pb : D2DProblem) (cfg : DroneConfig) (vt : ℝ) :
    List ℕ → ℕ → ℝ → List ℝ
  | [], _, _ => []
  | index :: rest, last, prev =>
    (prev + pb.drone_service_time last + vt + pb.distance last index / cfg.cruise_speed) ::
      droneArrivalsAux pb cfg vt rest index
        (prev + pb.drone_service_time last + vt + pb.distance last index / cfg.cruise_speed)

/-- `calculate_drone_arrival_timestamps` (lines 220-231).  `path[0]` on an
empty path raises an `IndexError`, modelled as `none`; `vertical_time` is
`config.altitude * (1 / config.takeoff_speed + 1 / config.landing_speed)`
(line 225). -/
noncomputable def calculate_drone_arrival_timestamps (pb : D2DProblem)
    (cfg : DroneConfig) (path : List ℕ) (offset : ℝ) : Option (List ℝ) :=
  match path with
  | [] => none
  | last :: rest =>
    some (offset :: droneArrivalsAux pb cfg
      (cfg.altitude * (1 / cfg.takeoff_speed + 1 / cfg.landing_speed)) rest last offset)

/-- The two failure modes of the drone computations: the `ValueError`
"Unknown drone for waiting time calculation" (line 244), and the
`IndexError` on `path[0]` of an empty path (line 223). -/
inductive DroneCalcError where
  | missingDrone : DroneCalcError
  | emptyPath : DroneCalcError
deriving DecidableEq

/-- `_ensure_drone_arrival_timestamps` (lines 233-248): return the supplied
timestamps if any; otherwise require a drone identifier (modelled by its
resolved configuration) and recompute from offset `0.0`. -/
noncomputable def ensure_drone_arrival_timestamps (pb : D2DProblem) (path : List ℕ)
    (drone : Option DroneConfig) (arrival_timestamps : Option (List ℝ)) :
    Except DroneCalcError (List ℝ) :=
  match arrival_timestamps with
  | some ats => .ok ats
  | none =>
    match drone with
    | none => .error DroneCalcError.missingDrone
    | some cfg =>
      match calculate_drone_arrival_timestamps pb cfg path 0 with
      | none => .error DroneCalcError.emptyPath
      | some ats => .ok ats

/-- `calculate_drone_total_waiting_time` (lines 250-264).  Line 258 passes
only `drone=drone` to `_ensure_drone_arrival_timestamps` and does NOT
forward the supplied `arrival_timestamps`; the embedding reproduces this by
passing `none` for them.  The loop of lines 261-262 sums, over the path
positions, last-arrival minus position-arrival minus the service time of
the visited location (`arrival_timestamps[-1]` is the last element). -/
noncomputable def calculate_drone_total_waiting_time (pb : D2DProblem)
    (path : List ℕ) (drone : Option DroneConfig)
    (arrival_timestamps : Option (List ℝ)) : Except DroneCalcError ℝ :=
  match ensure_drone_arrival_timestamps pb path drone none with
  | .error e => .error e
  | .ok ats =>
    .ok (∑ i ∈ Finset.range path.length,
      (ats.getD (ats.length - 1) 0 - ats.getD i 0 -
        pb.drone_service_time (path.getD i 0)))

/-- `calculate_drone_flight_duration` (lines 310-319): forwards both
optional arguments to `_ensure_drone_arrival_timestamps`, then returns
last arrival minus first arrival. -/
noncomputable def calculate_drone_flight_duration (pb : D2DProblem)
    (path : List ℕ) (drone : Option DroneConfig)
    (arrival_timestamps : Option (List ℝ)) : Except DroneCalcError ℝ :=
  match ensure_drone_arrival_timestamps pb path drone arrival_timestamps with
  | .error e => .error e
  | .ok ats => .ok (ats.getD (ats.length - 1) 0 - ats.getD 0 0)

/-- The loop of `calculate_drone_energy_consumption` (lines 335-347):
per edge, takeoff-, cruise- and landing-phase energies at the current
accumulated weight, which then grows by the demand of the visited
location. -/
noncomputable def energyAux (pb : D2DProblem) (cfg : DroneConfig) :
    List ℕ → ℕ → ℝ → ℝ
  | [], _, _ => 0
  | index :: rest, last, weight =>
    (cfg.altitude / cfg.takeoff_speed) * cfg.takeoff_power weight +
      (pb.distance last index / cfg.cruise_speed) * cfg.cruise_power weight +
      (cfg.altitude / cfg.landing_speed) * cfg.landing_power weight +
      energyAux pb cfg rest index (weight + pb.demands index)

/-- `calculate_drone_energy_consumption` (lines 321-347).  Its `drone`
parameter is a required `int` (line 326), so a configuration is always
supplied to `_ensure_drone_arrival_timestamps`. -/
noncomputable def calculate_drone_energy_consumption (pb : D2DProblem)
    (path : List ℕ) (cfg : DroneConfig)
    (arrival_timestamps : Option (List ℝ)) : Except DroneCalcError ℝ :=
  match ensure_drone_arrival_timestamps pb path (some cfg) arrival_timestamps with
  | .error e => .error e
  | .ok _ =>
    match path with
    | [] => .ok 0
    | last :: rest => .ok (energyAux pb cfg rest last 0)

/-- C6: the claim says a waiting-time or energy computation fails iff
neither precomputed arrival timestamps nor a drone identifier is supplied,
and in particular that supplying timestamps alone always succeeds.  This is
FALSE for `calculate_drone_total_waiting_time`: line 258 calls
`cls._ensure_drone_arrival_timestamps(path, drone=drone)` without
forwarding the supplied `arrival_timestamps`, so with timestamps supplied
but no drone it still raises the `ValueError` "Unknown drone for waiting
time calculation" — while `calculate_drone_flight_duration` (line 318),
which forwards both arguments, succeeds on the same inputs. -/
theorem claim_C6_waiting_time_drops_timestamps :
    ∀ (pb : D2DProblem) (path : List ℕ) (ats : List ℝ),
      calculate_drone_total_waiting_time pb path none (some ats) =
        .error DroneCalcError.missingDrone ∧
      calculate_drone_flight_duration pb path none (some ats) =
        .ok (ats.getD (ats.length - 1) 0 - ats.getD 0 0) := by
  intro pb path ats
  exact ⟨rfl, rfl⟩

/-- `__last_element` (lines 104-108): `__tuple[-1][-1]`, with an
`IndexError` (outer or inner tuple empty) caught and turned into `0.0`. -/
def lastElement (tss : List (List ℝ)) : ℝ :=
  match tss.getLast? with
  | none => 0
  | some ts =>
    match ts.getLast? with
    | none => 0
    | some v => v

/-- The per-drone loop of `get_arrival_timestamps` inside `__init__`
(lines 81-93): compute each route's arrival timestamps, threading the
drone's cumulative busy time (`offset = arrivals[-1]`) through its
routes. -/
noncomputable def droneArrivalsChain (pb : D2DProblem) (cfg : DroneConfig) :
    List (List ℕ) → ℝ → Option (List (List ℝ))
  | [], _ => some []
  | path :: rest, offset =>
    match calculate_drone_arrival_timestamps pb cfg path offset with
    | none => none
    | some arrivals =>
      match droneArrivalsChain pb cfg rest (arrivals.getD (arrivals.length - 1) 0) with
      | none => none
      | some out => some (arrivals :: out)

/-- The per-drone fragment of `__init__` with no precomputed data supplied
(lines 80-118): compute the drone's arrival timestamps from offset `0.0`,
its `drone_timespans` entry via `__last_element`, and its per-route waiting
times via `calculate_drone_total_waiting_time(path, drone=drone,
arrival_timestamps=arrival_timestamps)` zipped over routes (lines
112-118). -/
noncomputable def droneInitEntry (pb : D2DProblem) (cfg : DroneConfig)
    (paths : List (List ℕ)) : Option (ℝ × List (Except DroneCalcError ℝ)) :=
  match droneArrivalsChain pb cfg paths 0 with
  | none => none
  | some atss =>
    some (lastElement atss,
      (paths.zip atss).map fun pa =>
        calculate_drone_total_waiting_time pb pa.1 (some cfg) (some pa.2))

/-- C10: constructing a solution in which some drone has an empty list of
routes, with no precomputed timespans or waiting times supplied, does not
fail: the inner timestamp loop runs zero times (`some []`), the drone's
`drone_timespans` entry is the `__last_element` of an empty tuple, namely
`0.0` (the `IndexError` is caught), and the per-route waiting-time tuple is
the zip over zero routes, namely empty. -/
theorem claim_C10_empty_drone_routes (pb : D2DProblem) (cfg : DroneConfig) :
    droneInitEntry pb cfg [] = some (0, []) := rfl

/-- The loop recurrence of `calculate_drone_arrival_timestamps`: the output
has one entry per remaining path location, and each entry is the previous
timestamp plus service, vertical and cruise times for that edge. -/
theorem droneArrivalsAux_getD (pb : D2DProblem) (cfg : DroneConfig) (vt : ℝ) :
    ∀ (rest : List ℕ) (last : ℕ) (prev : ℝ),
      (droneArrivalsAux pb cfg vt rest last prev).length = rest.length ∧
      ∀ i < rest.length,
        (prev :: droneArrivalsAux pb cfg vt rest last prev).getD (i + 1) 0 =
          (prev :: droneArrivalsAux pb cfg vt rest last prev).getD i 0 +
            pb.drone_service_time ((last :: rest).getD i 0) + vt +
            pb.distance ((last :: rest).getD i 0) ((last :: rest).getD (i + 1) 0) /
              cfg.cruise_speed := by
  intro rest
  induction rest with
  | nil =>
    intro last prev
    exact ⟨rfl, fun i hi => absurd hi (Nat.not_lt_zero i)⟩
  | cons index rest' ih =>
    intro last prev
    constructor
    · simp only [droneArrivalsAux, List.length_cons]
      rw [(ih index _).1]
    · intro i hi
      cases i with
      | zero =>
        simp only [droneArrivalsAux, List.getD_cons_succ, List.getD_cons_zero]
      | succ j =>
        have hj : j < rest'.length := by
          simp only [List.length_cons] at hi
          omega
        have h2 := (ih index
          (prev + pb.drone_service_time last + vt +
            pb.distance last index / cfg.cruise_speed)).2 j hj
        simp only [droneArrivalsAux, List.getD_cons_succ]
        exact h2

/-- C9: for every drone route starting at the depot, every valid drone
configuration (positive takeoff/landing/cruise speeds, non-negative
altitude) with non-negative service times, and every offset,
`calculate_drone_arrival_timestamps` succeeds with one timestamp per
location; the first is the offset, each subsequent one adds the departed
location's service time, the fixed vertical time
`altitude * (1/takeoff_speed + 1/landing_speed)` and the Euclidean cruise
time, and the sequence is non-decreasing. -/
theorem claim_C9_drone_arrival_timestamps (pb : D2DProblem) (cfg : DroneConfig)
    (rest : List ℕ) (offset : ℝ) (hto : 0 < cfg.takeoff_speed)
    (hld : 0 < cfg.landing_speed) (hcr : 0 < cfg.cruise_speed)
    (halt : 0 ≤ cfg.altitude) (hsvc : ∀ i, 0 ≤ pb.drone_service_time i) :
    ∃ ts : List ℝ,
      calculate_drone_arrival_timestamps pb cfg (0 :: rest) offset = some ts ∧
      ts.length = rest.length + 1 ∧
      ts.getD 0 0 = offset ∧
      (∀ i, i + 1 < ts.length →
        ts.getD (i + 1) 0 = ts.getD i 0 +
          pb.drone_service_time ((0 :: rest).getD i 0) +
          cfg.altitude * (1 / cfg.takeoff_speed + 1 / cfg.landing_speed) +
          pb.distance ((0 :: rest).getD i 0) ((0 :: rest).getD (i + 1) 0) /
            cfg.cruise_speed) ∧
      (∀ i, i + 1 < ts.length → ts.getD i 0 ≤ ts.getD (i + 1) 0) := by
  obtain ⟨hlen, hrec⟩ := droneArrivalsAux_getD pb cfg
    (cfg.altitude * (1 / cfg.takeoff_speed + 1 / cfg.landing_speed)) rest 0 offset
  refine ⟨offset :: droneArrivalsAux pb cfg
      (cfg.altitude * (1 / cfg.takeoff_speed + 1 / cfg.landing_speed)) rest 0 offset,
    rfl, by rw [List.length_cons, hlen], by simp, ?_, ?_⟩
  · intro i hi
    refine hrec i ?_
    simp only [List.length_cons, hlen] at hi
    omega
  · intro i hi
    have hi' : i < rest.length := by
      simp only [List.length_cons, hlen] at hi
      omega
    rw [hrec i hi']
    have h1 : 0 ≤ pb.drone_service_time ((0 :: rest).getD i 0) := hsvc _
    have h2 : 0 ≤ cfg.altitude * (1 / cfg.takeoff_speed + 1 / cfg.landing_speed) :=
      mul_nonneg halt (add_nonneg (one_div_pos.mpr hto).le (one_div_pos.mpr hld).le)
    have h3 : 0 ≤ pb.distance ((0 :: rest).getD i 0) ((0 :: rest).getD (i + 1) 0) /
        cfg.cruise_speed := by
      refine div_nonneg ?_ hcr.le
      unfold D2DProblem.distance
      exact Real.sqrt_nonneg _
    linarith

/-- The all-zero one-customer problem instance used by the D2D witnesses. -/
def pbZero : D2DProblem :=
  ⟨fun _ => 0, fun _ => 0, fun _ => 0, fun _ => true, fun _ => 0, fun _ => 0,
    1, 1, 1, 1⟩

/-- A trivially valid drone configuration: unit speeds and limits, zero
altitude, zero power draws. -/
def cfgOne : DroneConfig :=
  ⟨0, 1, 1, 1, 1, 1, fun _ => 0, fun _ => 0, fun _ => 0⟩

/-- Witness for C9 at the depot-customer-depot route `[0, 1]` tail of the
all-zero instance. -/
theorem claim_C9_witness :
    ∃ ts : List ℝ,
      calculate_drone_arrival_timestamps pbZero cfgOne (0 :: [1]) 0 = some ts ∧
      ts.length = 2 := by
  obtain ⟨ts, h1, h2, -, -, -⟩ := claim_C9_drone_arrival_timestamps pbZero cfgOne
    [1] 0 (by norm_num [cfgOne]) (by norm_num [cfgOne]) (by norm_num [cfgOne])
    (by norm_num [cfgOne]) (fun i => by norm_num [pbZero])
  exact ⟨ts, h1, by simpa using h2⟩

/-! ## `calculate_technician_arrival_timestamps` (lines 266-293) -/

/-- Modelled from the spec: the truck configuration (`TruckConfig` lives in
`.config`, which is not under `src/`): a maximum velocity and the tuple of
hourly coefficients that `itertools.cycle` iterates (lines 272-274). -/
structure TruckConfig where
  maximum_velocity : ℝ
  coefficients : List ℝ

/-- The velocity in force after `cidx + 1` calls of
`next(coefficients_iter)`: `config.maximum_velocity * next(...)`, the
cycled iterator returning `coefficients[cidx % len(coefficients)]`. -/
noncomputable def TruckConfig.vel (tc : TruckConfig) (cidx : ℕ) : ℝ :=
  tc.maximum_velocity * tc.coefficients.getD (cidx % tc.coefficients.length) 0

/-- The truck loop state: the running timestamp, the time already elapsed
within the current hour (`current_within_timespan`), and the count of
coefficients consumed so far (determining the current velocity). -/
structure TruckState where
  timestamp : ℝ
  within : ℝ
  cidx : ℕ

/-- One iteration of the `while distance > 0` loop (lines 280-288):
`time_shift = min(distance / velocity, 3600.0 - current_within_timespan)`;
the timestamp and within-hour counters advance by `time_shift`, the
distance shrinks by `time_shift * velocity`, and when the hour boundary is
reached the within-hour counter resets and the next coefficient is
selected.  Returns the remaining distance and the new state. -/
noncomputable def edgeStep (tc : TruckConfig) (dist : ℝ) (st : TruckState) :
    ℝ × TruckState :=
  (dist - min (dist / tc.vel st.cidx) (3600 - st.within) * tc.vel st.cidx,
    if 3600 ≤ st.within + min (dist / tc.vel st.cidx) (3600 - st.within) then
      ⟨st.timestamp + min (dist / tc.vel st.cidx) (3600 - st.within), 0, st.cidx + 1⟩
    else
      ⟨st.timestamp + min (dist / tc.vel st.cidx) (3600 - st.within),
        st.within + min (dist / tc.vel st.cidx) (3600 - st.within), st.cidx⟩)

/-- The fuelled `while distance > 0` loop: iterate `edgeStep` while the
remaining distance is positive; `none` when the fuel runs out before the
loop exits. -/
noncomputable def consumeEdge (tc : TruckConfig) : ℕ → ℝ → TruckState → Option TruckState
  | 0, dist, st => if 0 < dist then none else some st
  | fuel + 1, dist, st =>
    if 0 < dist then consumeEdge tc fuel (edgeStep tc dist st).1 (edgeStep tc dist st).2
    else some st

/-- The outer loop over `path[1:]` (lines 276-291): consume each edge and
record the arrival timestamp at each visited location. -/
noncomputable def techArrivalsAux (pb : D2DProblem) (tc : TruckConfig) (fuel : ℕ) :
    List ℕ → ℕ → TruckState → Option (List ℝ)
  | [], _, _ => some []
  | index :: rest, last, st =>
    match consumeEdge tc fuel (pb.distance last index) st with
    | none => none
    | some st' =>
      match techArrivalsAux pb tc fuel rest index st' with
      | none => none
      | some ts => some (st'.timestamp :: ts)

/-- `calculate_technician_arrival_timestamps` (lines 266-293): seed the
result at `0.0`, the within-hour counter at `0.0` and the velocity at the
first cycled coefficient; `path[0]` of an empty path raises `IndexError`
(`none`). -/
noncomputable def calculate_technician_arrival_timestamps (pb : D2DProblem)
    (tc : TruckConfig) (fuel : ℕ) (path : List ℕ) : Option (List ℝ) :=
  match path with
  | [] => none
  | last :: rest =>
    match techArrivalsAux pb tc fuel rest last ⟨0, 0, 0⟩ with
    | none => none
    | some ts => some (0 :: ts)

/-- The spec's description of one edge's consumption, stated as a relation
(this definition follows the spec's words, to be compared with the code's
loop): travel consumes the remaining distance at the current
coefficient-scaled velocity; if the travel fits strictly within the current
hour the timestamp and within-hour counter advance by `distance/velocity`
and the edge is done; otherwise the distance is partially consumed up to
the hour boundary (3600 time units within the hour), the hour rolls over,
the next coefficient is selected, and consumption continues. -/
inductive EdgeSpec (tc : TruckConfig) : ℝ → TruckState → TruckState → Prop where
  | done (dist : ℝ) (st : TruckState) : dist ≤ 0 → EdgeSpec tc dist st st
  | fit (dist : ℝ) (st : TruckState) : 0 < dist →
      dist / tc.vel st.cidx < 3600 - st.within →
      EdgeSpec tc dist st
        ⟨st.timestamp + dist / tc.vel st.cidx, st.within + dist / tc.vel st.cidx,
          st.cidx⟩
  | boundary (dist : ℝ) (st st' : TruckState) : 0 < dist →
      3600 - st.within ≤ dist / tc.vel st.cidx →
      EdgeSpec tc (dist - (3600 - st.within) * tc.vel st.cidx)
        ⟨st.timestamp + (3600 - st.within), 0, st.cidx + 1⟩ st' →
      EdgeSpec tc dist st st'

/-- The fuelled loop refines the spec relation: whenever it terminates, the
state transition it performs is one the spec describes. -/
theorem consumeEdge_edgeSpec (tc : TruckConfig) (hv : ∀ k, 0 < tc.vel k) :
    ∀ (fuel : ℕ) (dist : ℝ) (st st' : TruckState),
      consumeEdge tc fuel dist st = some st' → EdgeSpec tc dist st st' := by
  intro fuel
  induction fuel with
  | zero =>
    intro dist st st' h
    simp only [consumeEdge] at h
    by_cases hd : 0 < dist
    · rw [if_pos hd] at h
      exact Option.noConfusion h
    · rw [if_neg hd] at h
      injection h with h'
      subst h'
      exact EdgeSpec.done dist st (le_of_not_lt hd)
  | succ n ih =>
    intro dist st st' h
    simp only [consumeEdge] at h
    by_cases hd : 0 < dist
    · rw [if_pos hd] at h
      by_cases hcase : dist / tc.vel st.cidx < 3600 - st.within
      · have hmin : min (dist / tc.vel st.cidx) (3600 - st.within)
            = dist / tc.vel st.cidx := min_eq_left hcase.le
        have hnoroll : ¬ 3600 ≤ st.within + dist / tc.vel st.cidx := by
          intro hh
          linarith
        have hstep1 : (edgeStep tc dist st).1 = 0 := by
          simp only [edgeStep, hmin]
          rw [div_mul_cancel₀ dist (hv st.cidx).ne']
          ring
        have hstep2 : (edgeStep tc dist st).2 =
            ⟨st.timestamp + dist / tc.vel st.cidx,
              st.within + dist / tc.vel st.cidx, st.cidx⟩ := by
          simp only [edgeStep, hmin, if_neg hnoroll]
        rw [hstep1, hstep2] at h
        have hstop : consumeEdge tc n 0
            (⟨st.timestamp + dist / tc.vel st.cidx,
              st.within + dist / tc.vel st.cidx, st.cidx⟩ : TruckState) =
            some ⟨st.timestamp + dist / tc.vel st.cidx,
              st.within + dist / tc.vel st.cidx, st.cidx⟩ := by
          cases n with
          | zero => simp [consumeEdge]
          | succ m => simp [consumeEdge]
        rw [hstop] at h
        injection h with h'
        rw [← h']
        exact EdgeSpec.fit dist st hd hcase
      · push_neg at hcase
        have hmin : min (dist / tc.vel st.cidx) (3600 - st.within)
            = 3600 - st.within := min_eq_right hcase
        have hroll : (3600 : ℝ) ≤ st.within + (3600 - st.within) := by linarith
        have hstep1 : (edgeStep tc dist st).1 =
            dist - (3600 - st.within) * tc.vel st.cidx := by
          simp only [edgeStep, hmin]
        have hstep2 : (edgeStep tc dist st).2 =
            ⟨st.timestamp + (3600 - st.within), 0, st.cidx + 1⟩ := by
          simp only [edgeStep, hmin, if_pos hroll]
        rw [hstep1, hstep2] at h
        exact EdgeSpec.boundary dist st st' hd hcase (ih _ _ _ h)
    · rw [if_neg hd] at h
      injection h with h'
      subst h'
      exact EdgeSpec.done dist st (le_of_not_lt hd)

/-- The loop only moves time forward, and keeps the within-hour counter
below the hour boundary. -/
theorem consumeEdge_mono (tc : TruckConfig) (hv : ∀ k, 0 < tc.vel k) :
    ∀ (fuel : ℕ) (dist : ℝ) (st st' : TruckState), st.within < 3600 →
      consumeEdge tc fuel dist st = some st' →
      st.timestamp ≤ st'.timestamp ∧ st'.within < 3600 := by
  intro fuel
  induction fuel with
  | zero =>
    intro dist st st' hw h
    simp only [consumeEdge] at h
    by_cases hd : 0 < dist
    · rw [if_pos hd] at h
      exact Option.noConfusion h
    · rw [if_neg hd] at h
      injection h with h'
      subst h'
      exact ⟨le_refl _, hw⟩
  | succ n ih =>
    intro dist st st' hw h
    simp only [consumeEdge] at h
    by_cases hd : 0 < dist
    · rw [if_pos hd] at h
      have hshift : 0 ≤ min (dist / tc.vel st.cidx) (3600 - st.within) :=
        le_min (div_nonneg hd.le (hv st.cidx).le) (by linarith)
      by_cases hroll : 3600 ≤ st.within +
          min (dist / tc.vel st.cidx) (3600 - st.within)
      · have hstep2 : (edgeStep tc dist st).2 =
            ⟨st.timestamp + min (dist / tc.vel st.cidx) (3600 - st.within),
              0, st.cidx + 1⟩ := by
          simp only [edgeStep, if_pos hroll]
        rw [hstep2] at h
        obtain ⟨h1, h2⟩ := ih _ _ _ (by norm_num) h
        refine ⟨le_trans ?_ h1, h2⟩
        simp only []
        linarith
      · have hstep2 : (edgeStep tc dist st).2 =
            ⟨st.timestamp + min (dist / tc.vel st.cidx) (3600 - st.within),
              st.within + min (dist / tc.vel st.cidx) (3600 - st.within),
              st.cidx⟩ := by
          simp only [edgeStep, if_neg hroll]
        rw [hstep2] at h
        push_neg at hroll
        obtain ⟨h1, h2⟩ := ih _ _ _ (by simp only []; linarith) h
        refine ⟨le_trans ?_ h1, h2⟩
        simp only []
        linarith
    · rw [if_neg hd] at h
      injection h with h'
      subst h'
      exact ⟨le_refl _, hw⟩

/-- Behaviour of the outer loop: one timestamp per remaining location, the
sequence extended by the current timestamp is non-decreasing, and each
consecutive pair of timestamps is related by a spec-described edge
consumption. -/
theorem techArrivalsAux_spec (pb : D2DProblem) (tc : TruckConfig)
    (hv : ∀ k, 0 < tc.vel k) (fuel : ℕ) :
    ∀ (rest : List ℕ) (last : ℕ) (st : TruckState) (ts : List ℝ),
      st.within < 3600 →
      techArrivalsAux pb tc fuel rest last st = some ts →
      ts.length = rest.length ∧
      (∀ i < rest.length,
        (st.timestamp :: ts).getD i 0 ≤ (st.timestamp :: ts).getD (i + 1) 0) ∧
      (∀ i < rest.length, ∃ s1 s2 : TruckState,
        s1.timestamp = (st.timestamp :: ts).getD i 0 ∧
        s2.timestamp = (st.timestamp :: ts).getD (i + 1) 0 ∧
        EdgeSpec tc (pb.distance ((last :: rest).getD i 0)
          ((last :: rest).getD (i + 1) 0)) s1 s2) := by
  intro rest
  induction rest with
  | nil =>
    intro last st ts hw h
    simp only [techArrivalsAux] at h
    injection h with h'
    subst h'
    exact ⟨rfl, fun i hi => absurd hi (Nat.not_lt_zero i),
      fun i hi => absurd hi (Nat.not_lt_zero i)⟩
  | cons index rest' ih =>
    intro last st ts hw h
    simp only [techArrivalsAux] at h
    split at h
    · exact Option.noConfusion h
    · rename_i st' hc1
      split at h
      · exact Option.noConfusion h
      · rename_i ts0 hc2
        injection h with h'
        subst h'
        obtain ⟨hm1, hm2⟩ := consumeEdge_mono tc hv fuel _ st st' hw hc1
        obtain ⟨hlen, hmono, hspec⟩ := ih index st' ts0 hm2 hc2
        refine ⟨by simp [hlen], ?_, ?_⟩
        · intro i hi
          cases i with
          | zero => simpa using hm1
          | succ j =>
            have hj : j < rest'.length := by
              simp only [List.length_cons] at hi
              omega
            simpa using hmono j hj
        · intro i hi
          cases i with
          | zero =>
            exact ⟨st, st', rfl, rfl, consumeEdge_edgeSpec tc hv fuel _ st st' hc1⟩
          | succ j =>
            have hj : j < rest'.length := by
              simp only [List.length_cons] at hi
              omega
            obtain ⟨s1, s2, e1, e2, hE⟩ := hspec j hj
            exact ⟨s1, s2, by simpa using e1, by simpa using e2, by simpa using hE⟩

/-- C8: for every truck path starting at the depot, positive maximum
velocity and positive hourly coefficients, whenever the (fuelled) loop
terminates, `calculate_technician_arrival_timestamps` returns one timestamp
per visited location, seeded at `0` for the depot departure; the sequence
is non-decreasing, and each consecutive pair is related by the spec's
edge-consumption relation: distance consumed at the coefficient-scaled
velocity, the coefficient advancing cyclically whenever 3600 time units
elapse within the current hour, with the remaining distance partially
consumed across the boundary. -/
theorem claim_C8_technician_arrival_timestamps (pb : D2DProblem)
    (tc : TruckConfig) (fuel : ℕ) (rest : List ℕ) (ts : List ℝ)
    (hmv : 0 < tc.maximum_velocity) (hne : tc.coefficients ≠ [])
    (hcf : ∀ c ∈ tc.coefficients, 0 < c)
    (hrun : calculate_technician_arrival_timestamps pb tc fuel (0 :: rest) = some ts) :
    ts.length = rest.length + 1 ∧
    ts.getD 0 0 = 0 ∧
    (∀ i, i + 1 < ts.length → ts.getD i 0 ≤ ts.getD (i + 1) 0) ∧
    (∀ i, i + 1 < ts.length → ∃ s1 s2 : TruckState,
      s1.timestamp = ts.getD i 0 ∧ s2.timestamp = ts.getD (i + 1) 0 ∧
      EdgeSpec tc (pb.distance ((0 :: rest).getD i 0) ((0 :: rest).getD (i + 1) 0))
        s1 s2) := by
  have hlenpos : 0 < tc.coefficients.length := List.length_pos.mpr hne
  have hv : ∀ k, 0 < tc.vel k := by
    intro k
    have hk : k % tc.coefficients.length < tc.coefficients.length :=
      Nat.mod_lt _ hlenpos
    have hg : tc.coefficients.getD (k % tc.coefficients.length) 0 =
        tc.coefficients.get ⟨k % tc.coefficients.length, hk⟩ := by
      rw [List.getD_eq_getElem _ _ hk]
      rfl
    have hmem : tc.coefficients.get ⟨k % tc.coefficients.length, hk⟩ ∈
        tc.coefficients := List.get_mem _ _ hk
    unfold TruckConfig.vel
    rw [hg]
    exact mul_pos hmv (hcf _ hmem)
  simp only [calculate_technician_arrival_timestamps] at hrun
  split at hrun
  · exact Option.noConfusion hrun
  · rename_i ts0 haux
    injection hrun with h'
    subst h'
    obtain ⟨hlen, hmono, hspec⟩ := techArrivalsAux_spec pb tc hv fuel rest 0
      ⟨0, 0, 0⟩ ts0 (by norm_num) haux
    refine ⟨by simp [hlen], by simp, ?_, ?_⟩
    · intro i hi
      have hi' : i < rest.length := by
        simp only [List.length_cons, hlen] at hi
        omega
      exact hmono i hi'
    · intro i hi
      have hi' : i < rest.length := by
        simp only [List.length_cons, hlen] at hi
        omega
      exact hspec i hi'

/-- The unit truck configuration used by the C8 witness. -/
def tcOne : TruckConfig := ⟨1, [1]⟩

/-- Witness for C8 on the all-zero instance: the depot-customer edge has
length zero, so the loop exits immediately and both timestamps are `0`. -/
theorem claim_C8_witness :
    (([(0 : ℝ), 0]).length = [1].length + 1) ∧ ([(0 : ℝ), 0]).getD 0 0 = 0 := by
  have hd : pbZero.distance 0 1 = 0 := by
    simp [D2DProblem.distance, pbZero]
  have hrun : calculate_technician_arrival_timestamps pbZero tcOne 1 (0 :: [1]) =
      some [0, 0] := by
    simp [calculate_technician_arrival_timestamps, techArrivalsAux, consumeEdge, hd]
  have h := claim_C8_technician_arrival_timestamps pbZero tcOne 1 [1] [0, 0]
    (by norm_num [tcOne])
    (by simp [tcOne])
    (by
      intro c hc
      have hc1 : c = 1 := by simpa [tcOne] using hc
      rw [hc1]
      norm_num)
    hrun
  exact ⟨h.1, h.2.1⟩

/-! ## `D2DPathSolution.initial` (lines 349-404)

CPython iterates a `set` of small non-negative integers in ascending value
order (integers hash to themselves), so the sets
`set(e for e in range(1, 1 + cls.customers_count) ...)` are embedded as the
ascending lists of the matching customer indices, and `min(...)` over them
as a left fold keeping the first minimum. -/

/-- `path[-1]` of a non-empty list. -/
def lastOf (p : List ℕ) : ℕ := p.getD (p.length - 1) 0

/-- Python's `min(iterable, key=key)` (`None` on an empty iterable instead
of the `ValueError`): the left fold keeping the earliest minimum. -/
noncomputable def pyMin (key : ℕ → ℝ) : List ℕ → Option ℕ
  | [] => none
  | x :: xs => some (xs.foldl (fun best c => if key c < key best then c else best) x)

/-- Python's `min(paths, key=key)` over a list of paths, returning the
index of the earliest minimising path. -/
noncomputable def pyMinIdx (key : List ℕ → ℝ) (l : List (List ℕ)) : Option ℕ :=
  match l with
  | [] => none
  | _ :: _ => some (((List.range l.length).drop 1).foldl
      (fun best i => if key (l.getD i []) < key (l.getD best []) then i else best) 0)

/-- Python's `list.insert(-1, c)`: insert `c` before the final element. -/
def insertPenultimate : List ℕ → ℕ → List ℕ
  | [], c => [c]
  | [z], c => [c, z]
  | a :: b :: t, c => a :: insertPenultimate (b :: t) c

/-- `calculate_total_weight` (lines 306-308). -/
noncomputable def calculate_total_weight (pb : D2DProblem) (path : List ℕ) : ℝ :=
  (path.map pb.demands).sum

/-- The flight duration of a route from offset `0`: the `ok` value of
`calculate_drone_flight_duration` on the hypothetical timestamps the
`initial` guard computes (last arrival minus first). -/
noncomputable def droneFlightTime (pb : D2DProblem) (cfg : DroneConfig)
    (path : List ℕ) : ℝ :=
  match calculate_drone_arrival_timestamps pb cfg path 0 with
  | none => 0
  | some ats => ats.getD (ats.length - 1) 0 - ats.getD 0 0

/-- The energy consumption of a route: the `ok` value of
`calculate_drone_energy_consumption`. -/
noncomputable def droneEnergy (pb : D2DProblem) (cfg : DroneConfig)
    (path : List ℕ) : ℝ :=
  match path with
  | [] => 0
  | last :: rest => energyAux pb cfg rest last 0

/-- The technician-assignment loop of `initial` (lines 355-360): while
technician-only customers remain, the cycled technician path receives the
customer closest to its current endpoint.  A `StopIteration` from cycling
zero technicians is modelled as `none`, as is fuel exhaustion (one customer
is consumed per iteration, so fuel `remaining.length` suffices). -/
noncomputable def techAssign (pb : D2DProblem) : ℕ → ℕ → List (List ℕ) → List ℕ →
    Option (List (List ℕ))
  | 0, _, paths, remaining => if remaining.isEmpty then some paths else none
  | fuel + 1, t, paths, remaining =>
    if remaining.isEmpty then some paths
    else if t < paths.length then
      match pyMin (fun c => pb.distance (lastOf (paths.getD t [])) c) remaining with
      | none => none
      | some c =>
        techAssign pb fuel ((t + 1) % paths.length)
          (paths.set t ((paths.getD t []) ++ [c])) (remaining.erase c)
    else none

/-- The drone-assignment loop of `initial` (lines 371-396): while dronable
customers remain, the cycled drone considers appending the closest
remaining customer to its open route; if the hypothetical closed route
would exceed the capacity, the flight-duration limit or the battery, the
open route is closed, a fresh route is opened, and the customer is instead
inserted before the trailing depot of the nearest technician path;
otherwise the customer extends the open route. -/
noncomputable def droneAssign (pb : D2DProblem) (dcfg : ℕ → DroneConfig) :
    ℕ → ℕ → List (List (List ℕ)) → List (List ℕ) → List ℕ →
    Option (List (List (List ℕ)) × List (List ℕ))
  | 0, _, dps, tps, remaining => if remaining.isEmpty then some (dps, tps) else none
  | fuel + 1, d, dps, tps, remaining =>
    if remaining.isEmpty then some (dps, tps)
    else if d < dps.length then
      match pyMin (fun c => pb.distance
          (lastOf ((dps.getD d []).getD ((dps.getD d []).length - 1) [])) c)
          remaining with
      | none => none
      | some c =>
        if calculate_total_weight pb
              (((dps.getD d []).getD ((dps.getD d []).length - 1) []) ++ [c, 0]) >
              (dcfg d).capacity ∨
            droneFlightTime pb (dcfg d)
              (((dps.getD d []).getD ((dps.getD d []).length - 1) []) ++ [c, 0]) >
              pb.drones_flight_duration ∨
            droneEnergy pb (dcfg d)
              (((dps.getD d []).getD ((dps.getD d []).length - 1) []) ++ [c, 0]) >
              (dcfg d).battery then
          match pyMinIdx (fun p => pb.distance c (p.getD (p.length - 2) 0)) tps with
          | none => none
          | some j =>
            droneAssign pb dcfg fuel ((d + 1) % pb.drones_count)
              (dps.set d (((dps.getD d []).set ((dps.getD d []).length - 1)
                (((dps.getD d []).getD ((dps.getD d []).length - 1) []) ++ [0])) ++
                [[0]]))
              (tps.set j (insertPenultimate (tps.getD j []) c))
              (remaining.erase c)
        else
          droneAssign pb dcfg fuel ((d + 1) % pb.drones_count)
            (dps.set d ((dps.getD d []).set ((dps.getD d []).length - 1)
              (((dps.getD d []).getD ((dps.getD d []).length - 1) []) ++ [c])))
            tps
            (remaining.erase c)
    else none

/-- `initial` (lines 349-404): serve the technician-only customers with
cycled technicians, close the technician paths with the depot, serve the
dronable customers with cycled drones, close each drone's open route with
the depot, and drop the drone routes that contain no customer
(`len(path) > 2` filter on line 402). -/
noncomputable def initial (pb : D2DProblem) (dcfg : ℕ → DroneConfig)
    (fuel1 fuel2 : ℕ) : Option (List (List (List ℕ)) × List (List ℕ)) :=
  match techAssign pb fuel1 0 (List.replicate pb.technicians_count [0])
      (((List.range pb.customers_count).map (· + 1)).filter
        fun c => ! pb.dronable c) with
  | none => none
  | some tps0 =>
    match droneAssign pb dcfg fuel2 0 (List.replicate pb.drones_count [[0]])
        (tps0.map fun p => p ++ [0])
        (((List.range pb.customers_count).map (· + 1)).filter
          fun c => pb.dronable c) with
    | none => none
    | some out =>
      some ((out.1.map fun paths =>
        ((paths.set (paths.length - 1)
          ((paths.getD (paths.length - 1) []) ++ [0])).filter
            fun p => decide (2 < p.length))), out.2)

/-- Total occurrences of customer `k` across a list of paths. -/
def countIn (paths : List (List ℕ)) (k : ℕ) : ℕ :=
  (paths.map fun p => p.count k).sum

/-- Total occurrences of customer `k` across all drones' route lists. -/
def countIn2 (dps : List (List (List ℕ))) (k : ℕ) : ℕ :=
  (dps.map fun ps => countIn ps k).sum

/-- A property preserved by the min-keeping fold holds of its result. -/
theorem foldl_min_prop (key : ℕ → ℝ) (P : ℕ → Prop) :
    ∀ (xs : List ℕ) (b : ℕ), P b → (∀ c ∈ xs, P c) →
      P (xs.foldl (fun best c => if key c < key best then c else best) b) := by
  intro xs
  induction xs with
  | nil => intro b hb _; exact hb
  | cons c xs' ih =>
    intro b hb hall
    simp only [List.foldl_cons]
    refine ih _ ?_ (fun c' hc' => hall c' (List.mem_cons_of_mem _ hc'))
    by_cases hlt : key c < key b
    · rw [if_pos hlt]
      exact hall c (List.mem_cons_self c xs')
    · rw [if_neg hlt]
      exact hb

/-- `pyMin` returns a member of its input. -/
theorem pyMin_mem (key : ℕ → ℝ) (l : List ℕ) (c : ℕ) (h : pyMin key l = some c) :
    c ∈ l := by
  match l with
  | [] => exact Option.noConfusion h
  | x :: xs =>
    simp only [pyMin] at h
    injection h with h'
    rw [← h']
    exact foldl_min_prop key (· ∈ x :: xs) xs x (List.mem_cons_self x xs)
      (fun c' hc' => List.mem_cons_of_mem _ hc')

/-- `pyMinIdx` returns an index into its input. -/
theorem pyMinIdx_lt (key : List ℕ → ℝ) (l : List (List ℕ)) (j : ℕ)
    (h : pyMinIdx key l = some j) : j < l.length := by
  match l with
  | [] => exact Option.noConfusion h
  | p :: ps =>
    simp only [pyMinIdx] at h
    injection h with h'
    rw [← h']
    refine foldl_min_prop (fun i => key ((p :: ps).getD i []))
      (· < (p :: ps).length) _ 0 (by simp) ?_
    intro i hi
    have hmem : i ∈ List.range (p :: ps).length := List.mem_of_mem_drop hi
    simpa using hmem

/-- `insert(-1, c)` grows the list by one. -/
theorem insertPenultimate_length (q : List ℕ) (c : ℕ) :
    (insertPenultimate q c).length = q.length + 1 := by
  induction q with
  | nil => rfl
  | cons a q' ih =>
    cases q' with
    | nil => rfl
    | cons b t =>
      simp only [insertPenultimate, List.length_cons] at ih ⊢
      omega

/-- Dropping the head does not change the last element of a two-element-or
-longer list. -/
theorem lastOf_cons_cons (a b : ℕ) (t : List ℕ) :
    lastOf (a :: b :: t) = lastOf (b :: t) := by
  simp [lastOf, List.getD_cons_succ]

/-- The last element after appending a singleton. -/
theorem lastOf_concat (q : List ℕ) (x : ℕ) : lastOf (q ++ [x]) = x := by
  induction q with
  | nil => rfl
  | cons a q' ih =>
    simp only [lastOf, List.cons_append, List.length_cons, List.length_append,
      List.length_singleton, List.length_nil, Nat.add_sub_cancel] at ih ⊢
    rw [List.getD_cons_succ]
    exact ih

/-- The head after appending a singleton to a non-empty list. -/
theorem headI_concat (p : List ℕ) (c : ℕ) (h : p ≠ []) :
    (p ++ [c]).headI = p.headI := by
  cases p with
  | nil => exact absurd rfl h
  | cons a t => rfl

/-- `insert(-1, c)` does not change the last element of a non-empty list. -/
theorem lastOf_insertPenultimate (q : List ℕ) (c : ℕ) (h : q ≠ []) :
    lastOf (insertPenultimate q c) = lastOf q := by
  induction q with
  | nil => exact absurd rfl h
  | cons a q' ih =>
    cases q' with
    | nil => simp [insertPenultimate, lastOf]
    | cons b t =>
      obtain ⟨x, y, s, hxy⟩ :
          ∃ x y s, insertPenultimate (b :: t) c = x :: y :: s := by
        have hlen := insertPenultimate_length (b :: t) c
        match hq : insertPenultimate (b :: t) c with
        | [] =>
          rw [hq] at hlen
          simp at hlen
        | [w] =>
          rw [hq] at hlen
          simp at hlen
        | x :: y :: s => exact ⟨x, y, s, rfl⟩
      show lastOf (a :: insertPenultimate (b :: t) c) = lastOf (a :: b :: t)
      rw [hxy, lastOf_cons_cons, ← hxy, ih (by simp), lastOf_cons_cons]

/-- `insert(-1, c)` adds exactly one occurrence of `c`. -/
theorem count_insertPenultimate (q : List ℕ) (c k : ℕ) :
    (insertPenultimate q c).count k = q.count k + if k = c then 1 else 0 := by
  induction q with
  | nil =>
    by_cases hkc : k = c
    · subst hkc
      simp [insertPenultimate]
    · simp [insertPenultimate, List.count_cons, hkc]
  | cons a q' ih =>
    cases q' with
    | nil =>
      by_cases hkc : k = c
      · subst hkc
        simp [insertPenultimate, List.count_cons]
      · simp [insertPenultimate, List.count_cons, hkc]
    | cons b t =>
      show (a :: insertPenultimate (b :: t) c).count k = _
      rw [List.count_cons, List.count_cons, ih]
      omega

/-- Unfolding lemmas for the occurrence counters. -/
theorem countIn_nil (k : ℕ) : countIn [] k = 0 := rfl

theorem countIn_cons (p : List ℕ) (ps : List (List ℕ)) (k : ℕ) :
    countIn (p :: ps) k = p.count k + countIn ps k := by
  simp [countIn]

theorem countIn2_nil (k : ℕ) : countIn2 [] k = 0 := rfl

theorem countIn2_cons (ps : List (List ℕ)) (dps : List (List (List ℕ))) (k : ℕ) :
    countIn2 (ps :: dps) k = countIn ps k + countIn2 dps k := by
  simp [countIn2]

theorem countIn_append (a b : List (List ℕ)) (k : ℕ) :
    countIn (a ++ b) k = countIn a k + countIn b k := by
  simp [countIn]

/-- Updating one path trades its old contribution for the new one. -/
theorem countIn_set (l : List (List ℕ)) (t : ℕ) (v : List ℕ) (k : ℕ)
    (h : t < l.length) :
    countIn (l.set t v) k + (l.getD t []).count k = countIn l k + v.count k := by
  induction l generalizing t with
  | nil => simp at h
  | cons p ps ih =>
    cases t with
    | zero =>
      simp only [List.set_cons_zero, countIn_cons, List.getD_cons_zero]
      omega
    | succ t' =>
      have h' : t' < ps.length := by simpa using h
      have hind := ih t' h'
      simp only [List.set_cons_succ, countIn_cons, List.getD_cons_succ]
      omega

/-- Updating one drone's route list trades its old contribution for the
new one. -/
theorem countIn2_set (l : List (List (List ℕ))) (t : ℕ) (v : List (List ℕ))
    (k : ℕ) (h : t < l.length) :
    countIn2 (l.set t v) k + countIn (l.getD t []) k =
      countIn2 l k + countIn v k := by
  induction l generalizing t with
  | nil => simp at h
  | cons p ps ih =>
    cases t with
    | zero =>
      simp only [List.set_cons_zero, countIn2_cons, List.getD_cons_zero]
      omega
    | succ t' =>
      have h' : t' < ps.length := by simpa using h
      have hind := ih t' h'
      simp only [List.set_cons_succ, countIn2_cons, List.getD_cons_succ]
      omega

/-- A depot-only path contains no customer. -/
theorem count_depot (k : ℕ) (hk : k ≠ 0) : ([0] : List ℕ).count k = 0 := by
  simp [List.count_cons, hk]

theorem countIn_replicate_depot (n k : ℕ) (hk : k ≠ 0) :
    countIn (List.replicate n [0]) k = 0 := by
  induction n with
  | zero => rfl
  | succ m ih => simp [List.replicate_succ, countIn_cons, ih, count_depot k hk]

theorem countIn2_replicate_depot (n k : ℕ) (hk : k ≠ 0) :
    countIn2 (List.replicate n [[0]]) k = 0 := by
  induction n with
  | zero => rfl
  | succ m ih =>
    simp [List.replicate_succ, countIn2_cons, ih, countIn_cons, count_depot k hk,
      countIn_nil]

/-- Appending the trailing depot changes no customer count. -/
theorem countIn_map_concat (l : List (List ℕ)) (k : ℕ) (hk : k ≠ 0) :
    countIn (l.map fun p => p ++ [0]) k = countIn l k := by
  induction l with
  | nil => rfl
  | cons p ps ih =>
    have h0 : ([0] : List ℕ).count k = 0 := count_depot k hk
    simp only [List.map_cons, countIn_cons, List.count_append, ih, h0]
    omega

/-- `getD` at an untouched index. -/
theorem getD_set_ne {α : Type} (l : List α) (n i : ℕ) (v d : α) (hne : n ≠ i) :
    (l.set n v).getD i d = l.getD i d := by
  by_cases hi : i < l.length
  · rw [List.getD_eq_getElem _ _ (by simpa using hi), List.getD_eq_getElem _ _ hi]
    exact List.getElem_set_ne hne _
  · rw [List.getD_eq_default _ _ (by simpa using le_of_not_lt hi),
      List.getD_eq_default _ _ (le_of_not_lt hi)]

/-- `getD` at the updated index. -/
theorem getD_set_self {α : Type} (l : List α) (n : ℕ) (v d : α)
    (h : n < l.length) : (l.set n v).getD n d = v := by
  rw [List.getD_eq_getElem _ _ (by simpa using h)]
  exact List.getElem_set_self _

/-- `getD` within bounds is a member. -/
theorem getD_mem {α : Type} (l : List α) (n : ℕ) (d : α) (h : n < l.length) :
    l.getD n d ∈ l := by
  rw [List.getD_eq_getElem _ _ h]
  exact List.getElem_mem _

/-- Occurrences of `k` in a singleton. -/
theorem count_single (c k : ℕ) : ([c] : List ℕ).count k = if k = c then 1 else 0 := by
  by_cases hkc : k = c
  · subst hkc
    simp
  · simp [List.count_cons, hkc]

/-- Behaviour of the technician-assignment loop: every remaining customer
is appended to exactly one path, nothing else changes, the number of paths
is preserved, and any property stable under appending one element is
preserved pathwise. -/
theorem techAssign_spec (pb : D2DProblem) :
    ∀ (fuel t : ℕ) (paths : List (List ℕ)) (remaining : List ℕ)
      (paths' : List (List ℕ)), remaining.Nodup →
      techAssign pb fuel t paths remaining = some paths' →
      (∀ k, k ∈ remaining → countIn paths' k = countIn paths k + 1) ∧
      (∀ k, k ∉ remaining → countIn paths' k = countIn paths k) ∧
      paths'.length = paths.length ∧
      (∀ P : List ℕ → Prop, (∀ p c, P p → P (p ++ [c])) →
        (∀ p ∈ paths, P p) → ∀ p ∈ paths', P p) := by
  intro fuel
  induction fuel with
  | zero =>
    intro t paths remaining paths' hnd h
    simp only [techAssign] at h
    by_cases hre : remaining.isEmpty
    · rw [if_pos hre] at h
      injection h with h'
      subst h'
      have hre' : remaining = [] := List.isEmpty_iff.mp hre
      subst hre'
      exact ⟨fun k hk => absurd hk (List.not_mem_nil k), fun k _ => rfl, rfl,
        fun P _ hp => hp⟩
    · rw [if_neg hre] at h
      exact Option.noConfusion h
  | succ n ih =>
    intro t paths remaining paths' hnd h
    simp only [techAssign] at h
    by_cases hre : remaining.isEmpty
    · rw [if_pos hre] at h
      injection h with h'
      subst h'
      have hre' : remaining = [] := List.isEmpty_iff.mp hre
      subst hre'
      exact ⟨fun k hk => absurd hk (List.not_mem_nil k), fun k _ => rfl, rfl,
        fun P _ hp => hp⟩
    · rw [if_neg hre] at h
      by_cases ht : t < paths.length
      · rw [if_pos ht] at h
        split at h
        · exact Option.noConfusion h
        · rename_i c hc
          have hcmem : c ∈ remaining := pyMin_mem _ _ _ hc
          obtain ⟨ih1, ih2, ih3, ih4⟩ := ih ((t + 1) % paths.length)
            (paths.set t ((paths.getD t []) ++ [c])) (remaining.erase c) paths'
            (List.Nodup.erase c hnd) h
          have hset : ∀ k, countIn (paths.set t ((paths.getD t []) ++ [c])) k =
              countIn paths k + if k = c then 1 else 0 := by
            intro k
            have hcs := countIn_set paths t ((paths.getD t []) ++ [c]) k ht
            rw [List.count_append, count_single] at hcs
            omega
          refine ⟨?_, ?_, ?_, ?_⟩
          · intro k hk
            by_cases hkc : k = c
            · subst hkc
              have hknot : k ∉ remaining.erase k := by
                intro hmem
                rcases (List.Nodup.mem_erase_iff hnd).mp hmem with ⟨hne, -⟩
                exact hne rfl
              rw [ih2 k hknot, hset k, if_pos rfl]
            · have hk' : k ∈ remaining.erase c :=
                (List.Nodup.mem_erase_iff hnd).mpr ⟨hkc, hk⟩
              rw [ih1 k hk', hset k, if_neg hkc]
          · intro k hk
            have hkc : k ≠ c := fun he => hk (he ▸ hcmem)
            have hk' : k ∉ remaining.erase c := fun hmem =>
              hk ((List.Nodup.mem_erase_iff hnd).mp hmem).2
            rw [ih2 k hk', hset k, if_neg hkc]
            omega
          · rw [ih3, List.length_set]
          · intro P hP hall
            refine ih4 P hP ?_
            intro p hp
            rcases List.mem_or_eq_of_mem_set hp with h1 | h1
            · exact hall p h1
            · subst h1
              exact hP _ c (hall _ (getD_mem paths t [] ht))
      · rw [if_neg ht] at h
        exact Option.noConfusion h

/-- The technician-path shape invariant during the drone loop: at least
two entries, starting and ending at the depot. -/
def TechInv (tps : List (List ℕ)) : Prop :=
  ∀ p ∈ tps, 2 ≤ p.length ∧ p.headI = 0 ∧ lastOf p = 0

/-- The shape invariant of one drone's route list during the drone loop:
non-empty, every route non-empty and starting at the depot, and every
route except the open (last) one ending at the depot. -/
def RoutesInv (ps : List (List ℕ)) : Prop :=
  ps ≠ [] ∧ (∀ p ∈ ps, p ≠ [] ∧ p.headI = 0) ∧
    (∀ i, i + 1 < ps.length → lastOf (ps.getD i []) = 0)

/-- The shape invariant across all drones. -/
def DronesInv (dps : List (List (List ℕ))) : Prop := ∀ ps ∈ dps, RoutesInv ps

/-- A list of length at least two is a double cons. -/
theorem exists_cons_cons (q : List ℕ) (h : 2 ≤ q.length) :
    ∃ a b t, q = a :: b :: t := by
  match q with
  | [] => simp at h
  | [z] => simp at h
  | a :: b :: t => exact ⟨a, b, t, rfl⟩

/-- `insert(-1, c)` into one technician path preserves the technician
invariant. -/
theorem techInv_insert (tps : List (List ℕ)) (j c : ℕ) (htech : TechInv tps)
    (hj : j < tps.length) :
    TechInv (tps.set j (insertPenultimate (tps.getD j []) c)) := by
  intro p hp
  rcases List.mem_or_eq_of_mem_set hp with h1 | h1
  · exact htech p h1
  · subst h1
    obtain ⟨hlen, hhead, hlast⟩ := htech _ (getD_mem tps j [] hj)
    obtain ⟨a, b, t, hshape⟩ := exists_cons_cons _ hlen
    refine ⟨?_, ?_, ?_⟩
    · rw [insertPenultimate_length]
      omega
    · rw [hshape]
      rw [hshape] at hhead
      show (a :: insertPenultimate (b :: t) c).headI = 0
      simpa using hhead
    · rw [lastOf_insertPenultimate _ _ (by rw [hshape]; simp)]
      exact hlast

/-- `getD` in the left part of an append. -/
theorem getD_append_left {α : Type} (l l' : List α) (i : ℕ) (d : α)
    (h : i < l.length) : (l ++ l').getD i d = l.getD i d := by
  rw [List.getD_eq_getElem _ _ (by simp; omega), List.getD_eq_getElem _ _ h]
  exact List.getElem_append_left _

/-- Closing the open route and opening a fresh depot route preserves the
route-list invariant. -/
theorem routesInv_close (ps : List (List ℕ)) (h : RoutesInv ps) :
    RoutesInv ((ps.set (ps.length - 1)
      ((ps.getD (ps.length - 1) []) ++ [0])) ++ [[0]]) := by
  obtain ⟨hne, hmem, hlast⟩ := h
  have hL : 0 < ps.length := List.length_pos.mpr hne
  refine ⟨by simp, ?_, ?_⟩
  · intro p hp
    rcases List.mem_append.mp hp with h1 | h1
    · rcases List.mem_or_eq_of_mem_set h1 with h2 | h2
      · exact hmem p h2
      · subst h2
        have hold := hmem _ (getD_mem ps (ps.length - 1) [] (by omega))
        exact ⟨by simp, by rw [headI_concat _ _ hold.1]; exact hold.2⟩
    · have hp0 : p = [0] := by simpa using h1
      subst hp0
      exact ⟨by simp, rfl⟩
  · intro i hi
    have hi' : i < ps.length := by
      simp only [List.length_append, List.length_set, List.length_singleton] at hi
      omega
    rw [getD_append_left _ _ _ _ (by rw [List.length_set]; exact hi')]
    by_cases hieq : i = ps.length - 1
    · subst hieq
      rw [getD_set_self _ _ _ _ (by omega)]
      exact lastOf_concat _ 0
    · rw [getD_set_ne _ _ _ _ _ (fun he => hieq he.symm)]
      exact hlast i (by omega)

/-- Extending the open route by one customer preserves the route-list
invariant. -/
theorem routesInv_extend (ps : List (List ℕ)) (c : ℕ) (h : RoutesInv ps) :
    RoutesInv (ps.set (ps.length - 1) ((ps.getD (ps.length - 1) []) ++ [c])) := by
  obtain ⟨hne, hmem, hlast⟩ := h
  have hL : 0 < ps.length := List.length_pos.mpr hne
  refine ⟨?_, ?_, ?_⟩
  · exact List.length_pos.mp (by rw [List.length_set]; exact hL)
  · intro p hp
    rcases List.mem_or_eq_of_mem_set hp with h1 | h1
    · exact hmem p h1
    · subst h1
      have hold := hmem _ (getD_mem ps (ps.length - 1) [] (by omega))
      exact ⟨by simp, by rw [headI_concat _ _ hold.1]; exact hold.2⟩
  · intro i hi
    rw [List.length_set] at hi
    rw [getD_set_ne _ _ _ _ _ (by omega)]
    exact hlast i hi

/-- Closing the open route adds no customer occurrence. -/
theorem countIn_close (ps : List (List ℕ)) (k : ℕ) (hk : k ≠ 0)
    (hL : 0 < ps.length) :
    countIn ((ps.set (ps.length - 1)
      ((ps.getD (ps.length - 1) []) ++ [0])) ++ [[0]]) k = countIn ps k := by
  rw [countIn_append]
  have h1 := countIn_set ps (ps.length - 1)
    ((ps.getD (ps.length - 1) []) ++ [0]) k (by omega)
  rw [List.count_append, count_single, if_neg hk] at h1
  have h2 : countIn [[0]] k = 0 := by
    rw [countIn_cons, countIn_nil, count_depot k hk]
  omega

/-- Extending the open route adds exactly the new customer. -/
theorem countIn_extend (ps : List (List ℕ)) (c k : ℕ) (hL : 0 < ps.length) :
    countIn (ps.set (ps.length - 1) ((ps.getD (ps.length - 1) []) ++ [c])) k
      = countIn ps k + if k = c then 1 else 0 := by
  have h1 := countIn_set ps (ps.length - 1)
    ((ps.getD (ps.length - 1) []) ++ [c]) k (by omega)
  rw [List.count_append, count_single] at h1
  omega

/-- Behaviour of the drone-assignment loop: every remaining customer lands
exactly once in the combined drone/technician structures, customers not
remaining are never added to the drone routes nor to the technician paths,
and both shape invariants are preserved. -/
theorem droneAssign_spec (pb : D2DProblem) (dcfg : ℕ → DroneConfig) :
    ∀ (fuel d : ℕ) (dps : List (List (List ℕ))) (tps : List (List ℕ))
      (remaining : List ℕ) (out : List (List (List ℕ)) × List (List ℕ)),
      remaining.Nodup → TechInv tps → DronesInv dps →
      droneAssign pb dcfg fuel d dps tps remaining = some out →
      (∀ k, k ≠ 0 → k ∈ remaining →
        countIn2 out.1 k + countIn out.2 k = countIn2 dps k + countIn tps k + 1) ∧
      (∀ k, k ≠ 0 → k ∉ remaining →
        countIn2 out.1 k = countIn2 dps k ∧ countIn out.2 k = countIn tps k) ∧
      TechInv out.2 ∧ DronesInv out.1 := by
  intro fuel
  induction fuel with
  | zero =>
    intro d dps tps remaining out hnd htech hdrone h
    simp only [droneAssign] at h
    by_cases hre : remaining.isEmpty
    · rw [if_pos hre] at h
      injection h with h'
      subst h'
      have hre' : remaining = [] := List.isEmpty_iff.mp hre
      subst hre'
      exact ⟨fun k _ hk => absurd hk (List.not_mem_nil k),
        fun k _ _ => ⟨rfl, rfl⟩, htech, hdrone⟩
    · rw [if_neg hre] at h
      exact Option.noConfusion h
  | succ n ih =>
    intro d dps tps remaining out hnd htech hdrone h
    simp only [droneAssign] at h
    by_cases hre : remaining.isEmpty
    · rw [if_pos hre] at h
      injection h with h'
      subst h'
      have hre' : remaining = [] := List.isEmpty_iff.mp hre
      subst hre'
      exact ⟨fun k _ hk => absurd hk (List.not_mem_nil k),
        fun k _ _ => ⟨rfl, rfl⟩, htech, hdrone⟩
    · rw [if_neg hre] at h
      by_cases hd : d < dps.length
      · rw [if_pos hd] at h
        split at h
        · exact Option.noConfusion h
        · rename_i c hc
          have hcmem : c ∈ remaining := pyMin_mem _ _ _ hc
          have hps : RoutesInv (dps.getD d []) := hdrone _ (getD_mem dps d [] hd)
          have hL : 0 < (dps.getD d []).length := List.length_pos.mpr hps.1
          split at h
          · -- guard branch: close the route, reassign to a technician
            split at h
            · exact Option.noConfusion h
            · rename_i j hj
              have hjlt : j < tps.length := pyMinIdx_lt _ _ _ hj
              have htech' := techInv_insert tps j c htech hjlt
              have hdrone' : DronesInv (dps.set d
                  (((dps.getD d []).set ((dps.getD d []).length - 1)
                    (((dps.getD d []).getD ((dps.getD d []).length - 1) []) ++ [0]))
                    ++ [[0]])) := by
                intro ps hp
                rcases List.mem_or_eq_of_mem_set hp with h1 | h1
                · exact hdrone ps h1
                · subst h1
                  exact routesInv_close _ hps
              obtain ⟨ih1, ih2, ih3, ih4⟩ := ih ((d + 1) % pb.drones_count) _ _ _
                out (List.Nodup.erase c hnd) htech' hdrone' h
              have hdc : ∀ k, k ≠ 0 → countIn2 (dps.set d
                  (((dps.getD d []).set ((dps.getD d []).length - 1)
                    (((dps.getD d []).getD ((dps.getD d []).length - 1) []) ++ [0]))
                    ++ [[0]])) k = countIn2 dps k := by
                intro k hk
                have hcs := countIn2_set dps d
                  (((dps.getD d []).set ((dps.getD d []).length - 1)
                    (((dps.getD d []).getD ((dps.getD d []).length - 1) []) ++ [0]))
                    ++ [[0]]) k hd
                rw [countIn_close _ k hk hL] at hcs
                omega
              have htc : ∀ k, countIn (tps.set j
                  (insertPenultimate (tps.getD j []) c)) k =
                  countIn tps k + if k = c then 1 else 0 := by
                intro k
                have hcs := countIn_set tps j (insertPenultimate (tps.getD j []) c)
                  k hjlt
                rw [count_insertPenultimate] at hcs
                omega
              refine ⟨?_, ?_, ih3, ih4⟩
              · intro k hk0 hk
                by_cases hkc : k = c
                · subst hkc
                  have hknot : k ∉ remaining.erase k := fun hmem =>
                    ((List.Nodup.mem_erase_iff hnd).mp hmem).1 rfl
                  obtain ⟨e1, e2⟩ := ih2 k hk0 hknot
                  rw [e1, e2, hdc k hk0, htc k, if_pos rfl]
                  omega
                · have hk' : k ∈ remaining.erase c :=
                    (List.Nodup.mem_erase_iff hnd).mpr ⟨hkc, hk⟩
                  have hcomb := ih1 k hk0 hk'
                  rw [hdc k hk0, htc k, if_neg hkc] at hcomb
                  omega
              · intro k hk0 hk
                have hkc : k ≠ c := fun he => hk (he ▸ hcmem)
                have hk' : k ∉ remaining.erase c := fun hmem =>
                  hk ((List.Nodup.mem_erase_iff hnd).mp hmem).2
                obtain ⟨e1, e2⟩ := ih2 k hk0 hk'
                rw [hdc k hk0] at e1
                rw [htc k, if_neg hkc] at e2
                exact ⟨e1, by omega⟩
          · -- extend branch
            have hdrone' : DronesInv (dps.set d
                ((dps.getD d []).set ((dps.getD d []).length - 1)
                  (((dps.getD d []).getD ((dps.getD d []).length - 1) []) ++ [c]))) := by
              intro ps hp
              rcases List.mem_or_eq_of_mem_set hp with h1 | h1
              · exact hdrone ps h1
              · subst h1
                exact routesInv_extend _ c hps
            obtain ⟨ih1, ih2, ih3, ih4⟩ := ih ((d + 1) % pb.drones_count) _ _ _
              out (List.Nodup.erase c hnd) htech hdrone' h
            have hdc : ∀ k, countIn2 (dps.set d
                ((dps.getD d []).set ((dps.getD d []).length - 1)
                  (((dps.getD d []).getD ((dps.getD d []).length - 1) []) ++ [c]))) k
                = countIn2 dps k + if k = c then 1 else 0 := by
              intro k
              have hcs := countIn2_set dps d
                ((dps.getD d []).set ((dps.getD d []).length - 1)
                  (((dps.getD d []).getD ((dps.getD d []).length - 1) []) ++ [c]))
                k hd
              rw [countIn_extend _ c k hL] at hcs
              omega
            refine ⟨?_, ?_, ih3, ih4⟩
            · intro k hk0 hk
              by_cases hkc : k = c
              · subst hkc
                have hknot : k ∉ remaining.erase k := fun hmem =>
                  ((List.Nodup.mem_erase_iff hnd).mp hmem).1 rfl
                obtain ⟨e1, e2⟩ := ih2 k hk0 hknot
                rw [hdc k, if_pos rfl] at e1
                omega
              · have hk' : k ∈ remaining.erase c :=
                  (List.Nodup.mem_erase_iff hnd).mpr ⟨hkc, hk⟩
                have hcomb := ih1 k hk0 hk'
                rw [hdc k, if_neg hkc] at hcomb
                omega
            · intro k hk0 hk
              have hkc : k ≠ c := fun he => hk (he ▸ hcmem)
              have hk' : k ∉ remaining.erase c := fun hmem =>
                hk ((List.Nodup.mem_erase_iff hnd).mp hmem).2
              obtain ⟨e1, e2⟩ := ih2 k hk0 hk'
              rw [hdc k, if_neg hkc] at e1
              exact ⟨by omega, e2⟩
      · rw [if_neg hd] at h
        exact Option.noConfusion h

/-- Dropping the customer-free routes (length at most 2, hence exactly
`[0]` or `[0, 0]` under the shape invariant) does not change any customer
count. -/
theorem countIn_filter_short (ps' : List (List ℕ)) (k : ℕ) (hk : k ≠ 0)
    (hall : ∀ p ∈ ps', p ≠ [] ∧ p.headI = 0 ∧ lastOf p = 0) :
    countIn (ps'.filter fun p => decide (2 < p.length)) k = countIn ps' k := by
  induction ps' with
  | nil => rfl
  | cons p t ih =>
    have hp := hall p (List.mem_cons_self p t)
    have iht := ih fun q hq => hall q (List.mem_cons_of_mem p hq)
    by_cases hlen : 2 < p.length
    · rw [List.filter_cons_of_pos (by simpa using hlen), countIn_cons, countIn_cons,
        iht]
    · rw [List.filter_cons_of_neg (by simpa using hlen), countIn_cons, iht]
      have hcount : p.count k = 0 := by
        match hshape : p with
        | [] => exact absurd rfl hp.1
        | [a] =>
          have : a = 0 := hp.2.1
          subst this
          exact count_depot k hk
        | [a, b] =>
          have ha : a = 0 := hp.2.1
          have hb : b = 0 := hp.2.2
          subst ha
          subst hb
          simp [List.count_cons, hk]
        | a :: b :: e :: t' =>
          exfalso
          simp only [List.length_cons] at hlen
          omega
      omega

/-- After closing the open route, every route of the drone starts and ends
at the depot. -/
theorem closed_routes_all (ps : List (List ℕ)) (h : RoutesInv ps) :
    ∀ p ∈ (ps.set (ps.length - 1) ((ps.getD (ps.length - 1) []) ++ [0])),
      p ≠ [] ∧ p.headI = 0 ∧ lastOf p = 0 := by
  obtain ⟨hne, hmem, hlast⟩ := h
  have hL : 0 < ps.length := List.length_pos.mpr hne
  intro p hp
  obtain ⟨i, hi, hgp⟩ := List.mem_iff_getElem.mp hp
  rw [List.length_set] at hi
  have hgd : (ps.set (ps.length - 1)
      ((ps.getD (ps.length - 1) []) ++ [0])).getD i [] = p := by
    rw [List.getD_eq_getElem _ _ (by rw [List.length_set]; exact hi)]
    exact hgp
  by_cases hieq : i = ps.length - 1
  · subst hieq
    rw [getD_set_self _ _ _ _ (by omega)] at hgd
    have hold := hmem _ (getD_mem ps (ps.length - 1) [] (by omega))
    rw [← hgd]
    exact ⟨by simp, by rw [headI_concat _ _ hold.1]; exact hold.2,
      lastOf_concat _ 0⟩
  · rw [getD_set_ne _ _ _ _ _ (fun he => hieq he.symm)] at hgd
    have holdmem := hmem _ (getD_mem ps i [] hi)
    rw [← hgd]
    exact ⟨holdmem.1, holdmem.2, hlast i (by omega)⟩

/-- The final per-drone transformation of `initial` (close the open route,
drop customer-free routes) preserves every customer count. -/
theorem countIn2_final (dps : List (List (List ℕ))) (k : ℕ) (hk : k ≠ 0)
    (h : DronesInv dps) :
    countIn2 (dps.map fun paths => ((paths.set (paths.length - 1)
      ((paths.getD (paths.length - 1) []) ++ [0])).filter
        fun p => decide (2 < p.length))) k = countIn2 dps k := by
  induction dps with
  | nil => rfl
  | cons ps t ih =>
    have hps : RoutesInv ps := h ps (List.mem_cons_self ps t)
    have hL : 0 < ps.length := List.length_pos.mpr hps.1
    rw [List.map_cons, countIn2_cons, countIn2_cons,
      ih fun q hq => h q (List.mem_cons_of_mem ps hq),
      countIn_filter_short _ k hk (closed_routes_all ps hps),
      countIn_extend ps 0 k hL, if_neg hk]
    omega

/-- Every route in the returned drone structure is depot-delimited and
contains a customer. -/
theorem final_routes_shape (dps : List (List (List ℕ))) (h : DronesInv dps) :
    ∀ ps ∈ (dps.map fun paths => ((paths.set (paths.length - 1)
      ((paths.getD (paths.length - 1) []) ++ [0])).filter
        fun p => decide (2 < p.length))),
      ∀ p ∈ ps, (p ≠ [] ∧ p.headI = 0 ∧ lastOf p = 0) ∧ 2 < p.length := by
  intro ps hps p hp
  obtain ⟨ps0, hps0, hmap⟩ := List.mem_map.mp hps
  subst hmap
  obtain ⟨hpmem, hplen⟩ := List.mem_filter.mp hp
  exact ⟨closed_routes_all ps0 (h ps0 hps0) p hpmem, by simpa using hplen⟩

/-- C7: after `initial()` returns, every customer index from 1 to
`customers_count` appears in exactly one route across all drone routes and
technician routes combined, every route begins and ends at depot 0, only
dronable customers appear in the drone routes, and every returned drone
route contains at least one customer (the `len(path) > 2` filter). -/
theorem claim_C7_initial_coverage (pb : D2DProblem) (dcfg : ℕ → DroneConfig)
    (fuel1 fuel2 : ℕ) (dps : List (List (List ℕ))) (tps : List (List ℕ))
    (hrun : initial pb dcfg fuel1 fuel2 = some (dps, tps)) :
    (∀ k, 1 ≤ k → k ≤ pb.customers_count → countIn2 dps k + countIn tps k = 1) ∧
    (∀ p ∈ tps, p ≠ [] ∧ p.headI = 0 ∧ lastOf p = 0) ∧
    (∀ ps ∈ dps, ∀ p ∈ ps, p ≠ [] ∧ p.headI = 0 ∧ lastOf p = 0) ∧
    (∀ k, k ≠ 0 → pb.dronable k = false → countIn2 dps k = 0) ∧
    (∀ ps ∈ dps, ∀ p ∈ ps, 2 < p.length) := by
  have hCnd : (((List.range pb.customers_count).map (· + 1))).Nodup :=
    List.Nodup.map (add_left_injective 1) (List.nodup_range _)
  simp only [initial] at hrun
  split at hrun
  · exact Option.noConfusion hrun
  · rename_i tps0 htech0
    split at hrun
    · exact Option.noConfusion hrun
    · rename_i out hdrone0
      injection hrun with h'
      injection h' with hdps htps
      subst hdps
      subst htps
      obtain ⟨t1, t2, t3, t4⟩ := techAssign_spec pb fuel1 0 _ _ tps0
        (hCnd.filter _) htech0
      have htps0P : ∀ p ∈ tps0, p ≠ [] ∧ p.headI = 0 := by
        refine t4 (fun p => p ≠ [] ∧ p.headI = 0) ?_ ?_
        · intro p c hp
          exact ⟨by simp, by rw [headI_concat _ _ hp.1]; exact hp.2⟩
        · intro p hp
          rw [List.eq_of_mem_replicate hp]
          exact ⟨by simp, rfl⟩
      have htech1 : TechInv (tps0.map fun p => p ++ [0]) := by
        intro q hq
        obtain ⟨p, hp, hmap⟩ := List.mem_map.mp hq
        subst hmap
        have hP := htps0P p hp
        have hlp : 0 < p.length := List.length_pos.mpr hP.1
        refine ⟨?_, ?_, lastOf_concat _ 0⟩
        · rw [List.length_append, List.length_singleton]
          omega
        · rw [headI_concat _ _ hP.1]
          exact hP.2
      have hdrones0 : DronesInv (List.replicate pb.drones_count [[0]]) := by
        intro ps hps
        rw [List.eq_of_mem_replicate hps]
        refine ⟨by simp, ?_, ?_⟩
        · intro p hp
          have hp0 : p = [0] := by simpa using hp
          subst hp0
          exact ⟨by simp, rfl⟩
        · intro i hi
          simp only [List.length_cons, List.length_nil] at hi
          omega
      obtain ⟨d1, d2, d3, d4⟩ := droneAssign_spec pb dcfg fuel2 0 _ _ _ out
        (hCnd.filter _) htech1 hdrones0 hdrone0
      have hmemC : ∀ k, k ∈ ((List.range pb.customers_count).map (· + 1)) ↔
          1 ≤ k ∧ k ≤ pb.customers_count := by
        intro k
        simp only [List.mem_map, List.mem_range]
        constructor
        · rintro ⟨m, hm, rfl⟩
          omega
        · rintro ⟨h1, h2⟩
          exact ⟨k - 1, by omega, by omega⟩
      have hmemT : ∀ k, k ∈ (((List.range pb.customers_count).map (· + 1)).filter
          fun c => ! pb.dronable c) ↔
          (1 ≤ k ∧ k ≤ pb.customers_count) ∧ pb.dronable k = false := by
        intro k
        rw [List.mem_filter, hmemC]
        simp [Bool.not_eq_true']
      have hmemD : ∀ k, k ∈ (((List.range pb.customers_count).map (· + 1)).filter
          fun c => pb.dronable c) ↔
          (1 ≤ k ∧ k ≤ pb.customers_count) ∧ pb.dronable k = true := by
        intro k
        rw [List.mem_filter, hmemC]
      have hfin : ∀ k, k ≠ 0 →
          countIn2 (out.1.map fun paths => ((paths.set (paths.length - 1)
            ((paths.getD (paths.length - 1) []) ++ [0])).filter
              fun p => decide (2 < p.length))) k = countIn2 out.1 k :=
        fun k hk => countIn2_final out.1 k hk d4
      refine ⟨?_, ?_, ?_, ?_, ?_⟩
      · intro k h1k h2k
        have hk0 : k ≠ 0 := by omega
        rw [hfin k hk0]
        by_cases hdk : pb.dronable k = true
        · have hkD : k ∈ (((List.range pb.customers_count).map (· + 1)).filter
              fun c => pb.dronable c) := (hmemD k).mpr ⟨⟨h1k, h2k⟩, hdk⟩
          have hkT : k ∉ (((List.range pb.customers_count).map (· + 1)).filter
              fun c => ! pb.dronable c) := by
            intro hmem
            have hfalse := ((hmemT k).mp hmem).2
            rw [hdk] at hfalse
            exact Bool.noConfusion hfalse
          have hcomb := d1 k hk0 hkD
          rw [countIn2_replicate_depot pb.drones_count k hk0,
            countIn_map_concat tps0 k hk0, t2 k hkT,
            countIn_replicate_depot pb.technicians_count k hk0] at hcomb
          omega
        · have hdkf : pb.dronable k = false := Bool.eq_false_iff.mpr hdk
          have hkT : k ∈ (((List.range pb.customers_count).map (· + 1)).filter
              fun c => ! pb.dronable c) := (hmemT k).mpr ⟨⟨h1k, h2k⟩, hdkf⟩
          have hkD : k ∉ (((List.range pb.customers_count).map (· + 1)).filter
              fun c => pb.dronable c) := by
            intro hmem
            have htrue := ((hmemD k).mp hmem).2
            rw [hdkf] at htrue
            exact Bool.noConfusion htrue
          obtain ⟨e1, e2⟩ := d2 k hk0 hkD
          rw [countIn2_replicate_depot pb.drones_count k hk0] at e1
          rw [countIn_map_concat tps0 k hk0, t1 k hkT,
            countIn_replicate_depot pb.technicians_count k hk0] at e2
          omega
      · intro p hp
        obtain ⟨hl2, hh, hlst⟩ := d3 p hp
        exact ⟨List.length_pos.mp (by omega), hh, hlst⟩
      · intro ps hps p hp
        exact ((final_routes_shape out.1 d4) ps hps p hp).1
      · intro k hk0 hdkf
        rw [hfin k hk0]
        have hkD : k ∉ (((List.range pb.customers_count).map (· + 1)).filter
            fun c => pb.dronable c) := by
          intro hmem
          have htrue := ((hmemD k).mp hmem).2
          rw [hdkf] at htrue
          exact Bool.noConfusion htrue
        rw [(d2 k hk0 hkD).1, countIn2_replicate_depot pb.drones_count k hk0]
      · intro ps hps p hp
        exact ((final_routes_shape out.1 d4) ps hps p hp).2

/-- Witness for C7 on the all-zero one-customer instance with one drone and
one technician: the single (dronable) customer 1 ends up in the single
drone route `[0, 1, 0]`, and the technician keeps the empty tour
`[0, 0]`. -/
theorem claim_C7_witness :
    ∃ (dps : List (List (List ℕ))) (tps : List (List ℕ)),
      initial pbZero (fun _ => cfgOne) 1 2 = some (dps, tps) ∧
      ∀ k, 1 ≤ k → k ≤ pbZero.customers_count →
        countIn2 dps k + countIn tps k = 1 := by
  have hdist : ∀ i j : ℕ, pbZero.distance i j = 0 := by
    intro i j
    simp [D2DProblem.distance, pbZero]
  have hcc : pbZero.customers_count = 1 := rfl
  have hdc : pbZero.drones_count = 1 := rfl
  have htc : pbZero.technicians_count = 1 := rfl
  have hfd : pbZero.drones_flight_duration = 1 := rfl
  have hdro : ∀ c, pbZero.dronable c = true := fun _ => rfl
  have hdem : ∀ c, pbZero.demands c = 0 := fun _ => rfl
  have hsvc : ∀ c, pbZero.drone_service_time c = 0 := fun _ => rfl
  have hrun : initial pbZero (fun _ => cfgOne) 1 2 =
      some ([[[0, 1, 0]]], [[0, 0]]) := by
    norm_num [initial, techAssign, droneAssign, List.range_succ, List.range_zero,
      pyMin, lastOf, calculate_total_weight, droneFlightTime, droneEnergy,
      energyAux, calculate_drone_arrival_timestamps, droneArrivalsAux,
      cfgOne, hdist, hcc, hdc, htc, hfd, hdro, hdem, hsvc]
  obtain ⟨c1, -, -, -, -⟩ := claim_C7_initial_coverage pbZero (fun _ => cfgOne)
    1 2 _ _ hrun
  exact ⟨_, _, hrun, c1⟩

end TabuSearch
